import Mathlib

/-!
Verification development for the "math" language (46bit/langs): a shallow
embedding of the abstract syntax tree, the pretty-printer, the nom-based
parser, the tree-walking interpreter and the LLVM-backed code generator's
observable semantics, together with theorems settling the frozen claims.

Source files embedded:
- `src/lib.rs`: AST types (`Name`, `Program`, `Statements`, `Statement`,
  `Expression`, `Token`, `Operand`, `Match`, `Matcher`, `Operator`),
  `Expression::tokens`, and all `Display` implementations.
- `src/parser/expression.rs`: the expression grammar (`expression`,
  `operator`, `operand`, `i64`, `group`, `variable_substitution`,
  `function_application`, `match_`, `match_clauses`, `match_clause`,
  `Clause`, `default_clause_of`, `matchers_of`).
- `src/math/compiler/expression.rs`: the operator lowering used for the
  compiled-execution semantics (`LLVMBuildSub/Add/SDiv/Mul`).

Parts of the repository referenced by the claims but absent from the
source tree (the `parser` module root with `parse`/`name`/`program`/
`statement` and the `shunting_yard` module, the whole `interpreter`
module, and the top-level `compiler` module) are modelled from the
specification; each such definition carries a doc comment starting with
`Modelled from the spec:`.

Machine integers are modelled as `Int` with explicit wrapping into the
64-bit signed range where the code wraps.
-/

namespace Math

/-! ## Characters and 64-bit range -/

/-- ASCII decimal digit (bytes 48-57), as `nom::is_digit` over bytes. -/
def isDigitChar (c : Char) : Bool :=
  48 ≤ c.toNat && c.toNat ≤ 57

/-- Lowercase ASCII letter (bytes 97-122, the first byte of a `name`). -/
def isLowerChar (c : Char) : Bool :=
  97 ≤ c.toNat && c.toNat ≤ 122

/-- Byte allowed after the first byte of a `name`: lowercase or the
underscore (byte 95). -/
def isNameTailChar (c : Char) : Bool :=
  isLowerChar c || c.toNat == 95

/-- Whitespace bytes eaten by nom's `ws!` combinator: space, tab, newline,
carriage return. -/
def isWsChar (c : Char) : Bool :=
  c.toNat == 32 || c.toNat == 9 || c.toNat == 10 || c.toNat == 13

/-- Drop leading whitespace, as the `ws!` combinator does around tokens. -/
def skipWs : List Char → List Char
  | [] => []
  | c :: cs => if isWsChar c then skipWs cs else c :: cs

/-- Smallest `i64` value, `-2^63`. -/
def i64Min : Int := -(2 ^ 63)

/-- Largest `i64` value, `2^63 - 1`. -/
def i64Max : Int := 2 ^ 63 - 1

/-- `v` fits in a 64-bit signed integer. -/
def inI64Range (v : Int) : Prop := i64Min ≤ v ∧ v ≤ i64Max

instance (v : Int) : Decidable (inI64Range v) := by
  unfold inI64Range; infer_instance

/-- Wrap an integer into the 64-bit signed range (two's-complement). -/
def wrap64 (v : Int) : Int :=
  (v + 2 ^ 63) % 2 ^ 64 - 2 ^ 63

/-! ## Abstract syntax tree (src/lib.rs) -/

/-- `pub struct Name(pub String)`. -/
structure Name where
  val : String
deriving DecidableEq, Repr

/-- `pub enum Operator { Subtract, Add, Divide, Multiply }`, whose derived
`Ord` instance orders the variants in declaration order. -/
inductive Operator where
  | Subtract
  | Add
  | Divide
  | Multiply
deriving DecidableEq, Repr

/-- Precedence of an operator: the rank of its variant in the Rust
declaration order, which is what `#[derive(PartialOrd, Ord)]` compares. -/
def Operator.prec : Operator → Nat
  | .Subtract => 0
  | .Add => 1
  | .Divide => 2
  | .Multiply => 3

/-- The derived `<` on `Operator` (comparison of declaration ranks). -/
def Operator.lt (a b : Operator) : Bool :=
  a.prec < b.prec

mutual

/-- `pub enum Expression { Operand(Operand), Operation(Operator, Box<Expression>, Box<Expression>) }`. -/
inductive Expression where
  | Operand (o : Operand)
  | Operation (op : Operator) (l r : Expression)
deriving Repr

/-- `pub enum Operand { I64(i64), Group(..), VarSubstitution(..), FnApplication(..), Match(..) }`. -/
inductive Operand where
  | I64 (n : Int)
  | Group (e : Expression)
  | VarSubstitution (n : Name)
  | FnApplication (n : Name) (args : List Expression)
  | Match (m : Match)
deriving Repr

/-- `pub struct Match { with: Box<Expression>, clauses: Vec<(Matcher, Expression)>, default: Box<Expression> }`. -/
inductive Match where
  | mk (with_ : Expression) (clauses : List (Matcher × Expression)) (dflt : Expression)
deriving Repr

/-- `pub enum Matcher { Value(Expression) }`. -/
inductive Matcher where
  | Value (e : Expression)
deriving Repr

end

/-- `pub enum Statement { VarAssignment(Name, Expression), FnDefinition(Name, Vec<Name>, Expression) }`. -/
inductive Statement where
  | VarAssignment (n : Name) (e : Expression)
  | FnDefinition (n : Name) (params : List Name) (body : Expression)
deriving Repr

/-- `pub struct Statements(pub Vec<Statement>)`. -/
structure Statements where
  stmts : List Statement
deriving Repr

/-- `pub struct Program { inputs: Vec<Name>, statements: Statements, outputs: Vec<Name> }`. -/
structure Program where
  inputs : List Name
  statements : Statements
  outputs : List Name
deriving Repr

/-- `pub enum Token { Operand(Operand), Operator(Operator) }`. -/
inductive Token where
  | Operand (o : Operand)
  | Operator (op : Operator)
deriving Repr

/-- `Expression::tokens` (src/lib.rs lines 310-321): in-order flattening of
the operation tree into operand and operator tokens. -/
def Expression.tokens : Expression → List Token
  | .Operand operand => [Token.Operand operand]
  | .Operation operator exp0 exp1 =>
      exp0.tokens ++ Token.Operator operator :: exp1.tokens

/-! ## Decimal rendering of integers (Rust `{}` formatting of `i64`) -/

/-- The decimal digit character for a value below ten. -/
def digitChar : Nat → Char
  | 0 => '0'
  | 1 => '1'
  | 2 => '2'
  | 3 => '3'
  | 4 => '4'
  | 5 => '5'
  | 6 => '6'
  | 7 => '7'
  | 8 => '8'
  | 9 => '9'
  | _ => '0'

/-- Decimal digits of a natural number, most significant first; the first
argument is a structural recursion bound, sufficient whenever it exceeds
the number itself. -/
def natToDecGo : Nat → Nat → List Char
  | 0, _ => []
  | f + 1, n => if n < 10 then [digitChar n] else natToDecGo f (n / 10) ++ [digitChar (n % 10)]

/-- Decimal digits of a natural number, most significant first. -/
def natToDec (n : Nat) : List Char :=
  natToDecGo (n + 1) n

/-- Decimal rendering of an `i64` value, as Rust's `{}` formatting. -/
def intToDec (v : Int) : List Char :=
  if v < 0 then '-' :: natToDec (-v).toNat else natToDec v.toNat

/-! ## Display implementations (src/lib.rs) -/

/-- `impl fmt::Display for Operator`. -/
def Operator.display : Operator → List Char
  | .Subtract => ['-']
  | .Add => ['+']
  | .Divide => ['/']
  | .Multiply => ['*']

/-- A displayed child is parenthesised when it is an operation whose
operator is strictly lower in the derived order than the parent's. -/
def needsParens (operator : Operator) : Expression → Bool
  | .Operation innerOperator _ _ => Operator.lt innerOperator operator
  | .Operand _ => false

mutual

/-- `impl fmt::Display for Expression` (src/lib.rs lines 323-351): child
operations are parenthesised exactly when their operator is strictly lower
in the derived order than the parent's. -/
def displayExpr : Expression → List Char
  | .Operand v => displayOperand v
  | .Operation operator expr1 expr2 =>
      (if needsParens operator expr1 then '(' :: displayExpr expr1 ++ [')']
       else displayExpr expr1) ++
      ' ' :: operator.display ++ ' ' ::
      (if needsParens operator expr2 then '(' :: displayExpr expr2 ++ [')']
       else displayExpr expr2)

/-- `impl fmt::Display for Operand`. -/
def displayOperand : Operand → List Char
  | .I64 n => intToDec n
  | .Group exp => '(' :: displayExpr exp ++ [')']
  | .VarSubstitution name => name.val.data
  | .FnApplication name args => name.val.data ++ '(' :: displayArgs args ++ [')']
  | .Match m => displayMatch m

/-- Comma-separated rendering of function-application arguments. -/
def displayArgs : List Expression → List Char
  | [] => []
  | [e] => displayExpr e
  | e :: rest => displayExpr e ++ ',' :: ' ' :: displayArgs rest

/-- `impl fmt::Display for Match`: `match W { M => E, .. _ => D, }`. -/
def displayMatch : Match → List Char
  | .mk w cs d =>
      "match ".data ++ displayExpr w ++ " \x7b ".data ++ displayClauses cs ++
        "_ => ".data ++ displayExpr d ++ ", \x7d".data

/-- The clause list of a displayed match, each clause `M => E, `. -/
def displayClauses : List (Matcher × Expression) → List Char
  | [] => []
  | (m, e) :: rest =>
      displayMatcher m ++ " => ".data ++ displayExpr e ++ ", ".data ++ displayClauses rest

/-- `impl fmt::Display for Matcher`. -/
def displayMatcher : Matcher → List Char
  | .Value expression => displayExpr expression

end

/-- Comma-separated rendering of a name list (`Program`/`FnDefinition`). -/
def displayNames : List Name → List Char
  | [] => []
  | [n] => n.val.data
  | n :: rest => n.val.data ++ ',' :: ' ' :: displayNames rest

/-- `impl fmt::Display for Statement`. -/
def displayStatement : Statement → List Char
  | .VarAssignment n e => n.val.data ++ " = ".data ++ displayExpr e ++ [';']
  | .FnDefinition n params e =>
      n.val.data ++ '(' :: displayNames params ++ ") = ".data ++ displayExpr e ++ [';']

/-- `impl fmt::Display for Statements`: statements joined by newlines. -/
def displayStatements : List Statement → List Char
  | [] => []
  | [s] => displayStatement s
  | s :: rest => displayStatement s ++ '\n' :: displayStatements rest

/-- `impl fmt::Display for Program`. -/
def displayProgram (p : Program) : List Char :=
  "inputs".data ++
    (if p.inputs.isEmpty then [] else ' ' :: displayNames p.inputs) ++ ";\n".data ++
    (if p.statements.stmts.isEmpty then [] else displayStatements p.statements.stmts ++ ['\n']) ++
    "outputs".data ++
    (if p.outputs.isEmpty then [] else ' ' :: displayNames p.outputs) ++ [';']

/-! ## Parser result type

The nom parsers return `Done`, `Error` or `Incomplete`; inside
`alt_complete!` an `Incomplete` is treated as a failure, and every use of a
sub-parser in this grammar either sits inside `alt_complete!` or turns
`Incomplete` into overall failure, so both are modelled as `error`. A Rust
panic (reachable through the `unwrap` calls in the `i64` parser) is
modelled separately as `panic`, since it aborts the whole parse and is not
a `ParseError`. -/
inductive PResult (α : Type) where
  | done (rest : List Char) (val : α)
  | error
  | panic
deriving Repr

/-- `nom::tag!`: expect a literal character sequence. -/
def tagP : List Char → List Char → PResult Unit
  | [], s => .done s ()
  | _ :: _, [] => .error
  | c :: t, x :: s => if c = x then tagP t s else .error

/-- `ws!(tag!(..))`: whitespace is stripped before and after the literal. -/
def wsTagP (t : List Char) (s : List Char) : PResult Unit :=
  match tagP t (skipWs s) with
  | .done r _ => .done (skipWs r) ()
  | .error => .error
  | .panic => .panic

/-- Numeric value of a list of decimal digit characters. -/
def decDigits (cs : List Char) : Nat :=
  cs.foldl (fun acc c => acc * 10 + (c.toNat - 48)) 0

/-- Rust's `str::parse::<i64>`: an optional leading `-`, then one or more
digits, rejecting values outside the 64-bit signed range. -/
def rustParseI64 (cs : List Char) : Option Int :=
  match cs with
  | [] => none
  | c :: ds =>
      if c = '-' then
        if ds ≠ [] ∧ ds.all isDigitChar then
          if inI64Range (-(decDigits ds : Int)) then some (-(decDigits ds : Int)) else none
        else none
      else
        if (c :: ds).all isDigitChar then
          if inI64Range (decDigits (c :: ds) : Int) then some (decDigits (c :: ds) : Int)
          else none
        else none

namespace Parser

/-- The reserved words of the language (src/lib.rs `RESERVED_NAMES`). -/
def reservedNames : List String := ["inputs", "outputs", "if", "match", "_"]

/-- `enum Clause { Matcher(Matcher), Default_ }` (src/parser/expression.rs
lines 95-99). -/
inductive Clause where
  | Matcher (m : Math.Matcher)
  | Default_
deriving Repr

/-- The loop body of `default_clause_of`: scan for a default clause,
returning `None` as soon as a second one is seen. -/
def default_clause_go : Option Expression → List (Clause × Expression) → Option Expression
  | acc, [] => acc
  | acc, (c, e) :: rest =>
      match c with
      | .Default_ =>
          match acc with
          | none => default_clause_go (some e) rest
          | some _ => none
      | .Matcher _ => default_clause_go acc rest

/-- `default_clause_of` (src/parser/expression.rs lines 101-113): the
expression of the unique default clause, or `None` when there are zero or
at least two default clauses. -/
def default_clause_of (clauses : List (Clause × Expression)) : Option Expression :=
  default_clause_go none clauses

/-- `matchers_of` (src/parser/expression.rs lines 115-123): the matcher
clauses, in order, with the default clauses dropped. -/
def matchers_of : List (Clause × Expression) → List (Matcher × Expression)
  | [] => []
  | (c, e) :: rest =>
      match c with
      | .Matcher m => (m, e) :: matchers_of rest
      | .Default_ => matchers_of rest

/-- Modelled from the spec: the `name` parser of the missing `parser`
module root — a lowercase letter followed by lowercase letters or
underscores, rejecting reserved words (§3 name invariant, §4.1 grammar,
§9 "reserved-name ... consumed by the parser's name-validation rule"). -/
def name (s : List Char) : PResult Name :=
  match s with
  | [] => .error
  | c :: rest =>
      if isLowerChar c then
        let tl := rest.takeWhile isNameTailChar
        let rem := rest.dropWhile isNameTailChar
        let str := String.mk (c :: tl)
        if reservedNames.contains str then .error else .done rem ⟨str⟩
      else .error

/-- `operator`: `one_of!("+-*/")` mapped to the `Operator` variants. -/
def operator (s : List Char) : PResult Operator :=
  match s with
  | [] => .error
  | c :: rest =>
      if c = '+' then .done rest .Add
      else if c = '-' then .done rest .Subtract
      else if c = '*' then .done rest .Multiply
      else if c = '/' then .done rest .Divide
      else .error

/-- `i64` (src/parser/expression.rs lines 39-42): take one or more bytes
that are digits or `-`, then `str::parse::<i64>().unwrap()` — a token that
is not a well-formed in-range integer makes the `unwrap` panic. -/
def i64 (s : List Char) : PResult Int :=
  let tok := s.takeWhile fun b => isDigitChar b || b.toNat == 45
  let rest := s.dropWhile fun b => isDigitChar b || b.toNat == 45
  if tok.isEmpty then .error
  else
    match rustParseI64 tok with
    | some v => .done rest v
    | none => .panic

/-- `variable_substitution`: a `name` followed by a peek (after stripping
whitespace) at a byte other than `(`; a peek at end of input is
`Incomplete`, hence failure under `alt_complete!`. -/
def variable_substitution (s : List Char) : PResult Name :=
  match name s with
  | .done r n =>
      match skipWs r with
      | [] => .error
      | c :: rest => if c = '(' then .error else .done (c :: rest) n
  | .error => .error
  | .panic => .panic

/-! ### Shunting yard (modelled from the spec)

The `shunting_yard` module is not under `src/`; §4.1: "each time an
operator of lower-or-equal precedence than the top of a pending-operator
stack is seen, the stack reduces (folds the higher-or-equal-precedence
pending operations into operand nodes) before the new operator is pushed;
at end of input the stack fully reduces". -/

/-- Modelled from the spec: a shunting-yard state — a stack of operand
expressions (head is the top) and a stack of pending operators. -/
structure ShuntingYard where
  operands : List Expression
  operators : List Operator
deriving Repr

/-- Modelled from the spec: `ShuntingYard::new(first_operand)`. -/
def ShuntingYard.new (o : Operand) : ShuntingYard :=
  ⟨[.Operand o], []⟩

/-- Modelled from the spec: reduce the pending stacks while the incoming
operator has lower-or-equal precedence than the top pending operator. -/
def syReduce (op : Operator) : List Expression → List Operator → List Expression × List Operator
  | operands, [] => (operands, [])
  | operands, p :: ps =>
      if p.prec < op.prec then (operands, p :: ps)
      else
        match operands with
        | e2 :: e1 :: es => syReduce op (Expression.Operation p e1 e2 :: es) ps
        | es => (es, p :: ps)

/-- Modelled from the spec: `ShuntingYard::push(operator, operand)` —
reduce, then push the operator and the operand. -/
def ShuntingYard.push (sy : ShuntingYard) (op : Operator) (o : Operand) : ShuntingYard :=
  let (es, ps) := syReduce op sy.operands sy.operators
  ⟨Expression.Operand o :: es, op :: ps⟩

/-- Modelled from the spec: the final full reduction of the stacks. -/
def syFinish : List Expression → List Operator → Expression
  | es, [] => es.headD (.Operand (.I64 0))
  | e2 :: e1 :: es, p :: ps => syFinish (Expression.Operation p e1 e2 :: es) ps
  | es, _ :: _ => es.headD (.Operand (.I64 0))

/-- Modelled from the spec: `ShuntingYard::into_expression()`. -/
def ShuntingYard.intoExpression (sy : ShuntingYard) : Expression :=
  syFinish sy.operands sy.operators

mutual

/-- `expression` (src/parser/expression.rs lines 9-20): a first
whitespace-stripped operand, then `fold_many0` of (operator, operand)
pairs into a shunting yard, finished with `into_expression`. The `fuel`
argument bounds the recursion depth and is threaded through every parser;
with enough fuel it never runs out. -/
def expression : Nat → List Char → PResult Expression
  | 0, _ => .error
  | fuel + 1, s =>
      match operand fuel (skipWs s) with
      | .done r o =>
          match foldOps fuel (ShuntingYard.new o) (skipWs r) with
          | .done r2 sy => .done r2 sy.intoExpression
          | .error => .error
          | .panic => .panic
      | .error => .error
      | .panic => .panic

/-- The `fold_many0!(pair!(ws!(operator), ws!(operand)), ..)` loop of
`expression`: on a failed pair the fold stops without consuming input. -/
def foldOps : Nat → ShuntingYard → List Char → PResult ShuntingYard
  | 0, _, _ => .error
  | fuel + 1, sy, s =>
      match operator (skipWs s) with
      | .done r1 op =>
          match operand fuel (skipWs r1) with
          | .done r2 o => foldOps fuel (sy.push op o) (skipWs r2)
          | .error => .done s sy
          | .panic => .panic
      | .error => .done s sy
      | .panic => .panic

/-- `operand` (src/parser/expression.rs lines 31-37): `alt_complete!` over
integer literal, group, variable substitution, function application and
match, in that order. A panic in a branch aborts the whole parse. -/
def operand : Nat → List Char → PResult Operand
  | 0, _ => .error
  | fuel + 1, s =>
      match i64 s with
      | .done r v => .done r (.I64 v)
      | .panic => .panic
      | .error =>
      match group fuel s with
      | .done r e => .done r (.Group e)
      | .panic => .panic
      | .error =>
      match variable_substitution s with
      | .done r n => .done r (.VarSubstitution n)
      | .panic => .panic
      | .error =>
      match function_application fuel s with
      | .done r t => .done r (.FnApplication t.1 t.2)
      | .panic => .panic
      | .error =>
      match match_ fuel s with
      | .done r m => .done r (.Match m)
      | .panic => .panic
      | .error => .error

/-- `group`: `delimited!(tag!("("), expression, tag!(")"))`. -/
def group : Nat → List Char → PResult Expression
  | 0, _ => .error
  | fuel + 1, s =>
      match tagP ['('] s with
      | .done r1 _ =>
          match expression fuel r1 with
          | .done r2 e =>
              match tagP [')'] r2 with
              | .done r3 _ => .done r3 e
              | .error => .error
              | .panic => .panic
          | .error => .error
          | .panic => .panic
      | .error => .error
      | .panic => .panic

/-- `function_application`: a `name`, `ws!(tag!("("))`, an optional
comma-separated expression list, `ws!(tag!(")"))`. -/
def function_application : Nat → List Char → PResult (Name × List Expression)
  | 0, _ => .error
  | fuel + 1, s =>
      match name s with
      | .done r1 n =>
          match wsTagP ['('] r1 with
          | .done r2 _ =>
              match expressions fuel r2 with
              | .done r3 args =>
                  match wsTagP [')'] r3 with
                  | .done r4 _ => .done r4 (n, args)
                  | .error => .error
                  | .panic => .panic
              | .error => .error
              | .panic => .panic
          | .error => .error
          | .panic => .panic
      | .error => .error
      | .panic => .panic

/-- `expressions`: `separated_list!(ws!(tag!(",")), expression)` — possibly
empty; when an element fails after a separator, the separator is not
consumed. -/
def expressions : Nat → List Char → PResult (List Expression)
  | 0, _ => .error
  | fuel + 1, s =>
      match expression fuel s with
      | .done r e => expressionsLoop fuel [e] r
      | .error => .done s []
      | .panic => .panic

/-- The iteration of `expressions` after the first element. -/
def expressionsLoop : Nat → List Expression → List Char → PResult (List Expression)
  | 0, _, _ => .error
  | fuel + 1, acc, s =>
      match wsTagP [','] s with
      | .done r1 _ =>
          match expression fuel r1 with
          | .done r2 e => expressionsLoop fuel (acc ++ [e]) r2
          | .error => .done s acc
          | .panic => .panic
      | .error => .done s acc
      | .panic => .panic

/-- `match_` (src/parser/expression.rs lines 65-75): `ws!(tag!("match "))`
— note the literal trailing space — the scrutinee expression, `{`, the
clause list, an optional trailing comma, and `}`. -/
def match_ : Nat → List Char → PResult Match
  | 0, _ => .error
  | fuel + 1, s =>
      match wsTagP "match ".data s with
      | .done r1 _ =>
          match expression fuel r1 with
          | .done r2 w =>
              match wsTagP ['{'] r2 with
              | .done r3 _ =>
                  match match_clauses fuel r3 with
                  | .done r4 md =>
                      let r5 := match wsTagP [','] r4 with
                        | .done r _ => r
                        | _ => r4
                      match wsTagP ['}'] r5 with
                      | .done r6 _ => .done r6 (Match.mk w md.1 md.2)
                      | .error => .error
                      | .panic => .panic
                  | .error => .error
                  | .panic => .panic
              | .error => .error
              | .panic => .panic
          | .error => .error
          | .panic => .panic
      | .error => .error
      | .panic => .panic

/-- `match_clauses` (src/parser/expression.rs lines 77-83): the
comma-separated clause list, `map_opt`-ed through `default_clause_of` —
the parse fails unless exactly one default clause is present. -/
def match_clauses : Nat → List Char → PResult (List (Matcher × Expression) × Expression)
  | 0, _ => .error
  | fuel + 1, s =>
      match clauseList fuel s with
      | .done r cs =>
          match default_clause_of cs with
          | some d => .done r (matchers_of cs, d)
          | none => .error
      | .error => .error
      | .panic => .panic

/-- `separated_list!(ws!(tag!(",")), match_clause)`. -/
def clauseList : Nat → List Char → PResult (List (Clause × Expression))
  | 0, _ => .error
  | fuel + 1, s =>
      match match_clause fuel s with
      | .done r c => clauseListLoop fuel [c] r
      | .error => .done s []
      | .panic => .panic

/-- The iteration of `clauseList` after the first element. -/
def clauseListLoop : Nat → List (Clause × Expression) → List Char → PResult (List (Clause × Expression))
  | 0, _, _ => .error
  | fuel + 1, acc, s =>
      match wsTagP [','] s with
      | .done r1 _ =>
          match match_clause fuel r1 with
          | .done r2 c => clauseListLoop fuel (acc ++ [c]) r2
          | .error => .done s acc
          | .panic => .panic
      | .error => .done s acc
      | .panic => .panic

/-- `match_clause` (src/parser/expression.rs lines 85-93): an expression
matcher or the `_` default, then `=>` and the clause value. -/
def match_clause : Nat → List Char → PResult (Clause × Expression)
  | 0, _ => .error
  | fuel + 1, s =>
      match
        (match expression fuel s with
         | .done r e => PResult.done r (Clause.Matcher (Matcher.Value e))
         | .error =>
             match wsTagP ['_'] s with
             | .done r _ => PResult.done r Clause.Default_
             | .error => .error
             | .panic => .panic
         | .panic => .panic) with
      | .done r1 c =>
          match wsTagP ['=', '>'] r1 with
          | .done r2 _ =>
              match expression fuel r2 with
              | .done r3 v => .done r3 (c, v)
              | .error => .error
              | .panic => .panic
          | .error => .error
          | .panic => .panic
      | .error => .error
      | .panic => .panic

end

/-- The iteration of `nameList` after the first element. -/
def nameListLoop : Nat → List Name → List Char → PResult (List Name)
  | 0, _, _ => .error
  | fuel + 1, acc, s =>
      match wsTagP [','] s with
      | .done r1 _ =>
          match name (skipWs r1) with
          | .done r2 n => nameListLoop fuel (acc ++ [n]) r2
          | .error => .done s acc
          | .panic => .panic
      | .error => .done s acc
      | .panic => .panic

/-- Modelled from the spec: the name list of the missing `program` /
`fndef` parsers, `[ name ("," name)* ]` (§4.1), comma separated with
insignificant whitespace, possibly empty. -/
def nameList (fuel : Nat) (s : List Char) : PResult (List Name) :=
  match name (skipWs s) with
  | .done r n => nameListLoop fuel [n] r
  | .error => .done s []
  | .panic => .panic

/-- Modelled from the spec: the missing `assign` parser,
`name "=" expression ";"` (§4.1). -/
def assign : Nat → List Char → PResult Statement
  | 0, _ => .error
  | fuel + 1, s =>
      match name (skipWs s) with
      | .done r1 n =>
          match wsTagP ['='] r1 with
          | .done r2 _ =>
              match expression fuel r2 with
              | .done r3 e =>
                  match wsTagP [';'] r3 with
                  | .done r4 _ => .done r4 (Statement.VarAssignment n e)
                  | .error => .error
                  | .panic => .panic
              | .error => .error
              | .panic => .panic
          | .error => .error
          | .panic => .panic
      | .error => .error
      | .panic => .panic

/-- Modelled from the spec: the missing `fndef` parser,
`name "(" [ name ("," name)* ] ")" "=" expression ";"` (§4.1). -/
def fndef : Nat → List Char → PResult Statement
  | 0, _ => .error
  | fuel + 1, s =>
      match name (skipWs s) with
      | .done r1 n =>
          match wsTagP ['('] r1 with
          | .done r2 _ =>
              match nameList fuel r2 with
              | .done r3 params =>
                  match wsTagP [')'] r3 with
                  | .done r4 _ =>
                      match wsTagP ['='] r4 with
                      | .done r5 _ =>
                          match expression fuel r5 with
                          | .done r6 e =>
                              match wsTagP [';'] r6 with
                              | .done r7 _ => .done r7 (Statement.FnDefinition n params e)
                              | .error => .error
                              | .panic => .panic
                          | .error => .error
                          | .panic => .panic
                      | .error => .error
                      | .panic => .panic
                  | .error => .error
                  | .panic => .panic
              | .error => .error
              | .panic => .panic
          | .error => .error
          | .panic => .panic
      | .error => .error
      | .panic => .panic

/-- Modelled from the spec: the missing `statement` parser,
`assign | fndef` (§4.1); a panic in the first alternative aborts the
parse, as a Rust panic unwinds through `alt!`. -/
def statement (fuel : Nat) (s : List Char) : PResult Statement :=
  match assign fuel s with
  | .done r st => .done r st
  | .panic => .panic
  | .error =>
      match fndef fuel s with
      | .done r st => .done r st
      | .error => .error
      | .panic => .panic

/-- Modelled from the spec: the `statement*` repetition of the missing
`program` parser — statements parsed until one fails, without consuming
the failing suffix. -/
def statements : Nat → List Statement → List Char → PResult (List Statement)
  | 0, _, _ => .error
  | fuel + 1, acc, s =>
      match statement fuel s with
      | .done r st => statements fuel (acc ++ [st]) r
      | .error => .done s acc
      | .panic => .panic

/-- Modelled from the spec: the missing `program` parser,
`"inputs" [names] ";" statement* "outputs" [names] ";"` (§4.1). -/
def program : Nat → List Char → PResult Program
  | 0, _ => .error
  | fuel + 1, s =>
      match wsTagP "inputs".data s with
      | .done r1 _ =>
          match nameList fuel r1 with
          | .done r2 ins =>
              match wsTagP [';'] r2 with
              | .done r3 _ =>
                  match statements fuel [] r3 with
                  | .done r4 stmts =>
                      match wsTagP "outputs".data r4 with
                      | .done r5 _ =>
                          match nameList fuel r5 with
                          | .done r6 outs =>
                              match wsTagP [';'] r6 with
                              | .done r7 _ => .done r7 (Program.mk ins (Statements.mk stmts) outs)
                              | .error => .error
                              | .panic => .panic
                          | .error => .error
                          | .panic => .panic
                      | .error => .error
                      | .panic => .panic
                  | .error => .error
                  | .panic => .panic
              | .error => .error
              | .panic => .panic
          | .error => .error
          | .panic => .panic
      | .error => .error
      | .panic => .panic

/-- Modelled from the spec: the missing `parse` entry point — the program
production applied to the whole input (§4.1 "any grammar violation yields
a `ParseError`; no partial programs are returned"). -/
def parse (fuel : Nat) (s : List Char) : PResult Program :=
  match program fuel s with
  | .done r p => if (skipWs r).isEmpty then .done [] p else .error
  | .error => .error
  | .panic => .panic

end Parser

/-! ## Interpreter (modelled from the spec, §4.2)

The `interpreter` module is not under `src/`; the evaluator below follows
§4.2 word for word. Recursive function application may recurse unboundedly
(§5: "runs to natural stack exhaustion"), modelled by a fuel counter that
is decremented at each function application; exhausted fuel is the
embedded stand-in for the accepted stack-exhaustion crash. Arithmetic is
64-bit signed with wrapping (§4.2); truncating division fails on a zero
divisor, and the one overflowing division (`i64::MIN / -1`) is also a
failure, as it is for the native `idiv` the compiled code runs. -/

/-- Modelled from the spec: the interpreter error domain (§7: "arity
mismatch on program inputs or function calls, unresolved variable or
function name, division by zero"). -/
inductive InterpreterError where
  | InputArityMismatch
  | UnresolvedVariable (n : Name)
  | UnresolvedFunction (n : Name)
  | FnArityMismatch (n : Name)
  | DivisionByZero
  | DivisionOverflow
  | OutOfFuel
deriving DecidableEq, Repr

/-- A variable environment: name-to-value bindings, most recent first. -/
def Env : Type := List (Name × Int)

/-- A function table: name to (parameters, body), most recent first. -/
def Fns : Type := List (Name × (List Name × Expression))

/-- First binding of a name in a variable environment (insertion is `cons`,
so the most recent binding shadows earlier ones). -/
def lookupEnv : List (Name × Int) → Name → Option Int
  | [], _ => none
  | (m, v) :: rest, n => if m = n then some v else lookupEnv rest n

/-- First binding of a name in a function table. -/
def lookupFn : List (Name × (List Name × Expression)) → Name → Option (List Name × Expression)
  | [], _ => none
  | (m, f) :: rest, n => if m = n then some f else lookupFn rest n

/-- Modelled from the spec: one arithmetic step of the interpreter (§4.2):
wrapping 64-bit signed add/subtract/multiply, truncating signed division
with a division-by-zero error; the overflowing `i64::MIN / -1` division is
also a failure. -/
def applyOperator : Operator → Int → Int → Except InterpreterError Int
  | .Add, a, b => .ok (wrap64 (a + b))
  | .Subtract, a, b => .ok (wrap64 (a - b))
  | .Multiply, a, b => .ok (wrap64 (a * b))
  | .Divide, a, b =>
      if b = 0 then .error .DivisionByZero
      else if a = i64Min ∧ b = -1 then .error .DivisionOverflow
      else .ok (a.tdiv b)

mutual

/-- Modelled from the spec: expression evaluation (§4.2), a pure recursive
function of (expression, variable environment, function table). The fuel
counter, decremented at every recursive step, stands in for the finite
call stack; with enough fuel it only runs out on unbounded recursion. -/
def evalExpr : Nat → Fns → Env → Expression → Except InterpreterError Int
  | 0, _, _, _ => .error .OutOfFuel
  | fuel + 1, fns, env, .Operand o => evalOperand fuel fns env o
  | fuel + 1, fns, env, .Operation op l r =>
      match evalExpr fuel fns env l with
      | .ok a =>
          match evalExpr fuel fns env r with
          | .ok b => applyOperator op a b
          | .error err => .error err
      | .error err => .error err

/-- Modelled from the spec: operand evaluation (§4.2). A function call
binds the evaluated arguments positionally into a fresh environment
containing only the parameters. -/
def evalOperand : Nat → Fns → Env → Operand → Except InterpreterError Int
  | 0, _, _, _ => .error .OutOfFuel
  | _ + 1, _, _, .I64 n => .ok n
  | fuel + 1, fns, env, .Group e => evalExpr fuel fns env e
  | _ + 1, _, env, .VarSubstitution n =>
      match lookupEnv env n with
      | some v => .ok v
      | none => .error (.UnresolvedVariable n)
  | fuel + 1, fns, env, .FnApplication n args =>
      match lookupFn fns n with
      | none => .error (.UnresolvedFunction n)
      | some (params, body) =>
          if args.length = params.length then
            match evalArgs fuel fns env args with
            | .ok vals => evalExpr fuel fns (List.zip params vals) body
            | .error err => .error err
          else .error (.FnArityMismatch n)
  | fuel + 1, fns, env, .Match m => evalMatch fuel fns env m

/-- Left-to-right evaluation of function-application arguments in the
caller's environment. -/
def evalArgs : Nat → Fns → Env → List Expression → Except InterpreterError (List Int)
  | 0, _, _, _ => .error .OutOfFuel
  | _ + 1, _, _, [] => .ok []
  | fuel + 1, fns, env, e :: rest =>
      match evalExpr fuel fns env e with
      | .ok v =>
          match evalArgs fuel fns env rest with
          | .ok vs => .ok (v :: vs)
          | .error err => .error err
      | .error err => .error err

/-- Modelled from the spec: `Match` evaluation (§4.2) — evaluate `with`
once, then scan the clauses in declared order. -/
def evalMatch : Nat → Fns → Env → Match → Except InterpreterError Int
  | 0, _, _, _ => .error .OutOfFuel
  | fuel + 1, fns, env, .mk w cs d =>
      match evalExpr fuel fns env w with
      | .ok wv => evalClauses fuel fns env wv cs d
      | .error err => .error err

/-- Modelled from the spec: the clause scan of `Match` evaluation — the
first matcher whose value equals the scrutinee's wins; the default is
evaluated only when no clause matches. -/
def evalClauses : Nat → Fns → Env → Int → List (Matcher × Expression) → Expression →
    Except InterpreterError Int
  | 0, _, _, _, _, _ => .error .OutOfFuel
  | fuel + 1, fns, env, _, [], d => evalExpr fuel fns env d
  | fuel + 1, fns, env, wv, (.Value me, e) :: rest, d =>
      match evalExpr fuel fns env me with
      | .ok mv => if mv = wv then evalExpr fuel fns env e else evalClauses fuel fns env wv rest d
      | .error err => .error err

end

/-- Modelled from the spec: statement execution (§4.2) — a `VarAssignment`
evaluates against the current environment and inserts/overwrites the
binding; a `FnDefinition` registers the function, replacing earlier
definitions of the same name. -/
def runStatements : Nat → Env → Fns → List Statement → Except InterpreterError (Env × Fns)
  | _, env, fns, [] => .ok (env, fns)
  | fuel, env, fns, .VarAssignment n e :: rest =>
      match evalExpr fuel fns env e with
      | .ok v => runStatements fuel ((n, v) :: env) fns rest
      | .error err => .error err
  | fuel, env, fns, .FnDefinition n params body :: rest =>
      runStatements fuel env ((n, (params, body)) :: fns) rest

/-- Modelled from the spec: resolve the output names against the final
environment; unresolved output names are an error (§4.2). -/
def readOutputs (env : Env) : List Name → Except InterpreterError (List Int)
  | [] => .ok []
  | n :: rest =>
      match lookupEnv env n with
      | some v =>
          match readOutputs env rest with
          | .ok vs => .ok (v :: vs)
          | .error err => .error err
      | none => .error (.UnresolvedVariable n)

/-- Modelled from the spec: `execute(program, inputs)` (§4.2) — bind the
inputs positionally (an arity mismatch is an error), run the statements in
order, then read the outputs. -/
def execute (fuel : Nat) (p : Program) (inputs : List Int) :
    Except InterpreterError (List Int) :=
  if inputs.length = p.inputs.length then
    match runStatements fuel (List.zip p.inputs inputs) [] p.statements.stmts with
    | .ok (env, _) => readOutputs env p.outputs
    | .error err => .error err
  else .error .InputArityMismatch

/-! ## Compiled-execution semantics (modelled from the spec, §4.3, with the
operator lowering taken from src/math/compiler/expression.rs)

The top-level `compiler` module is not under `src/`; the observable
behaviour of the emitted native code is modelled from §4.3. Any failure —
a trapping `sdiv`, a compile-time unresolved name or arity mismatch, or
exhaustion of the native call stack (the fuel) — leaves no printed output
and a non-zero exit status, modelled as `none`. -/

/-- The trapping native signed division emitted by `LLVMBuildSDiv`
(src/math/compiler/expression.rs lines 54-56): the `idiv` instruction
faults on a zero divisor and on the overflowing `i64::MIN / -1`. -/
def sdiv (a b : Int) : Option Int :=
  if b = 0 then none
  else if a = i64Min ∧ b = -1 then none
  else some (a.tdiv b)

/-- `ExpressionSynthesiser::synthesise_operation`
(src/math/compiler/expression.rs lines 38-61): `Subtract`, `Add`,
`Divide`, `Multiply` lower one-to-one to `LLVMBuildSub`, `LLVMBuildAdd`,
`LLVMBuildSDiv`, `LLVMBuildMul` — wrapping two's-complement i64
instructions, with the division trapping. -/
def synthOp : Operator → Int → Int → Option Int
  | .Subtract, a, b => some (wrap64 (a - b))
  | .Add, a, b => some (wrap64 (a + b))
  | .Divide, a, b => sdiv a b
  | .Multiply, a, b => some (wrap64 (a * b))

mutual

/-- Modelled from the spec: the value computed at run time by the code the
expression synthesiser emits (§4.3): operand values, then the lowered
operator instruction on the two synthesised sub-values. The fuel counter,
decremented at every recursive step, stands in for the finite native call
stack. -/
def compEval : Nat → Fns → Env → Expression → Option Int
  | 0, _, _, _ => none
  | fuel + 1, fns, env, .Operand o => compOperand fuel fns env o
  | fuel + 1, fns, env, .Operation op l r =>
      match compEval fuel fns env l with
      | some a =>
          match compEval fuel fns env r with
          | some b => synthOp op a b
          | none => none
      | none => none

/-- Modelled from the spec: operand lowering (§4.3 and
src/math/compiler/expression.rs lines 63-78): constants, transparent
groups, reads of materialised values, calls passing synthesised argument
values, and the compare-and-branch chain of a match. -/
def compOperand : Nat → Fns → Env → Operand → Option Int
  | 0, _, _, _ => none
  | _ + 1, _, _, .I64 n => some n
  | fuel + 1, fns, env, .Group e => compEval fuel fns env e
  | _ + 1, _, env, .VarSubstitution n => lookupEnv env n
  | fuel + 1, fns, env, .FnApplication n args =>
      match lookupFn fns n with
      | none => none
      | some (params, body) =>
          if args.length = params.length then
            match compArgs fuel fns env args with
            | some vals => compEval fuel fns (List.zip params vals) body
            | none => none
          else none
  | fuel + 1, fns, env, .Match m => compMatch fuel fns env m

/-- Synthesised argument values, left to right. -/
def compArgs : Nat → Fns → Env → List Expression → Option (List Int)
  | 0, _, _, _ => none
  | _ + 1, _, _, [] => some []
  | fuel + 1, fns, env, e :: rest =>
      match compEval fuel fns env e with
      | some v =>
          match compArgs fuel fns env rest with
          | some vs => some (v :: vs)
          | none => none
      | none => none

/-- Modelled from the spec: the lowered match — the scrutinee value feeds
an ordered chain of compare-and-branch blocks (§4.3). -/
def compMatch : Nat → Fns → Env → Match → Option Int
  | 0, _, _, _ => none
  | fuel + 1, fns, env, .mk w cs d =>
      match compEval fuel fns env w with
      | some wv => compClauses fuel fns env wv cs d
      | none => none

/-- Modelled from the spec: the compare-and-branch chain, mirroring
first-match-wins order with the default as the final fallthrough (§4.3). -/
def compClauses : Nat → Fns → Env → Int → List (Matcher × Expression) → Expression → Option Int
  | 0, _, _, _, _, _ => none
  | fuel + 1, fns, env, _, [], d => compEval fuel fns env d
  | fuel + 1, fns, env, wv, (.Value me, e) :: rest, d =>
      match compEval fuel fns env me with
      | some mv => if mv = wv then compEval fuel fns env e else compClauses fuel fns env wv rest d
      | none => none

end

/-- Modelled from the spec: the compiled statement sequence lowered into
the entry function (§4.3), mirroring the interpreter's environments. -/
def compStatements : Nat → Env → Fns → List Statement → Option (Env × Fns)
  | _, env, fns, [] => some (env, fns)
  | fuel, env, fns, .VarAssignment n e :: rest =>
      match compEval fuel fns env e with
      | some v => compStatements fuel ((n, v) :: env) fns rest
      | none => none
  | fuel, env, fns, .FnDefinition n params body :: rest =>
      compStatements fuel env ((n, (params, body)) :: fns) rest

/-- Output values emitted by the entry function, in declared order. -/
def compOutputs (env : Env) : List Name → Option (List Int)
  | [] => some []
  | n :: rest =>
      match lookupEnv env n with
      | some v =>
          match compOutputs env rest with
          | some vs => some (v :: vs)
          | none => none
      | none => none

/-- Modelled from the spec: a run of the compiled native artifact (§4.3,
§6): with the correct number of argument values it prints one decimal line
per declared output and exits zero; any failure (argument-count mismatch,
trap, compile-time rejection, stack exhaustion) yields no output lines and
an abnormal termination, modelled as `none`. -/
def compiledRun (fuel : Nat) (p : Program) (inputs : List Int) : Option (List String) :=
  if inputs.length = p.inputs.length then
    match compStatements fuel (List.zip p.inputs inputs) [] p.statements.stmts with
    | some (env, _) =>
        match compOutputs env p.outputs with
        | some vs => some (vs.map fun v => String.mk (intToDec v))
        | none => none
    | none => none
  else none

/-! ## Helper predicates used by the theorems -/

/-- The expression of a matcher. -/
def Matcher.value : Matcher → Expression
  | .Value e => e

/-- Whether a parsed clause is the default (`_`) clause. -/
def Parser.Clause.isDefault : Parser.Clause → Bool
  | .Default_ => true
  | .Matcher _ => false

/-- The expressions of the default clauses of a parsed clause list. -/
def defaultsOf (cs : List (Parser.Clause × Expression)) : List Expression :=
  cs.filterMap fun p => match p.1 with
    | .Default_ => some p.2
    | .Matcher _ => none

/-- A token list of the shape `(Operator Operand)*`. -/
def altTail : List Token → Bool
  | [] => true
  | .Operator _ :: .Operand _ :: rest => altTail rest
  | _ => false

/-- A token list of the shape `Operand (Operator Operand)*`: it strictly
alternates, begins and ends with an operand, and has odd length. -/
def altOperandTokens : List Token → Bool
  | .Operand _ :: rest => altTail rest
  | _ => false

/-- A structurally valid `Name` (§3): nonempty, a lowercase letter then
lowercase letters or underscores, and not a reserved word. -/
def validNameB (n : Name) : Bool :=
  match n.val.data with
  | [] => false
  | c :: cs => isLowerChar c && cs.all isNameTailChar && !(Parser.reservedNames.contains n.val)

/-! ## C10: `Expression::tokens` -/

theorem altTail_append : (xs : List Token) → ∀ {ys : List Token} {op : Operator} {o : Operand},
    altTail xs = true → altTail ys = true →
    altTail (xs ++ Token.Operator op :: Token.Operand o :: ys) = true
  | [], _, _, _, _, hy => by simpa [altTail]
  | .Operator _ :: .Operand _ :: rest, _, _, _, hx, hy => by
      simpa [altTail] using altTail_append rest (by simpa [altTail] using hx) hy
  | .Operator _ :: [], _, _, _, hx, _ => by simp [altTail] at hx
  | .Operator _ :: .Operator _ :: _, _, _, _, hx, _ => by simp [altTail] at hx
  | .Operand _ :: _, _, _, _, hx, _ => by simp [altTail] at hx

theorem tokens_shape : (e : Expression) →
    ∃ o tl, e.tokens = Token.Operand o :: tl ∧ altTail tl = true
  | .Operand o => ⟨o, [], rfl, rfl⟩
  | .Operation op l r => by
      obtain ⟨ol, tll, hl, al⟩ := tokens_shape l
      obtain ⟨orr, tlr, hr, ar⟩ := tokens_shape r
      refine ⟨ol, tll ++ Token.Operator op :: Token.Operand orr :: tlr, ?_, ?_⟩
      · simp [Expression.tokens, hl, hr]
      · exact altTail_append tll al ar

theorem altTail_length_even : (xs : List Token) → altTail xs = true → xs.length % 2 = 0
  | [], _ => rfl
  | .Operator _ :: .Operand _ :: rest, h => by
      have := altTail_length_even rest (by simpa [altTail] using h)
      simp [List.length]
      omega
  | .Operator _ :: [], h => by simp [altTail] at h
  | .Operator _ :: .Operator _ :: _, h => by simp [altTail] at h
  | .Operand _ :: _, h => by simp [altTail] at h

/-- C10: `Expression::tokens` is the in-order flattening of the tree — an
`Operand` leaf yields its one-element token list, an `Operation` yields the
left tokens, the operator token, then the right tokens — and consequently
every token list strictly alternates operand and operator tokens, beginning
and ending with an operand, and has odd length. -/
theorem tokens_inorder_flattening :
    (∀ o : Operand, (Expression.Operand o).tokens = [Token.Operand o]) ∧
    (∀ (op : Operator) (l r : Expression),
      (Expression.Operation op l r).tokens = l.tokens ++ Token.Operator op :: r.tokens) ∧
    (∀ e : Expression, altOperandTokens e.tokens = true ∧ e.tokens.length % 2 = 1) := by
  refine ⟨fun o => rfl, fun op l r => rfl, fun e => ?_⟩
  obtain ⟨o, tl, he, htl⟩ := tokens_shape e
  rw [he]
  constructor
  · simpa [altOperandTokens] using htl
  · have := altTail_length_even tl htl
    simp [List.length]
    omega

/-! ## Fuel monotonicity of the interpreter -/

mutual

theorem evalExpr_mono : (f g : Nat) → (fns : Fns) → (env : Env) → (e : Expression) →
    f ≤ g → evalExpr f fns env e ≠ .error .OutOfFuel →
    evalExpr g fns env e = evalExpr f fns env e
  | 0, _, _, _, _, _, h => absurd rfl h
  | f + 1, g, fns, env, e, hle, h => by
      obtain ⟨g', rfl⟩ : ∃ g', g = g' + 1 := ⟨g - 1, by omega⟩
      have hfg : f ≤ g' := by omega
      cases e with
      | Operand o =>
          simp only [evalExpr] at h ⊢
          exact evalOperand_mono f g' fns env o hfg h
      | Operation op l r =>
          simp only [evalExpr] at h ⊢
          cases hl : evalExpr f fns env l with
          | ok a =>
              rw [evalExpr_mono f g' fns env l hfg (by rw [hl]; simp), hl]
              cases hr : evalExpr f fns env r with
              | ok b => rw [evalExpr_mono f g' fns env r hfg (by rw [hr]; simp), hr]
              | error err =>
                  rw [hl, hr] at h
                  rw [evalExpr_mono f g' fns env r hfg (by rw [hr]; exact fun hh => h (by simp [Except.error.injEq] at hh; simp [hh])), hr]
          | error err =>
              rw [hl] at h
              rw [evalExpr_mono f g' fns env l hfg (by rw [hl]; exact fun hh => h (by simp [Except.error.injEq] at hh; simp [hh])), hl]

theorem evalOperand_mono : (f g : Nat) → (fns : Fns) → (env : Env) → (o : Operand) →
    f ≤ g → evalOperand f fns env o ≠ .error .OutOfFuel →
    evalOperand g fns env o = evalOperand f fns env o
  | 0, _, _, _, _, _, h => absurd rfl h
  | f + 1, g, fns, env, o, hle, h => by
      obtain ⟨g', rfl⟩ : ∃ g', g = g' + 1 := ⟨g - 1, by omega⟩
      have hfg : f ≤ g' := by omega
      cases o with
      | I64 n => simp only [evalOperand]
      | Group e =>
          simp only [evalOperand] at h ⊢
          exact evalExpr_mono f g' fns env e hfg h
      | VarSubstitution n => simp only [evalOperand]
      | FnApplication n args =>
          simp only [evalOperand] at h ⊢
          cases hfn : lookupFn fns n with
          | none => simp
          | some pb =>
              obtain ⟨params, body⟩ := pb
              simp only
              by_cases hlen : args.length = params.length
              · simp only [if_pos hlen]
                rw [hfn] at h
                simp only [if_pos hlen] at h
                cases ha : evalArgs f fns env args with
                | ok vals =>
                    rw [evalArgs_mono f g' fns env args hfg (by rw [ha]; simp), ha]
                    rw [ha] at h
                    exact evalExpr_mono f g' fns (List.zip params vals) body hfg h
                | error err =>
                    rw [ha] at h
                    rw [evalArgs_mono f g' fns env args hfg
                      (by rw [ha]; exact fun hh => h (by simp [Except.error.injEq] at hh; simp [hh])), ha]
              · simp only [if_neg hlen]
      | Match m =>
          simp only [evalOperand] at h ⊢
          exact evalMatch_mono f g' fns env m hfg h

theorem evalArgs_mono : (f g : Nat) → (fns : Fns) → (env : Env) → (es : List Expression) →
    f ≤ g → evalArgs f fns env es ≠ .error .OutOfFuel →
    evalArgs g fns env es = evalArgs f fns env es
  | 0, _, _, _, _, _, h => absurd rfl h
  | f + 1, g, fns, env, es, hle, h => by
      obtain ⟨g', rfl⟩ : ∃ g', g = g' + 1 := ⟨g - 1, by omega⟩
      have hfg : f ≤ g' := by omega
      cases es with
      | nil => simp only [evalArgs]
      | cons e rest =>
          simp only [evalArgs] at h ⊢
          cases he : evalExpr f fns env e with
          | ok v =>
              rw [evalExpr_mono f g' fns env e hfg (by rw [he]; simp), he]
              rw [he] at h
              cases hr : evalArgs f fns env rest with
              | ok vs => rw [evalArgs_mono f g' fns env rest hfg (by rw [hr]; simp), hr]
              | error err =>
                  rw [hr] at h
                  rw [evalArgs_mono f g' fns env rest hfg
                    (by rw [hr]; exact fun hh => h (by simp [Except.error.injEq] at hh; simp [hh])), hr]
          | error err =>
              rw [he] at h
              rw [evalExpr_mono f g' fns env e hfg
                (by rw [he]; exact fun hh => h (by simp [Except.error.injEq] at hh; simp [hh])), he]

theorem evalMatch_mono : (f g : Nat) → (fns : Fns) → (env : Env) → (m : Match) →
    f ≤ g → evalMatch f fns env m ≠ .error .OutOfFuel →
    evalMatch g fns env m = evalMatch f fns env m
  | 0, _, _, _, _, _, h => absurd rfl h
  | f + 1, g, fns, env, m, hle, h => by
      obtain ⟨g', rfl⟩ : ∃ g', g = g' + 1 := ⟨g - 1, by omega⟩
      have hfg : f ≤ g' := by omega
      obtain ⟨w, cs, d⟩ := m
      simp only [evalMatch] at h ⊢
      cases hw : evalExpr f fns env w with
      | ok wv =>
          rw [evalExpr_mono f g' fns env w hfg (by rw [hw]; simp), hw]
          rw [hw] at h
          exact evalClauses_mono f g' fns env wv cs d hfg h
      | error err =>
          rw [hw] at h
          rw [evalExpr_mono f g' fns env w hfg
            (by rw [hw]; exact fun hh => h (by simp [Except.error.injEq] at hh; simp [hh])), hw]

theorem evalClauses_mono : (f g : Nat) → (fns : Fns) → (env : Env) → (wv : Int) →
    (cs : List (Matcher × Expression)) → (d : Expression) →
    f ≤ g → evalClauses f fns env wv cs d ≠ .error .OutOfFuel →
    evalClauses g fns env wv cs d = evalClauses f fns env wv cs d
  | 0, _, _, _, _, _, _, _, h => absurd rfl h
  | f + 1, g, fns, env, wv, cs, d, hle, h => by
      obtain ⟨g', rfl⟩ : ∃ g', g = g' + 1 := ⟨g - 1, by omega⟩
      have hfg : f ≤ g' := by omega
      cases cs with
      | nil =>
          simp only [evalClauses] at h ⊢
          exact evalExpr_mono f g' fns env d hfg h
      | cons p rest =>
          obtain ⟨mm, e⟩ := p
          obtain ⟨me⟩ := mm
          simp only [evalClauses] at h ⊢
          cases hm : evalExpr f fns env me with
          | ok mv =>
              rw [evalExpr_mono f g' fns env me hfg (by rw [hm]; simp), hm]
              rw [hm] at h
              by_cases hv : mv = wv
              · simp only [if_pos hv] at h ⊢
                exact evalExpr_mono f g' fns env e hfg h
              · simp only [if_neg hv] at h ⊢
                exact evalClauses_mono f g' fns env wv rest d hfg h
          | error err =>
              rw [hm] at h
              rw [evalExpr_mono f g' fns env me hfg
                (by rw [hm]; exact fun hh => h (by simp [Except.error.injEq] at hh; simp [hh])), hm]

end

/-! ## C4: match evaluation, first match wins -/

theorem evalOperand_match_succ (fuel : Nat) (fns : Fns) (env : Env)
    (w : Expression) (cs : List (Matcher × Expression)) (d : Expression) :
    evalOperand (fuel + 2) fns env (.Match (.mk w cs d)) =
      match evalExpr fuel fns env w with
      | .ok wv => evalClauses fuel fns env wv cs d
      | .error err => .error err := rfl

theorem evalOperand_match_ok (fuel : Nat) (fns : Fns) (env : Env)
    (w : Expression) (cs : List (Matcher × Expression)) (d : Expression) (wv : Int)
    (hw : evalExpr fuel fns env w = .ok wv) :
    evalOperand (fuel + 2) fns env (.Match (.mk w cs d)) =
      evalClauses fuel fns env wv cs d := by
  rw [evalOperand_match_succ, hw]

theorem evalClauses_skip : (cs₁ : List (Matcher × Expression)) →
    ∀ {fuel : Nat} {fns : Fns} {env : Env} {wv : Int}
      {cs₂ : List (Matcher × Expression)} {d : Expression},
    (∀ p ∈ cs₁, ∃ v, evalExpr fuel fns env p.1.value = .ok v ∧ v ≠ wv) →
    evalClauses (fuel + 1 + cs₁.length) fns env wv (cs₁ ++ cs₂) d =
      evalClauses (fuel + 1) fns env wv cs₂ d
  | [], fuel, fns, env, wv, cs₂, d, _ => by simp
  | (m, e) :: cs₁, fuel, fns, env, wv, cs₂, d, h => by
      obtain ⟨me⟩ := m
      obtain ⟨v, hv, hne⟩ := h ⟨Matcher.Value me, e⟩ (by simp)
      simp only [Matcher.value] at hv
      have harith : fuel + 1 + ((⟨Matcher.Value me, e⟩ :: cs₁) :
          List (Matcher × Expression)).length = (fuel + 1 + cs₁.length) + 1 := by
        simp only [List.length_cons]
        omega
      rw [harith]
      have hlift : evalExpr (fuel + 1 + cs₁.length) fns env me = .ok v := by
        rw [evalExpr_mono fuel (fuel + 1 + cs₁.length) fns env me (by omega)
          (by rw [hv]; simp)]
        exact hv
      simp only [List.cons_append, evalClauses, hlift, if_neg hne]
      exact evalClauses_skip cs₁ fun p hp => h p (by simp [hp])

/-- C4: evaluating a `Match` evaluates the scrutinee, scans the clauses in
declared order, returns the value of the expression paired with the first
matcher whose value equals the scrutinee's, and evaluates the default only
when no clause matches; concretely,
`match 5 { 5 => 1, 5 => 2, _ => 3 }` evaluates to `1` and
`match 6 { 5 => 1, _ => 3 }` evaluates to `3`. -/
theorem match_first_match_wins :
    (∀ (fuel : Nat) (fns : Fns) (env : Env) (w : Expression)
       (cs₁ : List (Matcher × Expression)) (me e : Expression)
       (cs₂ : List (Matcher × Expression)) (d : Expression) (wv : Int),
      evalExpr fuel fns env w = .ok wv →
      (∀ p ∈ cs₁, ∃ v, evalExpr fuel fns env p.1.value = .ok v ∧ v ≠ wv) →
      evalExpr fuel fns env me = .ok wv →
      evalOperand (fuel + cs₁.length + 3) fns env
        (.Match (.mk w (cs₁ ++ (Matcher.Value me, e) :: cs₂) d)) =
        evalExpr fuel fns env e) ∧
    (∀ (fuel : Nat) (fns : Fns) (env : Env) (w : Expression)
       (cs : List (Matcher × Expression)) (d : Expression) (wv : Int),
      evalExpr fuel fns env w = .ok wv →
      (∀ p ∈ cs, ∃ v, evalExpr fuel fns env p.1.value = .ok v ∧ v ≠ wv) →
      evalOperand (fuel + cs.length + 3) fns env (.Match (.mk w cs d)) =
        evalExpr fuel fns env d) ∧
    evalExpr 10 [] [] (.Operand (.Match (.mk (.Operand (.I64 5))
      [(.Value (.Operand (.I64 5)), .Operand (.I64 1)),
       (.Value (.Operand (.I64 5)), .Operand (.I64 2))]
      (.Operand (.I64 3))))) = .ok 1 ∧
    evalExpr 10 [] [] (.Operand (.Match (.mk (.Operand (.I64 6))
      [(.Value (.Operand (.I64 5)), .Operand (.I64 1))]
      (.Operand (.I64 3))))) = .ok 3 := by
  refine ⟨?_, ?_, by rfl, by rfl⟩
  · intro fuel fns env w cs₁ me e cs₂ d wv hw h₁ hme
    have hwl : evalExpr (fuel + cs₁.length + 1) fns env w = .ok wv := by
      rw [evalExpr_mono fuel (fuel + cs₁.length + 1) fns env w (by omega) (by rw [hw]; simp)]
      exact hw
    rw [show fuel + cs₁.length + 3 = (fuel + cs₁.length + 1) + 2 from by omega,
      evalOperand_match_ok _ _ _ _ _ _ _ hwl]
    rw [show fuel + cs₁.length + 1 = fuel + 1 + cs₁.length from by omega,
      evalClauses_skip cs₁ h₁]
    simp [evalClauses, hme]
  · intro fuel fns env w cs d wv hw h₁
    have hwl : evalExpr (fuel + cs.length + 1) fns env w = .ok wv := by
      rw [evalExpr_mono fuel (fuel + cs.length + 1) fns env w (by omega) (by rw [hw]; simp)]
      exact hw
    rw [show fuel + cs.length + 3 = (fuel + cs.length + 1) + 2 from by omega,
      evalOperand_match_ok _ _ _ _ _ _ _ hwl]
    have hskip := @evalClauses_skip cs fuel fns env wv [] d h₁
    rw [List.append_nil] at hskip
    rw [show fuel + cs.length + 1 = fuel + 1 + cs.length from by omega, hskip]
    simp only [evalClauses]

/-- Witness for C4: the first-match clause selection applied at a concrete
match — scrutinee `5`, a non-matching clause `4 => 9`, a matching clause
`5 => 1` — evaluates to the matching clause's expression. -/
theorem match_first_match_wins_witness :
    evalOperand 7 [] []
      (.Match (.mk (.Operand (.I64 5))
        [(.Value (.Operand (.I64 4)), .Operand (.I64 9)),
         (.Value (.Operand (.I64 5)), .Operand (.I64 1))]
        (.Operand (.I64 7)))) = .ok 1 := by
  have h := match_first_match_wins.1 3 [] [] (.Operand (.I64 5))
    [(.Value (.Operand (.I64 4)), .Operand (.I64 9))]
    (.Operand (.I64 5)) (.Operand (.I64 1)) [] (.Operand (.I64 7)) 5
    rfl (by
      intro p hp
      simp only [List.mem_singleton] at hp
      subst hp
      exact ⟨4, rfl, by decide⟩) rfl
  exact h.trans (by rfl)

/-! ## C7: operation semantics and division by zero -/

/-- The program `inputs; r = 1 / 0; outputs r;`. -/
def divByZeroProgram : Program :=
  ⟨[], ⟨[.VarAssignment ⟨"r"⟩ (.Operation .Divide (.Operand (.I64 1)) (.Operand (.I64 0)))]⟩,
    [⟨"r"⟩]⟩

/-- C7: `Operation` evaluation applies 64-bit signed arithmetic — wrapping
addition, subtraction and multiplication, truncating signed division — and
a division whose right operand evaluates to zero is a division-by-zero
interpreter error, not a crash; the compiled `inputs; r = 1 / 0;
outputs r;` artifact terminates abnormally (no output, non-zero status). -/
theorem operation_division_by_zero :
    (∀ (fuel : Nat) (fns : Fns) (env : Env) (l r : Expression) (a : Int),
      evalExpr fuel fns env l = .ok a →
      evalExpr fuel fns env r = .ok 0 →
      evalExpr (fuel + 1) fns env (.Operation .Divide l r) = .error .DivisionByZero) ∧
    (∀ a b : Int,
      applyOperator .Add a b = .ok (wrap64 (a + b)) ∧
      applyOperator .Subtract a b = .ok (wrap64 (a - b)) ∧
      applyOperator .Multiply a b = .ok (wrap64 (a * b))) ∧
    (∀ a b : Int, b ≠ 0 → ¬(a = i64Min ∧ b = -1) →
      applyOperator .Divide a b = .ok (a.tdiv b)) ∧
    execute 10 divByZeroProgram [] = .error .DivisionByZero ∧
    compiledRun 10 divByZeroProgram [] = none := by
  refine ⟨?_, fun a b => ⟨rfl, rfl, rfl⟩, ?_, by rfl, by rfl⟩
  · intro fuel fns env l r a hl hr
    simp only [evalExpr, hl, hr]
    rfl
  · intro a b hb hov
    simp [applyOperator, hb, hov]

/-- Witness for C7: the divide operation at left operand `1` and right
operand `0` is a division-by-zero error. -/
theorem operation_division_by_zero_witness :
    evalExpr 3 [] [] (.Operation .Divide (.Operand (.I64 1)) (.Operand (.I64 0))) =
      .error .DivisionByZero :=
  operation_division_by_zero.1 2 [] [] (.Operand (.I64 1)) (.Operand (.I64 0)) 1 rfl rfl

/-! ## C6: a malformed integer token panics the parser -/

/-- C6: against the claim that every grammar violation yields a
`ParseError`, a token of digits with an interior `-` in integer position —
here `1-2` — makes the `i64` parser's `unwrap` panic: `take_while1!`
consumes the whole token `1-2`, `str::parse::<i64>` fails on it, and the
parse aborts with a panic instead of returning a `ParseError`. -/
theorem integer_token_panic :
    Parser.parse 100 "inputs; r = 1-2; outputs r;".data = .panic ∧
    Parser.i64 "1-2".data = .panic ∧
    rustParseI64 "1-2".data = none := by
  refine ⟨by rfl, by rfl, by rfl⟩

/-! ## C9: whitespace is not insignificant -/

/-- C9 counterexample: removing the whitespace between the `match` keyword
and its parenthesized scrutinee changes a successful program parse into a
parse failure, so whitespace between tokens affects parsing. -/
theorem whitespace_sensitivity_counterexample :
    Parser.parse 200 "inputs;\nb = match (1) { _ => 2, };\noutputs;".data =
      .done [] ⟨[], ⟨[.VarAssignment ⟨"b"⟩
        (.Operand (.Match (.mk (.Operand (.Group (.Operand (.I64 1)))) []
          (.Operand (.I64 2)))))]⟩, []⟩ ∧
    Parser.parse 200 "inputs;\nb = match(1) { _ => 2, };\noutputs;".data = .error := by
  refine ⟨by rfl, by rfl⟩

/-- C9 amended: the `match` production requires at least one whitespace
byte after the `match` keyword — `ws!(tag!("match "))` contains a literal
space — so any input continuing `match` directly with `(` fails the match
production regardless of what follows. -/
theorem match_keyword_requires_whitespace :
    ∀ (fuel : Nat) (rest : List Char),
      Parser.match_ fuel ('m' :: 'a' :: 't' :: 'c' :: 'h' :: '(' :: rest) = .error := by
  intro fuel rest
  cases fuel with
  | zero => rfl
  | succ f => simp [Parser.match_, wsTagP, tagP, skipWs, isWsChar]

/-! ## C5: exactly one default clause -/

theorem default_clause_go_some : (cs : List (Parser.Clause × Expression)) →
    ∀ (a : Expression),
    Parser.default_clause_go (some a) cs =
      match defaultsOf cs with
      | [] => some a
      | _ :: _ => none
  | [], _ => rfl
  | (c, e) :: rest, a => by
      cases c with
      | Default_ => simp [Parser.default_clause_go, defaultsOf]
      | Matcher m =>
          have ih := default_clause_go_some rest a
          simpa [Parser.default_clause_go, defaultsOf] using ih

/-- C5: `match` parsing succeeds only with exactly one default arm —
`default_clause_of` returns the default expression exactly when the clause
list holds one default clause and `matchers_of` preserves the ordered
non-default clauses; concretely, matches with zero or two default arms are
parse failures while a single default arm parses. -/
theorem match_exactly_one_default :
    (∀ cs : List (Parser.Clause × Expression),
      Parser.default_clause_of cs =
        match defaultsOf cs with
        | [d] => some d
        | _ => none) ∧
    (∀ cs : List (Parser.Clause × Expression),
      Parser.matchers_of cs = cs.filterMap fun p =>
        match p.1 with
        | .Matcher m => some (m, p.2)
        | .Default_ => none) ∧
    Parser.match_ 100 "match x { 1 => 2 }".data = .error ∧
    Parser.match_ 100 "match x { _ => 1, _ => 2 }".data = .error ∧
    Parser.match_ 100 "match x { 5 => 1, _ => 3 }".data =
      .done [] (.mk (.Operand (.VarSubstitution ⟨"x"⟩))
        [(.Value (.Operand (.I64 5)), .Operand (.I64 1))] (.Operand (.I64 3))) := by
  refine ⟨?_, ?_, by rfl, by rfl, by rfl⟩
  · intro cs
    induction cs with
    | nil => rfl
    | cons p rest ih =>
        obtain ⟨c, e⟩ := p
        cases c with
        | Matcher m =>
            simp only [Parser.default_clause_of, Parser.default_clause_go] at ih ⊢
            rw [ih]
            simp [defaultsOf]
        | Default_ =>
            simp only [Parser.default_clause_of, Parser.default_clause_go]
            rw [default_clause_go_some rest e]
            have hd : defaultsOf ((Parser.Clause.Default_, e) :: rest) = e :: defaultsOf rest := by
              simp [defaultsOf]
            rw [hd]
            cases h : defaultsOf rest with
            | nil => simp
            | cons d ds => simp
  · intro cs
    induction cs with
    | nil => rfl
    | cons p rest ih =>
        obtain ⟨c, e⟩ := p
        cases c with
        | Matcher m => simp [Parser.matchers_of, ih]
        | Default_ => simp [Parser.matchers_of, ih]

/-! ## C8: identifier followed by `(` -/

/-- C8 counterexample: parsing `f (5)` — the name `f` followed by the byte
`' '` (which is not `'('`) — yields a function application, not
`VarSubstitution("f")`: the parser skips whitespace before looking for the
opening parenthesis. -/
theorem operand_space_paren_counterexample :
    Parser.operand 50 "f (5)".data =
      .done [] (.FnApplication ⟨"f"⟩ [.Operand (.I64 5)]) ∧
    (∀ (rest : List Char) (v : Name),
      Parser.operand 50 "f (5)".data ≠ .done rest (.VarSubstitution v)) := by
  refine ⟨by rfl, ?_⟩
  intro rest v h
  rw [(by rfl : Parser.operand 50 "f (5)".data =
    .done [] (.FnApplication ⟨"f"⟩ [.Operand (.I64 5)]))] at h
  injection h with h1 h2
  exact Operand.noConfusion h2

/-! ## Name-token lemmas -/

theorem takeWhile_append_of_all {p : Char → Bool} : (xs : List Char) → ∀ {ys : List Char},
    xs.all p = true → (∀ c, ys.head? = some c → p c = false) →
    (xs ++ ys).takeWhile p = xs ∧ (xs ++ ys).dropWhile p = ys
  | [], ys, _, hy => by
      cases ys with
      | nil => exact ⟨rfl, rfl⟩
      | cons c cs => simp [List.takeWhile, List.dropWhile, hy c rfl]
  | x :: xs, ys, hx, hy => by
      simp only [List.all_cons, Bool.and_eq_true] at hx
      have ih := takeWhile_append_of_all xs hx.2 hy
      simp [List.takeWhile, List.dropWhile, hx.1, ih.1, ih.2]

theorem validNameB_parts {n : Name} (hv : validNameB n = true) :
    ∃ c cs, n.val.data = c :: cs ∧ isLowerChar c = true ∧ cs.all isNameTailChar = true ∧
      Parser.reservedNames.contains n.val = false := by
  unfold validNameB at hv
  cases hd : n.val.data with
  | nil => rw [hd] at hv; simp at hv
  | cons c cs =>
      rw [hd] at hv
      simp only [Bool.and_eq_true, Bool.not_eq_true'] at hv
      exact ⟨c, cs, rfl, hv.1.1, hv.1.2, hv.2⟩

/-- The modelled `name` parser consumes exactly a valid name when what
follows cannot extend it. -/
theorem name_parses (n : Name) (rest : List Char) (hv : validNameB n = true)
    (hrest : ∀ c, rest.head? = some c → isNameTailChar c = false) :
    Parser.name (n.val.data ++ rest) = .done rest n := by
  obtain ⟨c, cs, hd, hc, hcs, hres⟩ := validNameB_parts hv
  rw [hd]
  obtain ⟨ht, hdp⟩ := takeWhile_append_of_all cs hcs hrest
  have hstr : String.mk (c :: cs) = n.val := by rw [← hd]
  simp only [List.cons_append, Parser.name, hc, if_pos, ht, hdp, hstr, hres,
    Bool.false_eq_true, if_false, if_true]

theorem name_success_head {s r : List Char} {n : Name}
    (h : Parser.name s = .done r n) : ∃ c s', s = c :: s' ∧ isLowerChar c = true := by
  cases s with
  | nil => exact absurd h (by simp [Parser.name])
  | cons c s' =>
      refine ⟨c, s', rfl, ?_⟩
      by_contra hc
      simp only [Bool.not_eq_true] at hc
      simp [Parser.name, hc] at h

theorem lower_not_digit_dash {c : Char} (h : isLowerChar c = true) :
    (isDigitChar c || c.toNat == 45) = false := by
  simp only [isLowerChar, Bool.and_eq_true, decide_eq_true_eq] at h
  simp only [isDigitChar, Bool.or_eq_false_iff, Bool.and_eq_false_iff,
    decide_eq_false_iff_not, Nat.not_le, beq_eq_false_iff_ne, ne_eq]
  omega

theorem i64_error_of_lower {c : Char} (rest : List Char) (hc : isLowerChar c = true) :
    Parser.i64 (c :: rest) = .error := by
  simp [Parser.i64, List.takeWhile, lower_not_digit_dash hc]

theorem char_ne_of_toNat_ne {a b : Char} (h : a.toNat ≠ b.toNat) : a ≠ b :=
  fun hh => h (by rw [hh])

theorem tag_paren_error_of_lower {c : Char} (rest : List Char) (hc : isLowerChar c = true) :
    tagP ['('] (c :: rest) = .error := by
  have : '(' ≠ c := by
    apply char_ne_of_toNat_ne
    simp only [isLowerChar, Bool.and_eq_true, decide_eq_true_eq] at hc
    show (40 : Nat) ≠ c.toNat
    omega
  simp [tagP, this]

theorem group_error_of_lower (fuel : Nat) {c : Char} (rest : List Char)
    (hc : isLowerChar c = true) : Parser.group fuel (c :: rest) = .error := by
  cases fuel with
  | zero => rfl
  | succ f => simp [Parser.group, tag_paren_error_of_lower rest hc]

theorem tag_single_success {x : Char} {s r : List Char}
    (h : tagP [x] s = .done r ()) : s = x :: r := by
  cases s with
  | nil => exact absurd h (by simp [tagP])
  | cons c s' =>
      by_cases hx : x = c
      · subst hx
        simp [tagP] at h
        rw [h]
      · simp [tagP, hx] at h

/-! ## C8: identifier dispatch between variable and function application -/

/-- C8 amended: the operand parser skips whitespace after a bare
identifier before testing for `(`: when `function_application` succeeds,
`operand` returns exactly its function application (so an identifier whose
next non-whitespace byte is `(` is never a variable reference — indeed
`variable_substitution` fails there); an identifier followed by a byte
that cannot extend the name, is not whitespace and is not `(` parses as a
variable reference of the full identifier. -/
theorem identifier_dispatch :
    (∀ (fuel : Nat) (s r : List Char) (n : Name) (args : List Expression),
      Parser.function_application fuel s = .done r (n, args) →
      Parser.operand (fuel + 1) s = .done r (.FnApplication n args)) ∧
    (∀ (n : Name) (rest : List Char), validNameB n = true →
      (∀ c, rest.head? = some c → isNameTailChar c = false) →
      (skipWs rest).head? = some '(' →
      Parser.variable_substitution (n.val.data ++ rest) = .error) ∧
    (∀ (fuel : Nat) (n : Name) (c : Char) (rest' : List Char), validNameB n = true →
      isNameTailChar c = false → isWsChar c = false → c ≠ '(' →
      Parser.operand (fuel + 1) (n.val.data ++ c :: rest') =
        .done (c :: rest') (.VarSubstitution n)) := by
  refine ⟨?_, ?_, ?_⟩
  · intro fuel s r n args h
    cases fuel with
    | zero => exact absurd h (by simp [Parser.function_application])
    | succ f =>
        have hfn := h
        simp only [Parser.function_application] at h
        cases hn : Parser.name s with
        | error => simp only [hn] at h; exact absurd h (by simp)
        | panic => simp only [hn] at h; exact absurd h (by simp)
        | done r1 n₀ =>
            simp only [hn] at h
            obtain ⟨c, s', rfl, hc⟩ := name_success_head hn
            cases hw : wsTagP ['('] r1 with
            | error => simp only [hw] at h; exact absurd h (by simp)
            | panic => simp only [hw] at h; exact absurd h (by simp)
            | done r2 u =>
                have hpeek : ∃ r₃, skipWs r1 = '(' :: r₃ := by
                  simp only [wsTagP] at hw
                  cases ht : tagP ['('] (skipWs r1) with
                  | error => simp only [ht] at hw; exact absurd hw (by simp)
                  | panic => simp only [ht] at hw; exact absurd hw (by simp)
                  | done r₃ u' => exact ⟨r₃, tag_single_success ht⟩
                obtain ⟨r₃, hpk⟩ := hpeek
                have hvar : Parser.variable_substitution (c :: s') = .error := by
                  simp [Parser.variable_substitution, hn, hpk]
                simp only [Parser.operand, i64_error_of_lower s' hc,
                  group_error_of_lower (f + 1) s' hc, hvar, hfn]
  · intro n rest hv hrest hpar
    have hname := name_parses n rest hv hrest
    cases hsk : skipWs rest with
    | nil => rw [hsk] at hpar; exact absurd hpar (by simp)
    | cons c cs =>
        rw [hsk] at hpar
        simp only [List.head?_cons, Option.some.injEq] at hpar
        subst hpar
        simp [Parser.variable_substitution, hname, hsk]
  · intro fuel n c rest' hv hns hws hpar
    obtain ⟨c₀, cs, hd, hc₀, _, _⟩ := validNameB_parts hv
    have hname := name_parses n (c :: rest') hv
      (by intro x hx; simp only [List.head?_cons, Option.some.injEq] at hx; rw [hx] at hns; exact hns)
    have hskip : skipWs (c :: rest') = c :: rest' := by simp [skipWs, hws]
    have hvar : Parser.variable_substitution (n.val.data ++ c :: rest') =
        .done (c :: rest') n := by
      simp only [Parser.variable_substitution, hname, hskip]
      simp [hpar]
    have hshape : n.val.data ++ c :: rest' = c₀ :: (cs ++ c :: rest') := by
      rw [hd]; simp
    rw [hshape] at hvar ⊢
    simp only [Parser.operand, i64_error_of_lower _ hc₀,
      group_error_of_lower fuel _ hc₀, hvar]

/-- Witness for C8: the identifier `f` followed by `;` parses as a
variable reference, and `f(5)` (where `function_application` succeeds)
parses as a function application. -/
theorem identifier_dispatch_witness :
    Parser.operand 5 ('f' :: ';' :: []) = .done [';'] (.VarSubstitution ⟨"f"⟩) ∧
    Parser.operand 21 "f(5)".data = .done [] (.FnApplication ⟨"f"⟩ [.Operand (.I64 5)]) := by
  constructor
  · exact identifier_dispatch.2.2 4 ⟨"f"⟩ ';' [] (by decide) (by decide) (by decide) (by decide)
  · exact identifier_dispatch.1 20 "f(5)".data [] ⟨"f"⟩ [.Operand (.I64 5)] (by rfl)

/-! ## C1: interpreter / compiled-execution equivalence -/

theorem synthOp_eq (op : Operator) (a b : Int) :
    synthOp op a b = (applyOperator op a b).toOption := by
  cases op with
  | Subtract => rfl
  | Add => rfl
  | Multiply => rfl
  | Divide =>
      simp only [synthOp, applyOperator, sdiv]
      by_cases hb : b = 0
      · simp [hb, Except.toOption]
      · by_cases hov : a = i64Min ∧ b = -1
        · simp [hb, hov, Except.toOption]
        · simp [hb, hov, Except.toOption]

mutual

theorem compEval_eq : (fuel : Nat) → (fns : Fns) → (env : Env) → (e : Expression) →
    compEval fuel fns env e = (evalExpr fuel fns env e).toOption
  | 0, _, _, _ => rfl
  | fuel + 1, fns, env, e => by
      cases e with
      | Operand o =>
          simp only [compEval, evalExpr]
          exact compOperand_eq fuel fns env o
      | Operation op l r =>
          simp only [compEval, evalExpr, compEval_eq fuel fns env l, compEval_eq fuel fns env r]
          cases evalExpr fuel fns env l with
          | ok a =>
              cases evalExpr fuel fns env r with
              | ok b => simp [Except.toOption, synthOp_eq]
              | error err => simp [Except.toOption]
          | error err => simp [Except.toOption]

theorem compOperand_eq : (fuel : Nat) → (fns : Fns) → (env : Env) → (o : Operand) →
    compOperand fuel fns env o = (evalOperand fuel fns env o).toOption
  | 0, _, _, _ => rfl
  | fuel + 1, fns, env, o => by
      cases o with
      | I64 n => rfl
      | Group e =>
          simp only [compOperand, evalOperand]
          exact compEval_eq fuel fns env e
      | VarSubstitution n =>
          simp only [compOperand, evalOperand]
          cases lookupEnv env n with
          | some v => rfl
          | none => rfl
      | FnApplication n args =>
          simp only [compOperand, evalOperand]
          cases lookupFn fns n with
          | none => rfl
          | some pb =>
              obtain ⟨params, body⟩ := pb
              simp only
              by_cases hlen : args.length = params.length
              · simp only [if_pos hlen, compArgs_eq fuel fns env args]
                cases evalArgs fuel fns env args with
                | ok vals =>
                    simp only [Except.toOption]
                    exact compEval_eq fuel fns (List.zip params vals) body
                | error err => simp [Except.toOption]
              · simp [if_neg hlen, Except.toOption]
      | Match m =>
          simp only [compOperand, evalOperand]
          exact compMatch_eq fuel fns env m

theorem compArgs_eq : (fuel : Nat) → (fns : Fns) → (env : Env) → (es : List Expression) →
    compArgs fuel fns env es = (evalArgs fuel fns env es).toOption
  | 0, _, _, _ => rfl
  | fuel + 1, fns, env, es => by
      cases es with
      | nil => rfl
      | cons e rest =>
          simp only [compArgs, evalArgs, compEval_eq fuel fns env e]
          cases evalExpr fuel fns env e with
          | ok v =>
              simp only [Except.toOption, compArgs_eq fuel fns env rest]
              cases evalArgs fuel fns env rest with
              | ok vs => rfl
              | error err => rfl
          | error err => simp [Except.toOption]

theorem compMatch_eq : (fuel : Nat) → (fns : Fns) → (env : Env) → (m : Match) →
    compMatch fuel fns env m = (evalMatch fuel fns env m).toOption
  | 0, _, _, _ => rfl
  | fuel + 1, fns, env, m => by
      obtain ⟨w, cs, d⟩ := m
      simp only [compMatch, evalMatch, compEval_eq fuel fns env w]
      cases evalExpr fuel fns env w with
      | ok wv =>
          simp only [Except.toOption]
          exact compClauses_eq fuel fns env wv cs d
      | error err => simp [Except.toOption]

theorem compClauses_eq : (fuel : Nat) → (fns : Fns) → (env : Env) → (wv : Int) →
    (cs : List (Matcher × Expression)) → (d : Expression) →
    compClauses fuel fns env wv cs d = (evalClauses fuel fns env wv cs d).toOption
  | 0, _, _, _, _, _ => rfl
  | fuel + 1, fns, env, wv, cs, d => by
      cases cs with
      | nil =>
          simp only [compClauses, evalClauses]
          exact compEval_eq fuel fns env d
      | cons p rest =>
          obtain ⟨mm, e⟩ := p
          obtain ⟨me⟩ := mm
          simp only [compClauses, evalClauses, compEval_eq fuel fns env me]
          cases evalExpr fuel fns env me with
          | ok mv =>
              simp only [Except.toOption]
              by_cases hv : mv = wv
              · simp only [if_pos hv]
                exact compEval_eq fuel fns env e
              · simp only [if_neg hv]
                exact compClauses_eq fuel fns env wv rest d
          | error err => simp [Except.toOption]

end

theorem compStatements_eq : (stmts : List Statement) → ∀ (fuel : Nat) (env : Env) (fns : Fns),
    compStatements fuel env fns stmts = (runStatements fuel env fns stmts).toOption
  | [], _, _, _ => rfl
  | .VarAssignment n e :: rest, fuel, env, fns => by
      simp only [compStatements, runStatements, compEval_eq fuel fns env e]
      cases evalExpr fuel fns env e with
      | ok v =>
          simp only [Except.toOption]
          exact compStatements_eq rest fuel ((n, v) :: env) fns
      | error err => simp [Except.toOption]
  | .FnDefinition n params body :: rest, fuel, env, fns => by
      simp only [compStatements, runStatements]
      exact compStatements_eq rest fuel env ((n, (params, body)) :: fns)

theorem compOutputs_eq (env : Env) : (outs : List Name) →
    compOutputs env outs = (readOutputs env outs).toOption
  | [] => rfl
  | n :: rest => by
      simp only [compOutputs, readOutputs]
      cases lookupEnv env n with
      | some v =>
          simp only [compOutputs_eq env rest]
          cases readOutputs env rest with
          | ok vs => rfl
          | error err => rfl
      | none => rfl

/-- C1: for every program and every input vector whose length equals the
declared number of inputs, the compiled native artifact's observable run —
the decimal lines it prints — is exactly the decimal rendering of the
interpreter's `execute(program, inputs)` output sequence, and when one
fails the other also terminates abnormally (neither produces output). Both
executions are given the same fuel, the shared stand-in for the finite
call stack. -/
theorem interpreter_compiler_equivalence :
    ∀ (fuel : Nat) (p : Program) (inputs : List Int),
      inputs.length = p.inputs.length →
      compiledRun fuel p inputs =
        (execute fuel p inputs).toOption.map (List.map fun v => String.mk (intToDec v)) := by
  intro fuel p inputs hlen
  simp only [compiledRun, execute, if_pos hlen]
  rw [compStatements_eq]
  cases runStatements fuel (List.zip p.inputs inputs) [] p.statements.stmts with
  | ok envfns =>
      obtain ⟨env, fns⟩ := envfns
      simp only [Except.toOption]
      rw [compOutputs_eq]
      cases readOutputs env p.outputs with
      | ok vs => rfl
      | error err => rfl
  | error err => simp [Except.toOption]

/-- Witness for C1: the spec's first concrete scenario,
`inputs a; b = a + 2; outputs b;` on input `[3]` — the compiled run prints
exactly the interpreter's outputs (`[5]`, printed as the line `"5"`). -/
theorem interpreter_compiler_equivalence_witness :
    compiledRun 10 ⟨[⟨"a"⟩], ⟨[.VarAssignment ⟨"b"⟩
        (.Operation .Add (.Operand (.VarSubstitution ⟨"a"⟩)) (.Operand (.I64 2)))]⟩, [⟨"b"⟩]⟩
      [3] = some ["5"] ∧
    execute 10 ⟨[⟨"a"⟩], ⟨[.VarAssignment ⟨"b"⟩
        (.Operation .Add (.Operand (.VarSubstitution ⟨"a"⟩)) (.Operand (.I64 2)))]⟩, [⟨"b"⟩]⟩
      [3] = .ok [5] := by
  constructor
  · have h := interpreter_compiler_equivalence 10
      ⟨[⟨"a"⟩], ⟨[.VarAssignment ⟨"b"⟩
        (.Operation .Add (.Operand (.VarSubstitution ⟨"a"⟩)) (.Operand (.I64 2)))]⟩, [⟨"b"⟩]⟩
      [3] (by rfl)
    exact h.trans (by rfl)
  · rfl

/-! ## C3: the shunting yard produces precedence-respecting trees -/

/-- The root operator of a child is at least `op` (true for operand
children, which include every parenthesized group). -/
def rootGE (op : Operator) : Expression → Bool
  | .Operation q _ _ => op.prec ≤ q.prec
  | .Operand _ => true

/-- The root operator of a child is strictly above `op`. -/
def rootGT (op : Operator) : Expression → Bool
  | .Operation q _ _ => op.prec < q.prec
  | .Operand _ => true

/-- The shape of trees the shunting yard builds: every operation's left
child root is `≥` its operator and its right child root is `>` it. -/
def canonicalShape : Expression → Bool
  | .Operand _ => true
  | .Operation op l r => rootGE op l && rootGT op r && canonicalShape l && canonicalShape r

/-- The claim's precedence invariant: every operation's operator is `≤`
the root operators of both children (operand children, including every
parenthesized group, are unconstrained). -/
def precOK : Expression → Bool
  | .Operand _ => true
  | .Operation op l r => rootGE op l && rootGE op r && precOK l && precOK r

theorem precOK_of_canonicalShape : (e : Expression) →
    canonicalShape e = true → precOK e = true
  | .Operand _, _ => rfl
  | .Operation op l r, h => by
      simp only [canonicalShape, Bool.and_eq_true] at h
      obtain ⟨⟨⟨hl, hr⟩, hcl⟩, hcr⟩ := h
      have hr' : rootGE op r = true := by
        cases r with
        | Operand _ => rfl
        | Operation q a b => simp only [rootGT] at hr; simp only [rootGE]; simp at hr ⊢; omega
      simp only [precOK, Bool.and_eq_true]
      exact ⟨⟨⟨hl, hr'⟩, precOK_of_canonicalShape l hcl⟩, precOK_of_canonicalShape r hcr⟩

/-- The top pending operator (if any) is strictly below `op`. -/
def ltTop (op : Operator) : List Operator → Bool
  | [] => true
  | q :: _ => q.prec < op.prec

/-- The head operand (if any) has root `≥ op`. -/
def rootGEHead (op : Operator) : List Expression → Bool
  | e :: _ => rootGE op e
  | [] => true

/-- The head operand is a bare (just-pushed) operand leaf. -/
def topLeaf : List Expression → Bool
  | .Operand _ :: _ => true
  | _ => false

/-- The reachable-state invariant of the shunting yard: paired from the
top, each pending operator `p` sits below an operand of root `> p` and
above one of root `≥ p`, the pending operators strictly increase toward
the top, and every stacked operand already has canonical shape. -/
def stackInv : List Expression → List Operator → Bool
  | [e], [] => canonicalShape e
  | e2 :: e1 :: es, p :: ps =>
      canonicalShape e2 && rootGT p e2 && rootGE p e1 && ltTop p ps && stackInv (e1 :: es) ps
  | _, _ => false

theorem stackInv_head : (es : List Expression) → (ps : List Operator) →
    stackInv es ps = true → ∃ e es', es = e :: es' ∧ canonicalShape e = true := by
  intro es ps h
  cases es with
  | nil => cases ps <;> simp [stackInv] at h
  | cons e es' =>
      refine ⟨e, es', rfl, ?_⟩
      cases ps with
      | nil =>
          cases es' with
          | nil => simpa [stackInv] using h
          | cons _ _ => simp [stackInv] at h
      | cons p ps' =>
          cases es' with
          | nil => simp [stackInv] at h
          | cons e1 es'' =>
              simp only [stackInv, Bool.and_eq_true] at h
              exact h.1.1.1.1

/-- One reduce step preserves the invariant. -/
theorem reduceStep_inv {e2 e1 : Expression} {es : List Expression}
    {p : Operator} {ps : List Operator}
    (h : stackInv (e2 :: e1 :: es) (p :: ps) = true) :
    stackInv (Expression.Operation p e1 e2 :: es) ps = true := by
  simp only [stackInv, Bool.and_eq_true] at h
  obtain ⟨⟨⟨⟨hc2, hgt⟩, hge⟩, hlt⟩, hrest⟩ := h
  have hc1 : canonicalShape e1 = true := by
    obtain ⟨e, es', heq, hce⟩ := stackInv_head _ _ hrest
    injection heq with h1 h2
    rw [h1]
    exact hce
  have hcX : canonicalShape (Expression.Operation p e1 e2) = true := by
    simp only [canonicalShape, Bool.and_eq_true]
    exact ⟨⟨⟨hge, hgt⟩, hc1⟩, hc2⟩
  cases ps with
  | nil =>
      cases es with
      | nil => simpa [stackInv] using hcX
      | cons _ _ => simp [stackInv] at hrest
  | cons q ps' =>
      cases es with
      | nil => simp [stackInv] at hrest
      | cons f1 es' =>
          simp only [stackInv, Bool.and_eq_true] at hrest
          obtain ⟨⟨⟨⟨hc1', hgt1⟩, hge1⟩, hlt1⟩, hrest'⟩ := hrest
          simp only [stackInv, Bool.and_eq_true]
          refine ⟨⟨⟨⟨hcX, ?_⟩, hge1⟩, hlt1⟩, hrest'⟩
          simp only [ltTop] at hlt
          simp only [rootGT]
          exact hlt

/-- Reducing for an incoming operator preserves the invariant, leaves a
head of root `≥` the operator, and strictly lowers the top below it. -/
theorem syReduce_inv : (ps : List Operator) → (es : List Expression) → (op : Operator) →
    stackInv es ps = true → rootGEHead op es = true →
    stackInv (Parser.syReduce op es ps).1 (Parser.syReduce op es ps).2 = true ∧
    rootGEHead op (Parser.syReduce op es ps).1 = true ∧
    ltTop op (Parser.syReduce op es ps).2 = true
  | [], es, op, hinv, hhead => ⟨hinv, hhead, rfl⟩
  | p :: ps, es, op, hinv, hhead => by
      by_cases hp : p.prec < op.prec
      · simp only [Parser.syReduce, if_pos hp]
        exact ⟨hinv, hhead, by simpa [ltTop] using hp⟩
      · cases es with
        | nil => simp [stackInv] at hinv
        | cons e2 es' =>
            cases es' with
            | nil => simp [stackInv] at hinv
            | cons e1 es'' =>
                have hstep := reduceStep_inv hinv
                have hheadX : rootGEHead op (Expression.Operation p e1 e2 :: es'') = true := by
                  simp only [rootGEHead, rootGE, decide_eq_true_eq]
                  omega
                have ih := syReduce_inv ps (Expression.Operation p e1 e2 :: es'') op hstep hheadX
                simpa only [Parser.syReduce, if_neg hp] using ih

/-- A push preserves the invariant and leaves a bare operand on top. -/
theorem syPush_inv {es : List Expression} {ps : List Operator}
    (op : Operator) (o : Operand)
    (hinv : stackInv es ps = true) (htop : topLeaf es = true) :
    stackInv (Parser.ShuntingYard.push ⟨es, ps⟩ op o).operands
      (Parser.ShuntingYard.push ⟨es, ps⟩ op o).operators = true ∧
    topLeaf (Parser.ShuntingYard.push ⟨es, ps⟩ op o).operands = true := by
  have hhead : rootGEHead op es = true := by
    cases es with
    | nil => rfl
    | cons e es' =>
        cases e with
        | Operand _ => rfl
        | Operation _ _ _ => simp [topLeaf] at htop
  obtain ⟨hinv', hhead', hlt'⟩ := syReduce_inv ps es op hinv hhead
  obtain ⟨e', es'', heq, hce'⟩ := stackInv_head _ _ hinv'
  constructor
  · show stackInv (Expression.Operand o :: (Parser.syReduce op es ps).1)
      (op :: (Parser.syReduce op es ps).2) = true
    rw [heq] at hinv' hhead' ⊢
    cases hred : (Parser.syReduce op es ps).2 with
    | nil =>
        rw [hred] at hinv'
        cases es'' with
        | nil =>
            simp only [stackInv, Bool.and_eq_true]
            refine ⟨⟨⟨⟨rfl, rfl⟩, ?_⟩, rfl⟩, ?_⟩
            · simpa [rootGEHead] using hhead'
            · simpa [stackInv] using hinv'
        | cons _ _ => simp [stackInv] at hinv'
    | cons q ps'' =>
        rw [hred] at hinv' hlt'
        simp only [stackInv, Bool.and_eq_true]
        refine ⟨⟨⟨⟨rfl, rfl⟩, ?_⟩, ?_⟩, hinv'⟩
        · simpa [rootGEHead] using hhead'
        · simpa [ltTop] using hlt'
  · show topLeaf (Expression.Operand o :: (Parser.syReduce op es ps).1) = true
    rfl

/-- The final full reduction of an invariant-satisfying yard yields a
canonical tree. -/
theorem syFinish_inv : (ps : List Operator) → (es : List Expression) →
    stackInv es ps = true → canonicalShape (Parser.syFinish es ps) = true
  | [], es, hinv => by
      obtain ⟨e, es', heq, hce⟩ := stackInv_head _ _ hinv
      rw [heq]
      cases es' with
      | nil => simpa [Parser.syFinish] using hce
      | cons _ _ => rw [heq] at hinv; simp [stackInv] at hinv
  | p :: ps, es, hinv => by
      cases es with
      | nil => simp [stackInv] at hinv
      | cons e2 es' =>
          cases es' with
          | nil => simp [stackInv] at hinv
          | cons e1 es'' =>
              have hstep := reduceStep_inv hinv
              simpa [Parser.syFinish] using syFinish_inv ps _ hstep

/-- The fold over (operator, operand) pairs preserves the invariant. -/
theorem foldOps_inv : (fuel : Nat) → (sy : Parser.ShuntingYard) → (s : List Char) →
    ∀ {r : List Char} {sy' : Parser.ShuntingYard},
    stackInv sy.operands sy.operators = true → topLeaf sy.operands = true →
    Parser.foldOps fuel sy s = .done r sy' →
    stackInv sy'.operands sy'.operators = true
  | 0, _, _, _, _, _, _, h => by simp [Parser.foldOps] at h
  | fuel + 1, sy, s, r, sy', hinv, htop, h => by
      simp only [Parser.foldOps] at h
      cases hop : Parser.operator (skipWs s) with
      | error => simp only [hop, PResult.done.injEq] at h; rw [← h.2]; exact hinv
      | panic => simp only [hop] at h; exact absurd h (by simp)
      | done r1 op =>
          simp only [hop] at h
          cases hoa : Parser.operand fuel (skipWs r1) with
          | error => simp only [hoa, PResult.done.injEq] at h; rw [← h.2]; exact hinv
          | panic => simp only [hoa] at h; exact absurd h (by simp)
          | done r2 o =>
              simp only [hoa] at h
              obtain ⟨es, ps⟩ := sy
              obtain ⟨hinv', htop'⟩ := syPush_inv op o hinv htop
              exact foldOps_inv fuel _ (skipWs r2) hinv' htop' h

/-- C3: the parser resolves every flat operand/operator sequence under the
single total precedence order Subtract < Add < Divide < Multiply — no two
operators share a level — and every expression it produces satisfies the
invariant that each operation's operator has precedence less than or equal
to its (unparenthesized) children's operators. -/
theorem parser_precedence_resolution :
    (Operator.Subtract.prec < Operator.Add.prec ∧ Operator.Add.prec < Operator.Divide.prec ∧
      Operator.Divide.prec < Operator.Multiply.prec) ∧
    (∀ a b : Operator, a.prec = b.prec → a = b) ∧
    (∀ (fuel : Nat) (s rest : List Char) (e : Expression),
      Parser.expression fuel s = .done rest e → precOK e = true) := by
  refine ⟨⟨by decide, by decide, by decide⟩, ?_, ?_⟩
  · intro a b h
    cases a <;> cases b <;> first | rfl | (simp [Operator.prec] at h)
  · intro fuel s rest e h
    cases fuel with
    | zero => simp [Parser.expression] at h
    | succ f =>
        simp only [Parser.expression] at h
        cases ho : Parser.operand f (skipWs s) with
        | error => simp only [ho] at h; exact absurd h (by simp)
        | panic => simp only [ho] at h; exact absurd h (by simp)
        | done r o =>
            simp only [ho] at h
            cases hf : Parser.foldOps f (Parser.ShuntingYard.new o) (skipWs r) with
            | error => simp only [hf] at h; exact absurd h (by simp)
            | panic => simp only [hf] at h; exact absurd h (by simp)
            | done r2 sy =>
                simp only [hf] at h
                simp only [PResult.done.injEq] at h
                have hinv := foldOps_inv f (Parser.ShuntingYard.new o) (skipWs r)
                  (by rfl) (by rfl) hf
                have := syFinish_inv sy.operators sy.operands hinv
                rw [← h.2]
                exact precOK_of_canonicalShape _ this

/-- Witness for C3: parsing `1 + 2 * 3 - 4` yields
`(1 + (2 * 3)) - 4`, a tree satisfying the precedence invariant. -/
theorem parser_precedence_resolution_witness :
    Parser.expression 50 "1 + 2 * 3 - 4".data =
      .done [] (.Operation .Subtract
        (.Operation .Add (.Operand (.I64 1))
          (.Operation .Multiply (.Operand (.I64 2)) (.Operand (.I64 3))))
        (.Operand (.I64 4))) ∧
    precOK (.Operation .Subtract
        (.Operation .Add (.Operand (.I64 1))
          (.Operation .Multiply (.Operand (.I64 2)) (.Operand (.I64 3))))
        (.Operand (.I64 4))) = true :=
  ⟨by rfl, parser_precedence_resolution.2.2 50 "1 + 2 * 3 - 4".data [] _ (by rfl)⟩

/-! ## C2: round trip — token spines of canonical trees -/

/-- The leftmost operand of an expression. -/
def firstOpnd : Expression → Operand
  | .Operand o => o
  | .Operation _ l _ => firstOpnd l

/-- The (operator, operand) pairs following the first operand in the
in-order token sequence. -/
def restPairs : Expression → List (Operator × Operand)
  | .Operand _ => []
  | .Operation op l r => restPairs l ++ (op, firstOpnd r) :: restPairs r

/-- The operand-expression stack (top first) the yard holds after feeding
the tokens of a canonical expression. -/
def spineE : Expression → List Expression
  | .Operand o => [.Operand o]
  | .Operation _ l r => spineE r ++ [l]

/-- The pending-operator stack (top first) after feeding the tokens of a
canonical expression. -/
def spineO : Expression → List Operator
  | .Operand _ => []
  | .Operation p _ r => spineO r ++ [p]

/-- Folding a list of (operator, operand) pushes into a shunting yard. -/
def foldPush : List (Operator × Operand) → Parser.ShuntingYard → Parser.ShuntingYard
  | [], sy => sy
  | (op, o) :: ps, sy => foldPush ps (sy.push op o)

/-- The top pending operator (if any) is strictly below the root operator
of the expression about to be fed. -/
def belowRootB : List Operator → Expression → Bool
  | _, .Operand _ => true
  | [], _ => true
  | q :: _, .Operation p _ _ => q.prec < p.prec

theorem foldPush_append : (A B : List (Operator × Operand)) → ∀ sy,
    foldPush (A ++ B) sy = foldPush B (foldPush A sy)
  | [], _, _ => rfl
  | (op, o) :: A, B, sy => by
      simp only [List.cons_append, foldPush]
      exact foldPush_append A B _

theorem syReduce_stop (p : Operator) (es : List Expression) :
    ∀ {Y : List Operator}, ltTop p Y = true → Parser.syReduce p es Y = (es, Y) := by
  intro Y hY
  cases Y with
  | nil => rfl
  | cons q Y' =>
      simp only [ltTop, decide_eq_true_eq] at hY
      simp [Parser.syReduce, hY]

theorem syReduce_spine : (l : Expression) → canonicalShape l = true →
    ∀ (p : Operator), rootGE p l = true → ∀ (X : List Expression) (Y : List Operator),
    Parser.syReduce p (spineE l ++ X) (spineO l ++ Y) = Parser.syReduce p (l :: X) Y
  | .Operand o, _, p, _, X, Y => rfl
  | .Operation p₀ l₀ r₀, hcan, p, hge, X, Y => by
      simp only [canonicalShape, Bool.and_eq_true] at hcan
      obtain ⟨⟨⟨hgeL, hgtR⟩, hcl⟩, hcr⟩ := hcan
      have hp₀ : p.prec ≤ p₀.prec := by
        simpa [rootGE, decide_eq_true_eq] using hge
      have hger : rootGE p r₀ = true := by
        cases r₀ with
        | Operand _ => rfl
        | Operation q a b =>
            simp only [rootGT, decide_eq_true_eq] at hgtR
            simp only [rootGE, decide_eq_true_eq]
            omega
      have step1 : Parser.syReduce p (spineE (Expression.Operation p₀ l₀ r₀) ++ X)
          (spineO (Expression.Operation p₀ l₀ r₀) ++ Y) =
          Parser.syReduce p (spineE r₀ ++ (l₀ :: X)) (spineO r₀ ++ (p₀ :: Y)) := by
        simp [spineE, spineO]
      rw [step1, syReduce_spine r₀ hcr p hger (l₀ :: X) (p₀ :: Y)]
      simp only [Parser.syReduce]
      rw [if_neg (by omega)]

theorem syFinish_spine : (e : Expression) → canonicalShape e = true →
    ∀ (X : List Expression) (Y : List Operator),
    Parser.syFinish (spineE e ++ X) (spineO e ++ Y) = Parser.syFinish (e :: X) Y
  | .Operand o, _, X, Y => rfl
  | .Operation p₀ l₀ r₀, hcan, X, Y => by
      simp only [canonicalShape, Bool.and_eq_true] at hcan
      have step1 : Parser.syFinish (spineE (Expression.Operation p₀ l₀ r₀) ++ X)
          (spineO (Expression.Operation p₀ l₀ r₀) ++ Y) =
          Parser.syFinish (spineE r₀ ++ (l₀ :: X)) (spineO r₀ ++ (p₀ :: Y)) := by
        simp [spineE, spineO]
      rw [step1, syFinish_spine r₀ hcan.2 (l₀ :: X) (p₀ :: Y)]
      simp [Parser.syFinish]

theorem foldPush_spine : (e : Expression) → canonicalShape e = true →
    ∀ (X : List Expression) (Y : List Operator), belowRootB Y e = true →
    foldPush (restPairs e) ⟨.Operand (firstOpnd e) :: X, Y⟩ = ⟨spineE e ++ X, spineO e ++ Y⟩
  | .Operand o, _, X, Y, _ => rfl
  | .Operation p l r, hcan, X, Y, hbelow => by
      simp only [canonicalShape, Bool.and_eq_true] at hcan
      obtain ⟨⟨⟨hgeL, hgtR⟩, hcl⟩, hcr⟩ := hcan
      have hfirst : firstOpnd (Expression.Operation p l r) = firstOpnd l := rfl
      have hbelowL : belowRootB Y l = true := by
        cases l with
        | Operand _ => cases Y <;> rfl
        | Operation q a b =>
            cases Y with
            | nil => rfl
            | cons y Y' =>
                simp only [belowRootB, decide_eq_true_eq] at hbelow ⊢
                simp only [rootGE, decide_eq_true_eq] at hgeL
                omega
      have step1 : restPairs (Expression.Operation p l r) =
          restPairs l ++ (p, firstOpnd r) :: restPairs r := rfl
      rw [step1, hfirst, foldPush_append, foldPush_spine l hcl X Y hbelowL]
      show foldPush (restPairs r)
        (Parser.ShuntingYard.push ⟨spineE l ++ X, spineO l ++ Y⟩ p (firstOpnd r)) = _
      have hpush : Parser.ShuntingYard.push ⟨spineE l ++ X, spineO l ++ Y⟩ p (firstOpnd r) =
          ⟨.Operand (firstOpnd r) :: l :: X, p :: Y⟩ := by
        have hred : Parser.syReduce p (spineE l ++ X) (spineO l ++ Y) = (l :: X, Y) := by
          rw [syReduce_spine l hcl p hgeL X Y]
          apply syReduce_stop
          cases Y with
          | nil => rfl
          | cons y Y' =>
              simp only [belowRootB, decide_eq_true_eq] at hbelow
              simp only [ltTop, decide_eq_true_eq]
              omega
        simp [Parser.ShuntingYard.push, hred]
      rw [hpush]
      have hbelowR : belowRootB (p :: Y) r = true := by
        cases r with
        | Operand _ => rfl
        | Operation q a b =>
            simp only [rootGT, decide_eq_true_eq] at hgtR
            simp only [belowRootB, decide_eq_true_eq]
            omega
      rw [foldPush_spine r hcr (l :: X) (p :: Y) hbelowR]
      simp [spineE, spineO, Parser.ShuntingYard.mk.injEq, List.append_assoc]

theorem intoExpression_spine (e : Expression) (hcan : canonicalShape e = true) :
    Parser.ShuntingYard.intoExpression ⟨spineE e, spineO e⟩ = e := by
  show Parser.syFinish (spineE e) (spineO e) = e
  have := syFinish_spine e hcan [] []
  simp only [List.append_nil] at this
  rw [this]
  rfl

/-! ## C2: validity (canonical, well-named, in-range) predicates -/

mutual

/-- A valid canonical expression: precedence-canonical shape (exactly the
parser's image) with valid operands throughout. -/
def validE : Expression → Bool
  | .Operand o => validO o
  | .Operation op l r => rootGE op l && rootGT op r && validE l && validE r

/-- A valid operand: in-range literals, valid names, valid sub-expressions. -/
def validO : Operand → Bool
  | .I64 n => decide (inI64Range n)
  | .Group e => validE e
  | .VarSubstitution n => validNameB n
  | .FnApplication n args => validNameB n && validArgs args
  | .Match m => validM m

/-- Validity of a function-application argument list. -/
def validArgs : List Expression → Bool
  | [] => true
  | e :: rest => validE e && validArgs rest

/-- Validity of a match. -/
def validM : Match → Bool
  | .mk w cs d => validE w && validClauses cs && validE d

/-- Validity of match clauses. -/
def validClauses : List (Matcher × Expression) → Bool
  | [] => true
  | (.Value me, e) :: rest => validE me && validE e && validClauses rest

end

theorem canonicalShape_of_validE : (e : Expression) → validE e = true →
    canonicalShape e = true
  | .Operand _, _ => rfl
  | .Operation op l r, h => by
      simp only [validE, Bool.and_eq_true] at h
      obtain ⟨⟨⟨hge, hgt⟩, hl⟩, hr⟩ := h
      simp only [canonicalShape, Bool.and_eq_true]
      exact ⟨⟨⟨hge, hgt⟩, canonicalShape_of_validE l hl⟩, canonicalShape_of_validE r hr⟩

/-- Validity of a name list. -/
def validNames : List Name → Bool
  | [] => true
  | n :: rest => validNameB n && validNames rest

/-- Validity of a statement. -/
def validStatement : Statement → Bool
  | .VarAssignment n e => validNameB n && validE e
  | .FnDefinition n params e => validNameB n && validNames params && validE e

/-- Validity of a statement list. -/
def validStatements : List Statement → Bool
  | [] => true
  | st :: rest => validStatement st && validStatements rest

/-- A valid program: valid names throughout, canonical expressions, and
in-range integer literals. -/
def validProgram (p : Program) : Bool :=
  validNames p.inputs && validStatements p.statements.stmts && validNames p.outputs

/-! ## C2: character-class and whitespace lemmas -/

/-- Characters that legitimately follow a complete expression in rendered
source: `)`, `,`, `;`, `{`, `}`, `=`. -/
def stopChar (c : Char) : Bool :=
  c.toNat == 41 || c.toNat == 44 || c.toNat == 59 || c.toNat == 123 ||
    c.toNat == 125 || c.toNat == 61

/-- Operator characters `+ - * /`. -/
def opChar (c : Char) : Bool :=
  c.toNat == 43 || c.toNat == 45 || c.toNat == 42 || c.toNat == 47

/-- After skipping whitespace, the remainder begins with a stop character:
the condition under which an expression parse ends exactly there. -/
def exprStopB (rest : List Char) : Bool :=
  match skipWs rest with
  | c :: _ => stopChar c
  | [] => false

/-- The remainder after a rendered operand: its immediate head is
whitespace or a stop character, and after skipping whitespace a stop or
operator character follows. -/
def operandFollowB (rest : List Char) : Bool :=
  (match rest with
   | c :: _ => isWsChar c || stopChar c
   | [] => false) &&
  (match skipWs rest with
   | c :: _ => stopChar c || opChar c
   | [] => false)

theorem skipWs_cons_not_ws {c : Char} (t : List Char) (h : isWsChar c = false) :
    skipWs (c :: t) = c :: t := by
  simp [skipWs, h]

theorem skipWs_cons_ws {c : Char} (t : List Char) (h : isWsChar c = true) :
    skipWs (c :: t) = skipWs t := by
  simp [skipWs, h]

theorem skipWs_idem : (s : List Char) → skipWs (skipWs s) = skipWs s
  | [] => rfl
  | c :: t => by
      by_cases h : isWsChar c = true
      · rw [skipWs_cons_ws t h]
        exact skipWs_idem t
      · rw [skipWs_cons_not_ws t (by simpa using h), skipWs_cons_not_ws t (by simpa using h)]

theorem exprStopB_operandFollowB {rest : List Char} (h : exprStopB rest = true) :
    operandFollowB rest = true := by
  unfold exprStopB at h
  unfold operandFollowB
  cases hrest : rest with
  | nil => rw [hrest] at h; simp [skipWs] at h
  | cons c t =>
      rw [hrest] at h
      by_cases hws : isWsChar c = true
      · rw [skipWs_cons_ws t hws] at h
        rw [skipWs_cons_ws t hws]
        cases hsk : skipWs t with
        | nil => rw [hsk] at h; simp at h
        | cons d u =>
            rw [hsk] at h
            have h' : stopChar d = true := h
            simp [hws, h']
      · have hws' : isWsChar c = false := by simpa using hws
        rw [skipWs_cons_not_ws t hws'] at h
        have h' : stopChar c = true := h
        rw [skipWs_cons_not_ws t hws']
        simp [h']

/-! ## C2: decimal rendering round trip -/

theorem digitChar_toNat {k : Nat} (h : k < 10) : (digitChar k).toNat = 48 + k := by
  interval_cases k <;> rfl

theorem digitChar_isDigit {k : Nat} (h : k < 10) : isDigitChar (digitChar k) = true := by
  interval_cases k <;> rfl

theorem decDigits_append (xs : List Char) (d : Char) :
    decDigits (xs ++ [d]) = 10 * decDigits xs + (d.toNat - 48) := by
  simp [decDigits, List.foldl_append]
  ring

theorem natToDecGo_spec : (f : Nat) → (n : Nat) → n < f →
    (natToDecGo f n).all isDigitChar = true ∧ natToDecGo f n ≠ [] ∧
      decDigits (natToDecGo f n) = n
  | 0, n, h => absurd h (by omega)
  | f + 1, n, h => by
      by_cases h10 : n < 10
      · refine ⟨?_, ?_, ?_⟩
        · simp [natToDecGo, h10, digitChar_isDigit h10]
        · simp [natToDecGo, h10]
        · simp [natToDecGo, h10, decDigits, digitChar_toNat h10]
      · have hdiv : n / 10 < f := by omega
        obtain ⟨hall, hne, hval⟩ := natToDecGo_spec f (n / 10) hdiv
        have hmod : n % 10 < 10 := by omega
        refine ⟨?_, ?_, ?_⟩
        · simp [natToDecGo, h10, List.all_append, hall, digitChar_isDigit hmod]
        · simp [natToDecGo, h10]
        · rw [natToDecGo, if_neg h10, decDigits_append, hval, digitChar_toNat hmod]
          omega

theorem natToDec_spec (n : Nat) :
    (natToDec n).all isDigitChar = true ∧ natToDec n ≠ [] ∧ decDigits (natToDec n) = n :=
  natToDecGo_spec (n + 1) n (by omega)

/-- Every byte of a rendered integer is a digit or `-`. -/
theorem intToDec_all (n : Int) :
    (intToDec n).all (fun b => isDigitChar b || b.toNat == 45) = true := by
  have key : ∀ (l : List Char), l.all isDigitChar = true →
      l.all (fun b => isDigitChar b || b.toNat == 45) = true := by
    intro l hl
    induction l with
    | nil => rfl
    | cons c t ih => simp_all
  unfold intToDec
  by_cases hn : n < 0
  · simp only [if_pos hn, List.all_cons, Bool.and_eq_true]
    exact ⟨rfl, key _ (natToDec_spec (-n).toNat).1⟩
  · simp only [if_neg hn]
    exact key _ (natToDec_spec n.toNat).1

theorem intToDec_ne_nil (n : Int) : intToDec n ≠ [] := by
  unfold intToDec
  by_cases hn : n < 0
  · simp [if_pos hn]
  · simp only [if_neg hn]
    exact (natToDec_spec n.toNat).2.1

/-- `str::parse::<i64>` recovers the rendered value of an in-range integer. -/
theorem rustParseI64_intToDec (n : Int) (hr : inI64Range n) :
    rustParseI64 (intToDec n) = some n := by
  obtain ⟨hall, hne, hval⟩ := natToDec_spec n.toNat
  obtain ⟨hallm, hnem, hvalm⟩ := natToDec_spec (-n).toNat
  unfold intToDec
  by_cases hn : n < 0
  · simp only [if_pos hn, rustParseI64]
    rw [if_pos trivial, if_pos ⟨hnem, hallm⟩, hvalm]
    have hcast : ((-n).toNat : Int) = -n := Int.toNat_of_nonneg (by omega)
    rw [hcast]
    simp only [neg_neg]
    rw [if_pos hr]
  · simp only [if_neg hn]
    cases hd : natToDec n.toNat with
    | nil => exact absurd hd hne
    | cons c cs =>
        have hcd : isDigitChar c = true := by
          have := hall
          rw [hd] at this
          simp only [List.all_cons, Bool.and_eq_true] at this
          exact this.1
        have hcne : ¬(c = '-') := by
          intro hcc
          rw [hcc] at hcd
          simp [isDigitChar] at hcd
        simp only [rustParseI64]
        rw [if_neg hcne, if_pos (by rw [← hd]; exact hall), ← hd, hval]
        have hcast : (n.toNat : Int) = n := Int.toNat_of_nonneg (by omega)
        rw [hcast, if_pos hr]

/-- The `i64` parser consumes exactly a rendered in-range integer when the
remainder cannot extend the token. -/
theorem i64_display (n : Int) (hr : inI64Range n) (rest : List Char)
    (hrest : ∀ c, rest.head? = some c → (isDigitChar c || c.toNat == 45) = false) :
    Parser.i64 (intToDec n ++ rest) = .done rest n := by
  obtain ⟨ht, hdp⟩ := takeWhile_append_of_all (intToDec n) (intToDec_all n) hrest
  simp only [Parser.i64, ht, hdp]
  rw [if_neg (by simpa [List.isEmpty_iff] using intToDec_ne_nil n)]
  rw [rustParseI64_intToDec n hr]

/-! ## C2: failure of the operand alternatives on non-operand heads -/

theorem operand_error_head {c : Char} (hdig : (isDigitChar c || c.toNat == 45) = false)
    (hlower : isLowerChar c = false) (hparen : c.toNat ≠ 40) (hm : c.toNat ≠ 109)
    (hws : isWsChar c = false) :
    ∀ (fuel : Nat) (t : List Char), Parser.operand fuel (c :: t) = .error := by
  intro fuel t
  cases fuel with
  | zero => rfl
  | succ f =>
      have h1 : Parser.i64 (c :: t) = .error := by
        simp [Parser.i64, List.takeWhile, hdig]
      have hpc : ¬(('(' : Char) = c) := fun hh => hparen (by rw [← hh]; rfl)
      have h2 : Parser.group f (c :: t) = .error := by
        cases f with
        | zero => rfl
        | succ g => simp [Parser.group, tagP, hpc]
      have h3 : Parser.name (c :: t) = .error := by
        simp [Parser.name, hlower]
      have h4 : Parser.variable_substitution (c :: t) = .error := by
        simp [Parser.variable_substitution, h3]
      have h5 : Parser.function_application f (c :: t) = .error := by
        cases f with
        | zero => rfl
        | succ g => simp [Parser.function_application, h3]
      have hmc : ¬(('m' : Char) = c) := fun hh => hm (by rw [← hh]; rfl)
      have h6 : Parser.match_ f (c :: t) = .error := by
        cases f with
        | zero => rfl
        | succ g =>
            simp [Parser.match_, wsTagP, skipWs_cons_not_ws t hws, tagP, hmc]
      simp [Parser.operand, h1, h2, h4, h5, h6]

theorem stopChar_facts {c : Char} (h : stopChar c = true) :
    c.toNat = 41 ∨ c.toNat = 44 ∨ c.toNat = 59 ∨ c.toNat = 123 ∨ c.toNat = 125 ∨
      c.toNat = 61 := by
  simp only [stopChar, Bool.or_eq_true, beq_iff_eq] at h
  tauto

theorem operand_error_of_stop {c : Char} (h : stopChar c = true) :
    ∀ (fuel : Nat) (t : List Char), Parser.operand fuel (c :: t) = .error := by
  have hf := stopChar_facts h
  exact operand_error_head
    (by simp [isDigitChar]; omega)
    (by simp [isLowerChar]; omega)
    (by omega) (by omega)
    (by simp [isWsChar]; omega)

theorem expression_error_of_stop {c : Char} (h : stopChar c = true) :
    ∀ (fuel : Nat) (t : List Char), Parser.expression fuel (c :: t) = .error := by
  intro fuel t
  cases fuel with
  | zero => rfl
  | succ f =>
      have hws : isWsChar c = false := by
        have hf := stopChar_facts h
        simp [isWsChar]
        omega
      simp [Parser.expression, skipWs_cons_not_ws t hws, operand_error_of_stop h f t]

theorem operand_error_underscore :
    ∀ (fuel : Nat) (t : List Char), Parser.operand fuel ('_' :: t) = .error :=
  operand_error_head (by decide) (by decide) (by decide) (by decide) (by decide)

theorem expression_error_underscore :
    ∀ (fuel : Nat) (t : List Char), Parser.expression fuel ('_' :: t) = .error := by
  intro fuel t
  cases fuel with
  | zero => rfl
  | succ f =>
      have hs : skipWs ('_' :: t) = '_' :: t := skipWs_cons_not_ws t (by decide)
      simp [Parser.expression, hs, operand_error_underscore f t]

/-- The `name` parser rejects the reserved word `match` followed by a
space. -/
theorem name_match_error (t : List Char) :
    Parser.name ('m' :: 'a' :: 't' :: 'c' :: 'h' :: ' ' :: t) = .error := by
  simp [Parser.name, List.takeWhile, List.dropWhile, isNameTailChar, isLowerChar,
    isWsChar, Parser.reservedNames]

/-- The `name` parser rejects the reserved word `outputs` when the next
byte cannot extend a name. -/
theorem name_outputs_error {c : Char} (hc : isNameTailChar c = false) (t : List Char) :
    Parser.name ('o' :: 'u' :: 't' :: 'p' :: 'u' :: 't' :: 's' :: c :: t) = .error := by
  have h0 : List.takeWhile isNameTailChar (c :: t) = [] := by
    rw [List.takeWhile_cons, hc]
    simp
  have htw : List.takeWhile isNameTailChar ('u' :: 't' :: 'p' :: 'u' :: 't' :: 's' :: c :: t)
      = ['u', 't', 'p', 'u', 't', 's'] := by
    rw [List.takeWhile_cons, List.takeWhile_cons, List.takeWhile_cons,
      List.takeWhile_cons, List.takeWhile_cons, List.takeWhile_cons, h0]
    rfl
  simp [Parser.name, htw, isLowerChar, Parser.reservedNames]

/-! ## C2: display decomposition into token text -/

/-- The rendered text of the (operator, operand) pairs after the first
operand: ` op operand` for each pair. -/
def catPairs : List (Operator × Operand) → List Char
  | [] => []
  | (op, o) :: rest => ' ' :: op.display ++ ' ' :: displayOperand o ++ catPairs rest

theorem needsParens_false_of_rootGE {op : Operator} {e : Expression}
    (h : rootGE op e = true) : needsParens op e = false := by
  cases e with
  | Operand _ => rfl
  | Operation q l r =>
      simp only [rootGE, decide_eq_true_eq] at h
      simp only [needsParens, Operator.lt, decide_eq_false_iff_not]
      omega

theorem needsParens_false_of_rootGT {op : Operator} {e : Expression}
    (h : rootGT op e = true) : needsParens op e = false := by
  cases e with
  | Operand _ => rfl
  | Operation q l r =>
      simp only [rootGT, decide_eq_true_eq] at h
      simp only [needsParens, Operator.lt, decide_eq_false_iff_not]
      omega

theorem catPairs_append : (A B : List (Operator × Operand)) →
    catPairs (A ++ B) = catPairs A ++ catPairs B
  | [], _ => rfl
  | (op, o) :: A, B => by
      simp only [List.cons_append, catPairs, List.append_eq, catPairs_append A B,
        List.append_assoc, List.cons_append]

/-- A valid (canonical) expression renders without parentheses: its text is
the first operand followed by the rendered pair list. -/
theorem display_eq_tokens : (e : Expression) → validE e = true →
    displayExpr e = displayOperand (firstOpnd e) ++ catPairs (restPairs e)
  | .Operand o, _ => by simp [displayExpr, firstOpnd, restPairs, catPairs]
  | .Operation op l r, hv => by
      simp only [validE, Bool.and_eq_true] at hv
      obtain ⟨⟨⟨hge, hgt⟩, hl⟩, hr⟩ := hv
      simp only [displayExpr, needsParens_false_of_rootGE hge,
        needsParens_false_of_rootGT hgt, Bool.false_eq_true, if_false,
        display_eq_tokens l hl, display_eq_tokens r hr]
      simp only [firstOpnd, restPairs, catPairs_append, catPairs, List.append_assoc,
        List.cons_append]

theorem validO_firstOpnd : (e : Expression) → validE e = true →
    validO (firstOpnd e) = true
  | .Operand o, h => h
  | .Operation op l r, h => by
      simp only [validE, Bool.and_eq_true] at h
      exact validO_firstOpnd l h.1.2

theorem valid_restPairs : (e : Expression) → validE e = true →
    ∀ p ∈ restPairs e, validO p.2 = true
  | .Operand _, _, p, hp => by simp [restPairs] at hp
  | .Operation op l r, h, p, hp => by
      simp only [validE, Bool.and_eq_true] at h
      obtain ⟨⟨⟨_, _⟩, hl⟩, hr⟩ := h
      simp only [restPairs, List.mem_append, List.mem_cons] at hp
      rcases hp with hp | hp | hp
      · exact valid_restPairs l hl p hp
      · rw [hp]
        exact validO_firstOpnd r hr
      · exact valid_restPairs r hr p hp

theorem sizeOf_firstOpnd : (e : Expression) → sizeOf (firstOpnd e) < sizeOf e
  | .Operand o => by simp [firstOpnd]
  | .Operation op l r => by
      have := sizeOf_firstOpnd l
      simp only [firstOpnd]
      calc sizeOf (firstOpnd l) < sizeOf l := this
        _ < sizeOf (Expression.Operation op l r) := by simp; omega

theorem sizeOf_restPairs : (e : Expression) → ∀ p ∈ restPairs e, sizeOf p.2 < sizeOf e
  | .Operand _, p, hp => by simp [restPairs] at hp
  | .Operation op l r, p, hp => by
      simp only [restPairs, List.mem_append, List.mem_cons] at hp
      have hle : sizeOf l < sizeOf (Expression.Operation op l r) := by simp; omega
      have hre : sizeOf r < sizeOf (Expression.Operation op l r) := by simp
      rcases hp with hp | hp | hp
      · exact lt_trans (sizeOf_restPairs l p hp) hle
      · rw [hp]
        exact lt_trans (sizeOf_firstOpnd r) hre
      · exact lt_trans (sizeOf_restPairs r p hp) hre

/-- The head byte of a rendered operand is never whitespace. -/
theorem skipWs_displayOperand (o : Operand) (hv : validO o = true) (x : List Char) :
    skipWs (displayOperand o ++ x) = displayOperand o ++ x := by
  cases o with
  | I64 n =>
      cases hd : intToDec n with
      | nil => exact absurd hd (intToDec_ne_nil n)
      | cons c t =>
          have hall := intToDec_all n
          rw [hd] at hall
          simp only [List.all_cons, Bool.and_eq_true, Bool.or_eq_true] at hall
          have hws : isWsChar c = false := by
            rcases hall.1 with h | h
            · simp only [isDigitChar, Bool.and_eq_true, decide_eq_true_eq] at h
              simp [isWsChar]
              omega
            · simp only [beq_iff_eq] at h
              simp [isWsChar]
              omega
          simp only [displayOperand, hd, List.cons_append]
          exact skipWs_cons_not_ws _ hws
  | Group e => exact skipWs_cons_not_ws _ (by decide)
  | VarSubstitution n =>
      obtain ⟨c, cs, hd, hc, _, _⟩ := validNameB_parts hv
      simp only [displayOperand, hd, List.cons_append]
      apply skipWs_cons_not_ws
      simp only [isLowerChar, Bool.and_eq_true, decide_eq_true_eq] at hc
      simp [isWsChar]
      omega
  | FnApplication n args =>
      simp only [validO, Bool.and_eq_true] at hv
      obtain ⟨c, cs, hd, hc, _, _⟩ := validNameB_parts hv.1
      simp only [displayOperand, hd, List.cons_append, List.append_assoc]
      apply skipWs_cons_not_ws
      simp only [isLowerChar, Bool.and_eq_true, decide_eq_true_eq] at hc
      simp [isWsChar]
      omega
  | Match m =>
      obtain ⟨w, cs, d⟩ := m
      simp only [displayMatch, displayOperand]
      exact skipWs_cons_not_ws _ (by decide)

/-- The head byte of a rendered expression is never whitespace. -/
theorem skipWs_displayExpr (e : Expression) (hv : validE e = true) (x : List Char) :
    skipWs (displayExpr e ++ x) = displayExpr e ++ x := by
  rw [display_eq_tokens e hv, List.append_assoc]
  exact skipWs_displayOperand (firstOpnd e) (validO_firstOpnd e hv) _

/-! ## C2: fuel bounds sufficient for the fuel-indexed parsers -/

mutual

/-- Fuel sufficient to parse the rendering of an expression. -/
def fuelE : Expression → Nat
  | .Operand o => 2 + fuelO o
  | .Operation _ l r => 1 + fuelE l + fuelE r

/-- Fuel sufficient to parse the rendering of an operand. -/
def fuelO : Operand → Nat
  | .I64 _ => 1
  | .Group e => 2 + fuelE e
  | .VarSubstitution _ => 1
  | .FnApplication _ args => 3 + fuelArgs args
  | .Match m => fuelM m

/-- Fuel sufficient to parse the rendering of a match. -/
def fuelM : Match → Nat
  | .mk w cs d => 8 + fuelE w + fuelCs cs + fuelE d

/-- Fuel sufficient to parse the rendering of an argument list. -/
def fuelArgs : List Expression → Nat
  | [] => 1
  | e :: rest => 2 + fuelE e + fuelArgs rest

/-- Fuel sufficient to parse the rendering of a clause list. -/
def fuelCs : List (Matcher × Expression) → Nat
  | [] => 1
  | (.Value me, e) :: rest => 3 + fuelE me + fuelE e + fuelCs rest

end

/-- Fuel consumed by the operator/operand fold over a rendered pair
list. -/
def fuelPairs : List (Operator × Operand) → Nat
  | [] => 1
  | (_, o) :: ps => 1 + fuelO o + fuelPairs ps

theorem fuelPairs_append : (A B : List (Operator × Operand)) →
    fuelPairs (A ++ B) = fuelPairs A + fuelPairs B - 1
  | [], B => by simp [fuelPairs]
  | (op, o) :: A, B => by
      have ih := fuelPairs_append A B
      have h1 : 1 ≤ fuelPairs A := by cases A with
        | nil => simp [fuelPairs]
        | cons p ps => obtain ⟨q, u⟩ := p; simp [fuelPairs]; omega
      simp only [List.cons_append, fuelPairs, List.append_eq, ih]
      omega

theorem fuelPairs_pos : (ps : List (Operator × Operand)) → 1 ≤ fuelPairs ps
  | [] => le_refl 1
  | (op, o) :: ps => by simp [fuelPairs]; omega

/-- The spine decomposition of an expression needs no more fuel than
`fuelE` provides. -/
theorem fuel_decomp : (e : Expression) →
    fuelO (firstOpnd e) + fuelPairs (restPairs e) + 1 ≤ fuelE e
  | .Operand o => by simp [firstOpnd, restPairs, fuelPairs, fuelE]; omega
  | .Operation op l r => by
      have ihl := fuel_decomp l
      have ihr := fuel_decomp r
      simp only [firstOpnd, restPairs, fuelE, fuelPairs_append, fuelPairs]
      have h1 := fuelPairs_pos (restPairs l)
      have h2 := fuelPairs_pos (restPairs r)
      omega

/-! ## C2: operator token round trip and stop-character failures -/

theorem operator_display (op : Operator) (t : List Char) :
    Parser.operator (op.display ++ t) = .done t op := by
  cases op <;> rfl

theorem operator_error_of_stop {c : Char} (h : stopChar c = true) (t : List Char) :
    Parser.operator (c :: t) = .error := by
  have hf := stopChar_facts h
  have h1 : ¬(c = '+') := fun hh => by rw [hh] at hf; simp at hf
  have h2 : ¬(c = '-') := fun hh => by rw [hh] at hf; simp at hf
  have h3 : ¬(c = '*') := fun hh => by rw [hh] at hf; simp at hf
  have h4 : ¬(c = '/') := fun hh => by rw [hh] at hf; simp at hf
  simp [Parser.operator, h1, h2, h3, h4]

theorem opChar_display (op : Operator) : ∃ c t, op.display = c :: t ∧ opChar c = true ∧
    isWsChar c = false := by
  cases op <;> exact ⟨_, _, rfl, by decide, by decide⟩

theorem exprStopB_cons_stop {c : Char} (h : stopChar c = true) (t : List Char) :
    exprStopB (c :: t) = true := by
  have hws : isWsChar c = false := by
    have hf := stopChar_facts h
    simp [isWsChar]
    omega
  simp only [exprStopB, skipWs_cons_not_ws t hws, h]

/-- What follows a rendered operand inside a pair list still satisfies the
follow condition. -/
theorem operandFollowB_catPairs (ps : List (Operator × Operand)) (rest : List Char)
    (hrest : exprStopB rest = true) : operandFollowB (catPairs ps ++ rest) = true := by
  cases ps with
  | nil => exact exprStopB_operandFollowB hrest
  | cons p ps' =>
      obtain ⟨op, o⟩ := p
      obtain ⟨c, t, hd, hop, hws⟩ := opChar_display op
      simp only [catPairs, hd, List.cons_append, List.append_assoc]
      unfold operandFollowB
      rw [skipWs_cons_ws _ (by decide), skipWs_cons_not_ws _ hws]
      simp [hop]
      decide

theorem operandFollowB_head_not_name {rest : List Char} (h : operandFollowB rest = true) :
    ∀ c, rest.head? = some c → isNameTailChar c = false := by
  intro c hc
  cases rest with
  | nil => simp at hc
  | cons b t =>
      have hb : c = b := by
        simp only [List.head?] at hc
        injection hc with hc
        exact hc.symm
      subst hb
      simp only [operandFollowB, Bool.and_eq_true] at h
      have h1 : (isWsChar c || stopChar c) = true := h.1
      simp only [Bool.or_eq_true] at h1
      rcases h1 with h1 | h1
      · simp only [isWsChar, Bool.or_eq_true, beq_iff_eq] at h1
        simp [isNameTailChar, isLowerChar]
        omega
      · have hf := stopChar_facts h1
        simp [isNameTailChar, isLowerChar]
        omega

theorem operandFollowB_head_not_digit {rest : List Char} (h : operandFollowB rest = true) :
    ∀ c, rest.head? = some c → (isDigitChar c || c.toNat == 45) = false := by
  intro c hc
  cases rest with
  | nil => simp at hc
  | cons b t =>
      have hb : c = b := by
        simp only [List.head?] at hc
        injection hc with hc
        exact hc.symm
      subst hb
      simp only [operandFollowB, Bool.and_eq_true] at h
      have h1 : (isWsChar c || stopChar c) = true := h.1
      simp only [Bool.or_eq_true] at h1
      rcases h1 with h1 | h1
      · simp only [isWsChar, Bool.or_eq_true, beq_iff_eq] at h1
        simp [isDigitChar]
        omega
      · have hf := stopChar_facts h1
        simp [isDigitChar]
        omega

/-! ## C2: clause-list encoding of parsed match clauses -/

/-- The parsed `Clause` form of a displayed matcher clause list. -/
def clausesOf (cs : List (Matcher × Expression)) : List (Parser.Clause × Expression) :=
  cs.map fun p => (Parser.Clause.Matcher p.1, p.2)

theorem default_of_clausesOf : (cs : List (Matcher × Expression)) → ∀ d : Expression,
    Parser.default_clause_of (clausesOf cs ++ [(Parser.Clause.Default_, d)]) = some d
  | [], d => rfl
  | (m, e) :: cs, d => by
      have ih := default_of_clausesOf cs d
      simp only [clausesOf, List.map_cons, List.cons_append, Parser.default_clause_of,
        Parser.default_clause_go] at ih ⊢
      exact ih

theorem matchers_of_clausesOf : (cs : List (Matcher × Expression)) → ∀ d : Expression,
    Parser.matchers_of (clausesOf cs ++ [(Parser.Clause.Default_, d)]) = cs
  | [], d => rfl
  | (m, e) :: cs, d => by
      have ih := matchers_of_clausesOf cs d
      simp only [clausesOf, List.map_cons, List.cons_append, List.append_eq,
        Parser.matchers_of] at ih ⊢
      rw [ih]

/-- The tail rendering of an argument list after its first element. -/
def catArgsTail : List Expression → List Char
  | [] => []
  | e :: rest => ',' :: ' ' :: displayExpr e ++ catArgsTail rest

theorem displayArgs_eq_tail : (args : List Expression) → ∀ e : Expression,
    displayArgs (e :: args) = displayExpr e ++ catArgsTail args
  | [], e => by simp [displayArgs, catArgsTail]
  | a :: rest, e => by
      simp only [displayArgs, displayArgs_eq_tail rest a, catArgsTail, List.cons_append,
        List.append_assoc]

/-! ## C2: more failure and whitespace lemmas used by the round trip -/

theorem i64_error_of_not_digit {c : Char} (h : (isDigitChar c || c.toNat == 45) = false)
    (t : List Char) : Parser.i64 (c :: t) = .error := by
  simp [Parser.i64, List.takeWhile, h]

theorem match_clause_error_of_stop {c : Char} (h : stopChar c = true) (fuel : Nat)
    (t : List Char) : Parser.match_clause fuel (c :: t) = .error := by
  cases fuel with
  | zero => rfl
  | succ f =>
      have hf := stopChar_facts h
      have hws : isWsChar c = false := by simp [isWsChar]; omega
      have h95 : ('_' : Char).toNat = 95 := rfl
      have hne : ¬(('_' : Char) = c) := char_ne_of_toNat_ne (by rw [h95]; omega)
      simp [Parser.match_clause, expression_error_of_stop h f t, wsTagP,
        skipWs_cons_not_ws t hws, tagP, hne]

theorem clauseListLoop_stop (fuel : Nat) (hfuel : 2 ≤ fuel)
    (acc : List (Parser.Clause × Expression)) (rest : List Char) :
    Parser.clauseListLoop fuel acc (',' :: ' ' :: '}' :: rest) =
      .done (',' :: ' ' :: '}' :: rest) acc := by
  obtain ⟨j, rfl⟩ : ∃ j, fuel = j + 1 := ⟨fuel - 1, by omega⟩
  have h1 : wsTagP [','] (',' :: ' ' :: '}' :: rest) = .done ('}' :: rest) () := by
    simp [wsTagP, tagP, skipWs, isWsChar]
  have hstop : stopChar '}' = true := by decide
  have h2 := match_clause_error_of_stop hstop j rest
  simp [Parser.clauseListLoop, h1, h2]

theorem exprStopB_cons_of_ws {b : Char} (h : isWsChar b = true) (t : List Char) :
    exprStopB (b :: t) = exprStopB t := by
  simp only [exprStopB, skipWs_cons_ws t h]

theorem skipWs_clauses_underscore (cs : List (Matcher × Expression))
    (hv : validClauses cs = true) (Z : List Char) :
    skipWs (displayClauses cs ++ '_' :: Z) = displayClauses cs ++ '_' :: Z := by
  cases cs with
  | nil => exact skipWs_cons_not_ws Z (by decide)
  | cons p rest =>
      obtain ⟨m, e⟩ := p
      cases m with
      | Value me =>
          simp only [validClauses, Bool.and_eq_true] at hv
          simp only [displayClauses, displayMatcher, List.append_assoc, List.cons_append]
          exact skipWs_displayExpr me hv.1.1 _

theorem skipWs_catArgsTail (args : List Expression) (Z : List Char) :
    skipWs (catArgsTail args ++ ')' :: Z) = catArgsTail args ++ ')' :: Z := by
  cases args with
  | nil => exact skipWs_cons_not_ws Z (by decide)
  | cons e rest =>
      simp only [catArgsTail, List.cons_append]
      exact skipWs_cons_not_ws _ (by decide)

theorem exprStopB_catArgsTail (args : List Expression) (Z : List Char) :
    exprStopB (catArgsTail args ++ ')' :: Z) = true := by
  cases args with
  | nil => exact exprStopB_cons_stop (by decide) Z
  | cons e rest =>
      simp only [catArgsTail, List.cons_append]
      exact exprStopB_cons_stop (by decide) _

theorem belowRootB_nil (e : Expression) : belowRootB [] e = true := by
  cases e <;> rfl

theorem sizeOfE_pos (e : Expression) : 1 ≤ sizeOf e := by
  cases e <;> simp_arith

theorem fuelArgs_pos (args : List Expression) : 1 ≤ fuelArgs args := by
  cases args with
  | nil => simp [fuelArgs]
  | cons e rest => simp [fuelArgs]; omega

theorem fuelCs_pos (cs : List (Matcher × Expression)) : 1 ≤ fuelCs cs := by
  cases cs with
  | nil => simp [fuelCs]
  | cons p rest =>
      obtain ⟨m, e⟩ := p
      cases m with
      | Value me => simp [fuelCs]; omega

theorem fuelE_facts : ((e : Expression) → 1 ≤ fuelE e) ∧ ((o : Operand) → 1 ≤ fuelO o) := by
  constructor
  · intro e
    cases e with
    | Operand o => simp [fuelE]; omega
    | Operation op l r => simp [fuelE]; omega
  · intro o
    cases o with
    | I64 n => simp [fuelO]
    | Group e => simp [fuelO]; omega
    | VarSubstitution n => simp [fuelO]
    | FnApplication n args => simp [fuelO]; omega
    | Match m =>
        obtain ⟨w, cs, d⟩ := m
        simp [fuelO, fuelM]
        omega

/-- The operator/operand fold consumes exactly the rendered pair list,
given that each rendered operand in the list parses back to itself. -/
theorem foldOps_display : (ps : List (Operator × Operand)) →
    (∀ op o, (op, o) ∈ ps → validO o = true ∧
      ∀ (fu : Nat), fuelO o ≤ fu → ∀ (r2 : List Char), operandFollowB r2 = true →
      ∃ r', Parser.operand fu (displayOperand o ++ r2) = .done r' o ∧ skipWs r' = skipWs r2) →
    ∀ (fuel : Nat) (sy : Parser.ShuntingYard) (rest : List Char),
    fuelPairs ps ≤ fuel → exprStopB rest = true →
    Parser.foldOps fuel sy (skipWs (catPairs ps ++ rest)) = .done (skipWs rest) (foldPush ps sy)
  | [], _, fuel, sy, rest, hfuel, hstop => by
      obtain ⟨f, rfl⟩ : ∃ f, fuel = f + 1 := ⟨fuel - 1, by simp [fuelPairs] at hfuel; omega⟩
      simp only [catPairs, List.nil_append]
      have hop : Parser.operator (skipWs (skipWs rest)) = .error := by
        rw [skipWs_idem]
        unfold exprStopB at hstop
        cases hsk : skipWs rest with
        | nil => rw [hsk] at hstop; simp at hstop
        | cons c u =>
            rw [hsk] at hstop
            exact operator_error_of_stop hstop u
      simp [Parser.foldOps, hop, foldPush]
  | (op, o) :: ps, H, fuel, sy, rest, hfuel, hstop => by
      obtain ⟨f, rfl⟩ : ∃ f, fuel = f + 1 := ⟨fuel - 1, by simp [fuelPairs] at hfuel; omega⟩
      obtain ⟨hvo, Hop⟩ := H op o (List.mem_cons_self _ _)
      obtain ⟨c, t, hd, hopc, hws⟩ := opChar_display op
      have hskO : skipWs (displayOperand o ++ (catPairs ps ++ rest))
          = displayOperand o ++ (catPairs ps ++ rest) := skipWs_displayOperand o hvo _
      have hskop : skipWs (op.display ++ ' ' :: (displayOperand o ++ (catPairs ps ++ rest)))
          = op.display ++ ' ' :: (displayOperand o ++ (catPairs ps ++ rest)) := by
        rw [hd, List.cons_append]
        exact skipWs_cons_not_ws _ hws
      have hin : skipWs (catPairs ((op, o) :: ps) ++ rest)
          = op.display ++ ' ' :: (displayOperand o ++ (catPairs ps ++ rest)) := by
        simp only [catPairs, List.cons_append, List.append_assoc]
        rw [skipWs_cons_ws _ (by decide)]
        exact hskop
      rw [hin]
      have hopr : Parser.operator
          (skipWs (op.display ++ ' ' :: (displayOperand o ++ (catPairs ps ++ rest))))
          = .done (' ' :: (displayOperand o ++ (catPairs ps ++ rest))) op := by
        rw [hskop]
        exact operator_display op _
      have hfo : fuelO o ≤ f := by simp only [fuelPairs] at hfuel; omega
      obtain ⟨r', hdone, hskip⟩ := Hop f hfo (catPairs ps ++ rest)
        (operandFollowB_catPairs ps rest hstop)
      have hoper : Parser.operand f (skipWs (' ' :: (displayOperand o ++ (catPairs ps ++ rest))))
          = .done r' o := by
        rw [skipWs_cons_ws _ (by decide), hskO]
        exact hdone
      have hrec : Parser.foldOps f (sy.push op o) (skipWs r')
          = .done (skipWs rest) (foldPush ps (sy.push op o)) := by
        rw [hskip]
        exact foldOps_display ps (fun q u hu => H q u (List.mem_cons_of_mem _ hu)) f
          (sy.push op o) rest (by simp only [fuelPairs] at hfuel; omega) hstop
      simp only [Parser.foldOps, hopr, hoper, hrec, foldPush]

/-! ## C2: the round trip of rendered expressions through the parser -/

mutual

/-- A rendered valid operand parses back to itself, leaving a remainder
whitespace-equivalent to what followed it. -/
theorem operand_display (o : Operand) (hv : validO o = true) (fuel : Nat) (hf : fuelO o ≤ fuel)
    (rest : List Char) (hrest : operandFollowB rest = true) :
    ∃ r', Parser.operand fuel (displayOperand o ++ rest) = .done r' o ∧
      skipWs r' = skipWs rest := by
  obtain ⟨f, rfl⟩ : ∃ f, fuel = f + 1 := ⟨fuel - 1, by have := fuelE_facts.2 o; omega⟩
  cases o with
  | I64 n =>
      have hr : inI64Range n := by
        simp only [validO, decide_eq_true_eq] at hv
        exact hv
      have h1 : Parser.i64 (intToDec n ++ rest) = .done rest n :=
        i64_display n hr rest (operandFollowB_head_not_digit hrest)
      refine ⟨rest, ?_, rfl⟩
      simp only [displayOperand, Parser.operand, h1]
  | Group e =>
      have hE : validE e = true := hv
      simp only [fuelO] at hf
      obtain ⟨g, rfl⟩ : ∃ g, f = g + 1 := ⟨f - 1, by omega⟩
      have hin : displayOperand (Operand.Group e) ++ rest
          = '(' :: (displayExpr e ++ ')' :: rest) := by
        simp [displayOperand, List.append_assoc]
      rw [hin]
      have h1 : Parser.i64 ('(' :: (displayExpr e ++ ')' :: rest)) = .error :=
        i64_error_of_not_digit (by decide) _
      have h2 : Parser.group (g + 1) ('(' :: (displayExpr e ++ ')' :: rest)) = .done rest e := by
        have htag : tagP ['('] ('(' :: (displayExpr e ++ ')' :: rest))
            = .done (displayExpr e ++ ')' :: rest) () := rfl
        have hex : Parser.expression g (displayExpr e ++ ')' :: rest) = .done (')' :: rest) e := by
          have := expression_display e hE g (by have := fuelE_facts.1 e; omega) (')' :: rest)
            (exprStopB_cons_stop (by decide) rest)
          rwa [skipWs_cons_not_ws rest (by decide)] at this
        have htag2 : tagP [')'] (')' :: rest) = .done rest () := rfl
        simp only [Parser.group, htag, hex, htag2]
      refine ⟨rest, ?_, rfl⟩
      simp only [Parser.operand, h1, h2]
  | VarSubstitution n =>
      have hN : validNameB n = true := hv
      obtain ⟨c0, cs0, hdta, hlc, _, _⟩ := validNameB_parts hN
      have hname : Parser.name (n.val.data ++ rest) = .done rest n :=
        name_parses n rest hN (operandFollowB_head_not_name hrest)
      have h1 : Parser.i64 (n.val.data ++ rest) = .error := by
        rw [hdta, List.cons_append]
        exact i64_error_of_lower _ hlc
      have h2 : Parser.group f (n.val.data ++ rest) = .error := by
        rw [hdta, List.cons_append]
        exact group_error_of_lower f _ hlc
      have h3 := hrest
      simp only [operandFollowB, Bool.and_eq_true] at h3
      cases hsk : skipWs rest with
      | nil =>
          rw [hsk] at h3
          exact absurd (h3.2 : (false : Bool) = true) (by simp)
      | cons c u =>
          rw [hsk] at h3
          have hco : (stopChar c || opChar c) = true := h3.2
          have hcp : ¬(c = '(') := by
            intro hh
            rw [hh] at hco
            simp [stopChar, opChar] at hco
          have h4 : Parser.variable_substitution (n.val.data ++ rest) = .done (c :: u) n := by
            simp only [Parser.variable_substitution, hname, hsk]
            simp [hcp]
          refine ⟨c :: u, ?_, by rw [← hsk, skipWs_idem]⟩
          simp only [displayOperand, Parser.operand, h1, h2, h4]
  | FnApplication n args =>
      simp only [validO, Bool.and_eq_true] at hv
      obtain ⟨hN, hargs⟩ := hv
      simp only [fuelO] at hf
      obtain ⟨g, rfl⟩ : ∃ g, f = g + 1 := ⟨f - 1, by omega⟩
      obtain ⟨c0, cs0, hdta, hlc, _, _⟩ := validNameB_parts hN
      have hin : displayOperand (Operand.FnApplication n args) ++ rest
          = n.val.data ++ ('(' :: (displayArgs args ++ ')' :: rest)) := by
        simp [displayOperand, List.append_assoc]
      rw [hin]
      have hname : Parser.name (n.val.data ++ ('(' :: (displayArgs args ++ ')' :: rest)))
          = .done ('(' :: (displayArgs args ++ ')' :: rest)) n := by
        apply name_parses n _ hN
        intro c hc
        simp only [List.head?] at hc
        injection hc with hc
        rw [← hc]
        decide
      have h1 : Parser.i64 (n.val.data ++ ('(' :: (displayArgs args ++ ')' :: rest)))
          = .error := by
        rw [hdta, List.cons_append]
        exact i64_error_of_lower _ hlc
      have h2 : Parser.group (g + 1) (n.val.data ++ ('(' :: (displayArgs args ++ ')' :: rest)))
          = .error := by
        rw [hdta, List.cons_append]
        exact group_error_of_lower _ _ hlc
      have h3 : Parser.variable_substitution
          (n.val.data ++ ('(' :: (displayArgs args ++ ')' :: rest))) = .error := by
        have hskp : skipWs ('(' :: (displayArgs args ++ ')' :: rest))
            = '(' :: (displayArgs args ++ ')' :: rest) := skipWs_cons_not_ws _ (by decide)
        simp only [Parser.variable_substitution, hname, hskp]
        simp
      have hskX : skipWs (displayArgs args ++ ')' :: rest) = displayArgs args ++ ')' :: rest := by
        cases args with
        | nil => simpa [displayArgs] using skipWs_cons_not_ws rest (by decide)
        | cons a bs =>
            simp only [validArgs, Bool.and_eq_true] at hargs
            rw [displayArgs_eq_tail bs a, List.append_assoc]
            exact skipWs_displayExpr a hargs.1 _
      have h4 : Parser.function_application (g + 1)
          (n.val.data ++ ('(' :: (displayArgs args ++ ')' :: rest)))
          = .done (skipWs rest) (n, args) := by
        have htag : wsTagP ['('] ('(' :: (displayArgs args ++ ')' :: rest))
            = .done (displayArgs args ++ ')' :: rest) () := by
          have hsk1 : skipWs ('(' :: (displayArgs args ++ ')' :: rest))
              = '(' :: (displayArgs args ++ ')' :: rest) := skipWs_cons_not_ws _ (by decide)
          have h0 : tagP ['('] ('(' :: (displayArgs args ++ ')' :: rest))
              = .done (displayArgs args ++ ')' :: rest) () := rfl
          simp only [wsTagP, hsk1, h0, hskX]
        have hexprs : Parser.expressions g (displayArgs args ++ ')' :: rest)
            = .done (')' :: rest) args :=
          expressions_display args hargs g (by omega) rest
        have htag2 : wsTagP [')'] (')' :: rest) = .done (skipWs rest) () := by
          have hsk1 : skipWs (')' :: rest) = ')' :: rest := skipWs_cons_not_ws _ (by decide)
          have h0 : tagP [')'] (')' :: rest) = .done rest () := rfl
          simp only [wsTagP, hsk1, h0]
        simp only [Parser.function_application, hname, htag, hexprs, htag2]
      refine ⟨skipWs rest, ?_, skipWs_idem rest⟩
      simp [Parser.operand, h1, h2, h3, h4]
  | Match m =>
      rcases hm : m with ⟨w, cs, d⟩
      subst hm
      have hM : (validE w && validClauses cs && validE d) = true := hv
      simp only [Bool.and_eq_true] at hM
      obtain ⟨⟨hw, hcs⟩, hd⟩ := hM
      simp only [fuelO, fuelM] at hf
      obtain ⟨g, rfl⟩ : ∃ g, f = g + 1 := ⟨f - 1, by omega⟩
      have hs1 : "match ".data = ['m', 'a', 't', 'c', 'h', ' '] := rfl
      have hs2 : " \x7b ".data = [' ', '{', ' '] := rfl
      have hs3 : "_ => ".data = ['_', ' ', '=', '>', ' '] := rfl
      have hs4 : ", \x7d".data = [',', ' ', '}'] := rfl
      have hin : displayOperand (Operand.Match (Match.mk w cs d)) ++ rest
          = 'm' :: 'a' :: 't' :: 'c' :: 'h' :: ' ' :: (displayExpr w ++ ' ' :: '{' :: ' ' ::
            (displayClauses cs ++ '_' :: ' ' :: '=' :: '>' :: ' ' ::
              (displayExpr d ++ ',' :: ' ' :: '}' :: rest))) := by
        simp [displayOperand, displayMatch, hs1, hs2, hs3, hs4, List.append_assoc]
      rw [hin]
      have h1 : Parser.i64 ('m' :: 'a' :: 't' :: 'c' :: 'h' :: ' ' :: (displayExpr w ++ ' ' ::
          '{' :: ' ' :: (displayClauses cs ++ '_' :: ' ' :: '=' :: '>' :: ' ' ::
            (displayExpr d ++ ',' :: ' ' :: '}' :: rest)))) = .error :=
        i64_error_of_lower _ (by decide)
      have h2 : Parser.group (g + 1) ('m' :: 'a' :: 't' :: 'c' :: 'h' :: ' ' ::
          (displayExpr w ++ ' ' :: '{' :: ' ' :: (displayClauses cs ++ '_' :: ' ' :: '=' ::
            '>' :: ' ' :: (displayExpr d ++ ',' :: ' ' :: '}' :: rest)))) = .error :=
        group_error_of_lower _ _ (by decide)
      have hname := name_match_error (displayExpr w ++ ' ' :: '{' :: ' ' ::
        (displayClauses cs ++ '_' :: ' ' :: '=' :: '>' :: ' ' ::
          (displayExpr d ++ ',' :: ' ' :: '}' :: rest)))
      have h3 : Parser.variable_substitution ('m' :: 'a' :: 't' :: 'c' :: 'h' :: ' ' ::
          (displayExpr w ++ ' ' :: '{' :: ' ' :: (displayClauses cs ++ '_' :: ' ' :: '=' ::
            '>' :: ' ' :: (displayExpr d ++ ',' :: ' ' :: '}' :: rest)))) = .error := by
        simp [Parser.variable_substitution, hname]
      have h4 : Parser.function_application (g + 1) ('m' :: 'a' :: 't' :: 'c' :: 'h' :: ' ' ::
          (displayExpr w ++ ' ' :: '{' :: ' ' :: (displayClauses cs ++ '_' :: ' ' :: '=' ::
            '>' :: ' ' :: (displayExpr d ++ ',' :: ' ' :: '}' :: rest)))) = .error := by
        simp [Parser.function_application, hname]
      have h5 : Parser.match_ (g + 1) ('m' :: 'a' :: 't' :: 'c' :: 'h' :: ' ' ::
          (displayExpr w ++ ' ' :: '{' :: ' ' :: (displayClauses cs ++ '_' :: ' ' :: '=' ::
            '>' :: ' ' :: (displayExpr d ++ ',' :: ' ' :: '}' :: rest))))
          = .done (skipWs rest) (Match.mk w cs d) :=
        match_display w cs d hw hcs hd (g + 1) (by omega) rest
      refine ⟨skipWs rest, ?_, skipWs_idem rest⟩
      simp only [Parser.operand, h1, h2, h3, h4, h5]
termination_by sizeOf o
decreasing_by
all_goals subst_vars
all_goals try simp_wf
all_goals omega

/-- A rendered valid expression parses back to itself when followed by a
stop character (after whitespace). -/
theorem expression_display (e : Expression) (hv : validE e = true) (fuel : Nat)
    (hf : fuelE e ≤ fuel) (rest : List Char) (hstop : exprStopB rest = true) :
    Parser.expression fuel (displayExpr e ++ rest) = .done (skipWs rest) e := by
  obtain ⟨f, rfl⟩ : ∃ f, fuel = f + 1 := ⟨fuel - 1, by have := fuelE_facts.1 e; omega⟩
  have hdec := fuel_decomp e
  have hO : validO (firstOpnd e) = true := validO_firstOpnd e hv
  have hcanon := canonicalShape_of_validE e hv
  rw [display_eq_tokens e hv, List.append_assoc]
  have hsk0 : skipWs (displayOperand (firstOpnd e) ++ (catPairs (restPairs e) ++ rest))
      = displayOperand (firstOpnd e) ++ (catPairs (restPairs e) ++ rest) :=
    skipWs_displayOperand _ hO _
  obtain ⟨r', hop, hskr⟩ := operand_display (firstOpnd e) hO f (by omega)
    (catPairs (restPairs e) ++ rest) (operandFollowB_catPairs _ rest hstop)
  have hfold : Parser.foldOps f (Parser.ShuntingYard.new (firstOpnd e)) (skipWs r')
      = .done (skipWs rest) (foldPush (restPairs e) (Parser.ShuntingYard.new (firstOpnd e))) := by
    rw [hskr]
    exact foldOps_display (restPairs e)
      (fun op o hp => ⟨valid_restPairs e hv (op, o) hp,
        fun fu hfu r2 hr2 => operand_display o (valid_restPairs e hv (op, o) hp) fu hfu r2 hr2⟩)
      f (Parser.ShuntingYard.new (firstOpnd e)) rest (by omega) hstop
  have hinto : (foldPush (restPairs e) (Parser.ShuntingYard.new (firstOpnd e))).intoExpression
      = e := by
    have hfp := foldPush_spine e hcanon [] [] (belowRootB_nil e)
    rw [show Parser.ShuntingYard.new (firstOpnd e)
      = ⟨[Expression.Operand (firstOpnd e)], []⟩ from rfl, hfp]
    simp only [List.append_nil]
    exact intoExpression_spine e hcanon
  simp only [Parser.expression, hsk0, hop, hfold, hinto]
termination_by sizeOf e
decreasing_by
all_goals subst_vars
all_goals try simp_wf
· exact sizeOf_firstOpnd e
· exact sizeOf_restPairs e (op, o) hp

/-- A rendered argument list parses back to itself up to the closing
parenthesis. -/
theorem expressions_display (args : List Expression) (hv : validArgs args = true) (fuel : Nat)
    (hf : fuelArgs args ≤ fuel) (rest : List Char) :
    Parser.expressions fuel (displayArgs args ++ ')' :: rest) = .done (')' :: rest) args := by
  obtain ⟨g, rfl⟩ : ∃ g, fuel = g + 1 := ⟨fuel - 1, by have := fuelArgs_pos args; omega⟩
  cases args with
  | nil =>
      simp only [displayArgs, List.nil_append]
      have herr : Parser.expression g (')' :: rest) = .error :=
        expression_error_of_stop (by decide) g rest
      simp [Parser.expressions, herr]
  | cons e args' =>
      simp only [validArgs, Bool.and_eq_true] at hv
      obtain ⟨he, hargs'⟩ := hv
      simp only [fuelArgs] at hf
      rw [displayArgs_eq_tail args' e, List.append_assoc]
      have hex : Parser.expression g (displayExpr e ++ (catArgsTail args' ++ ')' :: rest))
          = .done (catArgsTail args' ++ ')' :: rest) e := by
        have := expression_display e he g (by omega) _ (exprStopB_catArgsTail args' rest)
        rwa [skipWs_catArgsTail] at this
      simp only [Parser.expressions, hex]
      have := expressionsLoop_display args' [e] hargs' g (by omega) rest
      simpa using this
termination_by sizeOf args
decreasing_by
all_goals subst_vars
all_goals try simp_wf
all_goals omega

/-- The argument-list continuation parses the rendered tail of an argument
list. -/
theorem expressionsLoop_display (args : List Expression) (acc : List Expression)
    (hv : validArgs args = true) (fuel : Nat) (hf : fuelArgs args ≤ fuel) (rest : List Char) :
    Parser.expressionsLoop fuel acc (catArgsTail args ++ ')' :: rest)
    = .done (')' :: rest) (acc ++ args) := by
  obtain ⟨j, rfl⟩ : ∃ j, fuel = j + 1 := ⟨fuel - 1, by have := fuelArgs_pos args; omega⟩
  cases args with
  | nil =>
      simp only [catArgsTail, List.nil_append]
      have herr : wsTagP [','] (')' :: rest) = .error := by
        have hsk1 : skipWs (')' :: rest) = ')' :: rest := skipWs_cons_not_ws _ (by decide)
        simp [wsTagP, hsk1, tagP]
      simp [Parser.expressionsLoop, herr]
  | cons e args' =>
      simp only [validArgs, Bool.and_eq_true] at hv
      obtain ⟨he, hargs'⟩ := hv
      simp only [fuelArgs] at hf
      simp only [catArgsTail, List.cons_append, List.append_assoc]
      have htag : wsTagP [','] (',' :: ' ' :: (displayExpr e ++ (catArgsTail args' ++
          ')' :: rest))) = .done (displayExpr e ++ (catArgsTail args' ++ ')' :: rest)) () := by
        have hsk1 : skipWs (',' :: ' ' :: (displayExpr e ++ (catArgsTail args' ++ ')' :: rest)))
            = ',' :: ' ' :: (displayExpr e ++ (catArgsTail args' ++ ')' :: rest)) :=
          skipWs_cons_not_ws _ (by decide)
        have h0 : tagP [','] (',' :: ' ' :: (displayExpr e ++ (catArgsTail args' ++
            ')' :: rest))) = .done (' ' :: (displayExpr e ++ (catArgsTail args' ++
              ')' :: rest))) () := rfl
        simp only [wsTagP, hsk1, h0]
        rw [skipWs_cons_ws _ (by decide), skipWs_displayExpr e he]
      have hex : Parser.expression j (displayExpr e ++ (catArgsTail args' ++ ')' :: rest))
          = .done (catArgsTail args' ++ ')' :: rest) e := by
        have := expression_display e he j (by omega) _ (exprStopB_catArgsTail args' rest)
        rwa [skipWs_catArgsTail] at this
      simp only [Parser.expressionsLoop, htag, hex]
      have := expressionsLoop_display args' (acc ++ [e]) hargs' j (by omega) rest
      simpa [List.append_assoc] using this
termination_by sizeOf args
decreasing_by
all_goals subst_vars
all_goals try simp_wf
all_goals omega

/-- A rendered match operand (keyword, scrutinee, clause block) parses
back to itself. -/
theorem match_display (w : Expression) (cs : List (Matcher × Expression)) (d : Expression)
    (hw : validE w = true) (hcs : validClauses cs = true) (hd : validE d = true)
    (fuel : Nat) (hf : 7 + fuelE w + fuelCs cs + fuelE d ≤ fuel) (rest : List Char) :
    Parser.match_ fuel ('m' :: 'a' :: 't' :: 'c' :: 'h' :: ' ' :: (displayExpr w ++ ' ' ::
      '{' :: ' ' :: (displayClauses cs ++ '_' :: ' ' :: '=' :: '>' :: ' ' ::
        (displayExpr d ++ ',' :: ' ' :: '}' :: rest))))
    = .done (skipWs rest) (Match.mk w cs d) := by
  obtain ⟨f, rfl⟩ : ∃ f, fuel = f + 1 := ⟨fuel - 1, by omega⟩
  have hkw : wsTagP "match ".data ('m' :: 'a' :: 't' :: 'c' :: 'h' :: ' ' ::
      (displayExpr w ++ ' ' :: '{' :: ' ' :: (displayClauses cs ++ '_' :: ' ' :: '=' :: '>' ::
        ' ' :: (displayExpr d ++ ',' :: ' ' :: '}' :: rest))))
      = .done (displayExpr w ++ ' ' :: '{' :: ' ' :: (displayClauses cs ++ '_' :: ' ' :: '=' ::
        '>' :: ' ' :: (displayExpr d ++ ',' :: ' ' :: '}' :: rest))) () := by
    have hsk1 : skipWs ('m' :: 'a' :: 't' :: 'c' :: 'h' :: ' ' :: (displayExpr w ++ ' ' ::
        '{' :: ' ' :: (displayClauses cs ++ '_' :: ' ' :: '=' :: '>' :: ' ' ::
          (displayExpr d ++ ',' :: ' ' :: '}' :: rest))))
        = 'm' :: 'a' :: 't' :: 'c' :: 'h' :: ' ' :: (displayExpr w ++ ' ' :: '{' :: ' ' ::
          (displayClauses cs ++ '_' :: ' ' :: '=' :: '>' :: ' ' ::
            (displayExpr d ++ ',' :: ' ' :: '}' :: rest))) :=
      skipWs_cons_not_ws _ (by decide)
    have h0 : tagP "match ".data ('m' :: 'a' :: 't' :: 'c' :: 'h' :: ' ' ::
        (displayExpr w ++ ' ' :: '{' :: ' ' :: (displayClauses cs ++ '_' :: ' ' :: '=' :: '>' ::
          ' ' :: (displayExpr d ++ ',' :: ' ' :: '}' :: rest))))
        = .done (displayExpr w ++ ' ' :: '{' :: ' ' :: (displayClauses cs ++ '_' :: ' ' :: '=' ::
          '>' :: ' ' :: (displayExpr d ++ ',' :: ' ' :: '}' :: rest))) () := rfl
    simp only [wsTagP, hsk1, h0, skipWs_displayExpr w hw]
  have hstopw : exprStopB (' ' :: '{' :: ' ' :: (displayClauses cs ++ '_' :: ' ' :: '=' :: '>' ::
      ' ' :: (displayExpr d ++ ',' :: ' ' :: '}' :: rest))) = true := by
    rw [exprStopB_cons_of_ws (by decide)]
    exact exprStopB_cons_stop (by decide) _
  have hexw : Parser.expression f (displayExpr w ++ ' ' :: '{' :: ' ' ::
      (displayClauses cs ++ '_' :: ' ' :: '=' :: '>' :: ' ' ::
        (displayExpr d ++ ',' :: ' ' :: '}' :: rest)))
      = .done ('{' :: ' ' :: (displayClauses cs ++ '_' :: ' ' :: '=' :: '>' :: ' ' ::
        (displayExpr d ++ ',' :: ' ' :: '}' :: rest))) w := by
    have := expression_display w hw f (by omega) _ hstopw
    rwa [skipWs_cons_ws _ (by decide), skipWs_cons_not_ws _ (by decide)] at this
  have hbrace : wsTagP ['{'] ('{' :: ' ' :: (displayClauses cs ++ '_' :: ' ' :: '=' :: '>' ::
      ' ' :: (displayExpr d ++ ',' :: ' ' :: '}' :: rest)))
      = .done (displayClauses cs ++ '_' :: ' ' :: '=' :: '>' :: ' ' ::
        (displayExpr d ++ ',' :: ' ' :: '}' :: rest)) () := by
    have hsk1 : skipWs ('{' :: ' ' :: (displayClauses cs ++ '_' :: ' ' :: '=' :: '>' :: ' ' ::
        (displayExpr d ++ ',' :: ' ' :: '}' :: rest)))
        = '{' :: ' ' :: (displayClauses cs ++ '_' :: ' ' :: '=' :: '>' :: ' ' ::
          (displayExpr d ++ ',' :: ' ' :: '}' :: rest)) := skipWs_cons_not_ws _ (by decide)
    have h0 : tagP ['{'] ('{' :: ' ' :: (displayClauses cs ++ '_' :: ' ' :: '=' :: '>' :: ' ' ::
        (displayExpr d ++ ',' :: ' ' :: '}' :: rest)))
        = .done (' ' :: (displayClauses cs ++ '_' :: ' ' :: '=' :: '>' :: ' ' ::
          (displayExpr d ++ ',' :: ' ' :: '}' :: rest))) () := rfl
    simp only [wsTagP, hsk1, h0]
    rw [skipWs_cons_ws _ (by decide), skipWs_clauses_underscore cs hcs]
  obtain ⟨g, rfl⟩ : ∃ g, f = g + 1 := ⟨f - 1, by omega⟩
  have hcl : Parser.clauseList g (displayClauses cs ++ '_' :: ' ' :: '=' :: '>' :: ' ' ::
      (displayExpr d ++ ',' :: ' ' :: '}' :: rest))
      = .done (',' :: ' ' :: '}' :: rest) (clausesOf cs ++ [(Parser.Clause.Default_, d)]) :=
    clauseList_display cs d hcs hd g (by omega) rest
  have hmc : Parser.match_clauses (g + 1) (displayClauses cs ++ '_' :: ' ' :: '=' :: '>' ::
      ' ' :: (displayExpr d ++ ',' :: ' ' :: '}' :: rest))
      = .done (',' :: ' ' :: '}' :: rest) (cs, d) := by
    simp only [Parser.match_clauses, hcl, default_of_clausesOf cs d, matchers_of_clausesOf cs d]
  have hcomma : wsTagP [','] (',' :: ' ' :: '}' :: rest) = .done ('}' :: rest) () := by
    have hsk1 : skipWs (',' :: ' ' :: '}' :: rest) = ',' :: ' ' :: '}' :: rest :=
      skipWs_cons_not_ws _ (by decide)
    have h0 : tagP [','] (',' :: ' ' :: '}' :: rest) = .done (' ' :: '}' :: rest) () := rfl
    simp only [wsTagP, hsk1, h0]
    rw [skipWs_cons_ws _ (by decide), skipWs_cons_not_ws _ (by decide)]
  have hclose : wsTagP ['}'] ('}' :: rest) = .done (skipWs rest) () := by
    have hsk1 : skipWs ('}' :: rest) = '}' :: rest := skipWs_cons_not_ws _ (by decide)
    have h0 : tagP ['}'] ('}' :: rest) = .done rest () := rfl
    simp only [wsTagP, hsk1, h0]
  simp only [Parser.match_, hkw, hexw, hbrace, hmc, hcomma, hclose]
termination_by sizeOf w + sizeOf cs + sizeOf d + 1
decreasing_by
all_goals subst_vars
all_goals try simp_wf
all_goals have hpw := sizeOfE_pos w
all_goals omega

/-- A rendered clause list (with its final default clause) parses back to
the corresponding clause sequence. -/
theorem clauseList_display (cs : List (Matcher × Expression)) (d : Expression)
    (hcs : validClauses cs = true) (hd : validE d = true) (fuel : Nat)
    (hf : 2 + fuelCs cs + fuelE d ≤ fuel) (rest : List Char) :
    Parser.clauseList fuel (displayClauses cs ++ '_' :: ' ' :: '=' :: '>' :: ' ' ::
      (displayExpr d ++ ',' :: ' ' :: '}' :: rest))
    = .done (',' :: ' ' :: '}' :: rest) (clausesOf cs ++ [(Parser.Clause.Default_, d)]) := by
  obtain ⟨h, rfl⟩ : ∃ h, fuel = h + 1 := ⟨fuel - 1, by omega⟩
  cases cs with
  | nil =>
      simp only [displayClauses, List.nil_append]
      have hmc : Parser.match_clause h ('_' :: ' ' :: '=' :: '>' :: ' ' ::
          (displayExpr d ++ ',' :: ' ' :: '}' :: rest))
          = .done (',' :: ' ' :: '}' :: rest) (Parser.Clause.Default_, d) := by
        have := match_clause_default_display d hd h (by simp only [fuelCs] at hf; omega)
          (',' :: ' ' :: '}' :: rest) (exprStopB_cons_stop (by decide) _)
        rwa [skipWs_cons_not_ws _ (by decide)] at this
      have hloop := clauseListLoop_stop h (by simp only [fuelCs] at hf; have := fuelE_facts.1 d; omega)
        [(Parser.Clause.Default_, d)] rest
      simp only [Parser.clauseList, hmc, hloop, clausesOf, List.map_nil, List.nil_append]
  | cons p cs' =>
      rcases hp : p with ⟨m, e⟩
      subst hp
      cases m with
      | Value me =>
          have hvc : (validE me && validE e && validClauses cs') = true := hcs
          simp only [Bool.and_eq_true] at hvc
          obtain ⟨⟨hme, he⟩, hcs'⟩ := hvc
          simp only [fuelCs] at hf
          have hse : " => ".data = [' ', '=', '>', ' '] := rfl
          have hsc : ", ".data = [',', ' '] := rfl
          have hin : displayClauses ((Matcher.Value me, e) :: cs') ++ '_' :: ' ' :: '=' :: '>' ::
              ' ' :: (displayExpr d ++ ',' :: ' ' :: '}' :: rest)
              = displayExpr me ++ ' ' :: '=' :: '>' :: ' ' :: (displayExpr e ++ ',' :: ' ' ::
                (displayClauses cs' ++ '_' :: ' ' :: '=' :: '>' :: ' ' ::
                  (displayExpr d ++ ',' :: ' ' :: '}' :: rest))) := by
            simp [displayClauses, displayMatcher, hse, hsc, List.append_assoc]
          rw [hin]
          have hmc : Parser.match_clause h (displayExpr me ++ ' ' :: '=' :: '>' :: ' ' ::
              (displayExpr e ++ ',' :: ' ' :: (displayClauses cs' ++ '_' :: ' ' :: '=' :: '>' ::
                ' ' :: (displayExpr d ++ ',' :: ' ' :: '}' :: rest))))
              = .done (',' :: ' ' :: (displayClauses cs' ++ '_' :: ' ' :: '=' :: '>' :: ' ' ::
                (displayExpr d ++ ',' :: ' ' :: '}' :: rest)))
                (Parser.Clause.Matcher (Matcher.Value me), e) := by
            have := match_clause_value_display me e hme he h (by omega)
              (',' :: ' ' :: (displayClauses cs' ++ '_' :: ' ' :: '=' :: '>' :: ' ' ::
                (displayExpr d ++ ',' :: ' ' :: '}' :: rest)))
              (exprStopB_cons_stop (by decide) _)
            rwa [skipWs_cons_not_ws _ (by decide)] at this
          have hloop := clauseListLoop_display cs' d hcs' hd
            [(Parser.Clause.Matcher (Matcher.Value me), e)] h (by omega) rest
          simp only [Parser.clauseList, hmc, hloop]
          simp [clausesOf]
termination_by sizeOf cs + sizeOf d + 1
decreasing_by
all_goals subst_vars
all_goals try simp_wf
all_goals omega

/-- The clause-list continuation parses the rendered tail of a clause
list. -/
theorem clauseListLoop_display (cs : List (Matcher × Expression)) (d : Expression)
    (hcs : validClauses cs = true) (hd : validE d = true)
    (acc : List (Parser.Clause × Expression)) (fuel : Nat)
    (hf : 2 + fuelCs cs + fuelE d ≤ fuel) (rest : List Char) :
    Parser.clauseListLoop fuel acc (',' :: ' ' :: (displayClauses cs ++ '_' :: ' ' :: '=' ::
      '>' :: ' ' :: (displayExpr d ++ ',' :: ' ' :: '}' :: rest)))
    = .done (',' :: ' ' :: '}' :: rest)
        (acc ++ (clausesOf cs ++ [(Parser.Clause.Default_, d)])) := by
  obtain ⟨j, rfl⟩ : ∃ j, fuel = j + 1 := ⟨fuel - 1, by omega⟩
  cases cs with
  | nil =>
      simp only [displayClauses, List.nil_append]
      have htag : wsTagP [','] (',' :: ' ' :: '_' :: ' ' :: '=' :: '>' :: ' ' ::
          (displayExpr d ++ ',' :: ' ' :: '}' :: rest))
          = .done ('_' :: ' ' :: '=' :: '>' :: ' ' ::
            (displayExpr d ++ ',' :: ' ' :: '}' :: rest)) () := by
        have hsk1 : skipWs (',' :: ' ' :: '_' :: ' ' :: '=' :: '>' :: ' ' ::
            (displayExpr d ++ ',' :: ' ' :: '}' :: rest))
            = ',' :: ' ' :: '_' :: ' ' :: '=' :: '>' :: ' ' ::
              (displayExpr d ++ ',' :: ' ' :: '}' :: rest) := skipWs_cons_not_ws _ (by decide)
        have h0 : tagP [','] (',' :: ' ' :: '_' :: ' ' :: '=' :: '>' :: ' ' ::
            (displayExpr d ++ ',' :: ' ' :: '}' :: rest))
            = .done (' ' :: '_' :: ' ' :: '=' :: '>' :: ' ' ::
              (displayExpr d ++ ',' :: ' ' :: '}' :: rest)) () := rfl
        simp only [wsTagP, hsk1, h0]
        rw [skipWs_cons_ws _ (by decide), skipWs_cons_not_ws _ (by decide)]
      have hmc : Parser.match_clause j ('_' :: ' ' :: '=' :: '>' :: ' ' ::
          (displayExpr d ++ ',' :: ' ' :: '}' :: rest))
          = .done (',' :: ' ' :: '}' :: rest) (Parser.Clause.Default_, d) := by
        have := match_clause_default_display d hd j (by simp only [fuelCs] at hf; omega)
          (',' :: ' ' :: '}' :: rest) (exprStopB_cons_stop (by decide) _)
        rwa [skipWs_cons_not_ws _ (by decide)] at this
      have hloop := clauseListLoop_stop j
        (by simp only [fuelCs] at hf; have := fuelE_facts.1 d; omega)
        (acc ++ [(Parser.Clause.Default_, d)]) rest
      simp only [Parser.clauseListLoop, htag, hmc, hloop, clausesOf, List.map_nil,
        List.nil_append]
  | cons p cs' =>
      rcases hp : p with ⟨m, e⟩
      subst hp
      cases m with
      | Value me =>
          have hvc : (validE me && validE e && validClauses cs') = true := hcs
          simp only [Bool.and_eq_true] at hvc
          obtain ⟨⟨hme, he⟩, hcs'⟩ := hvc
          simp only [fuelCs] at hf
          have hse : " => ".data = [' ', '=', '>', ' '] := rfl
          have hsc : ", ".data = [',', ' '] := rfl
          have hin : displayClauses ((Matcher.Value me, e) :: cs') ++ '_' :: ' ' :: '=' :: '>' ::
              ' ' :: (displayExpr d ++ ',' :: ' ' :: '}' :: rest)
              = displayExpr me ++ ' ' :: '=' :: '>' :: ' ' :: (displayExpr e ++ ',' :: ' ' ::
                (displayClauses cs' ++ '_' :: ' ' :: '=' :: '>' :: ' ' ::
                  (displayExpr d ++ ',' :: ' ' :: '}' :: rest))) := by
            simp [displayClauses, displayMatcher, hse, hsc, List.append_assoc]
          rw [hin]
          have htag : wsTagP [','] (',' :: ' ' :: (displayExpr me ++ ' ' :: '=' :: '>' :: ' ' ::
              (displayExpr e ++ ',' :: ' ' :: (displayClauses cs' ++ '_' :: ' ' :: '=' :: '>' ::
                ' ' :: (displayExpr d ++ ',' :: ' ' :: '}' :: rest)))))
              = .done (displayExpr me ++ ' ' :: '=' :: '>' :: ' ' :: (displayExpr e ++ ',' ::
                ' ' :: (displayClauses cs' ++ '_' :: ' ' :: '=' :: '>' :: ' ' ::
                  (displayExpr d ++ ',' :: ' ' :: '}' :: rest)))) () := by
            have hsk1 : skipWs (',' :: ' ' :: (displayExpr me ++ ' ' :: '=' :: '>' :: ' ' ::
                (displayExpr e ++ ',' :: ' ' :: (displayClauses cs' ++ '_' :: ' ' :: '=' ::
                  '>' :: ' ' :: (displayExpr d ++ ',' :: ' ' :: '}' :: rest)))))
                = ',' :: ' ' :: (displayExpr me ++ ' ' :: '=' :: '>' :: ' ' ::
                  (displayExpr e ++ ',' :: ' ' :: (displayClauses cs' ++ '_' :: ' ' :: '=' ::
                    '>' :: ' ' :: (displayExpr d ++ ',' :: ' ' :: '}' :: rest)))) :=
              skipWs_cons_not_ws _ (by decide)
            have h0 : tagP [','] (',' :: ' ' :: (displayExpr me ++ ' ' :: '=' :: '>' :: ' ' ::
                (displayExpr e ++ ',' :: ' ' :: (displayClauses cs' ++ '_' :: ' ' :: '=' ::
                  '>' :: ' ' :: (displayExpr d ++ ',' :: ' ' :: '}' :: rest)))))
                = .done (' ' :: (displayExpr me ++ ' ' :: '=' :: '>' :: ' ' ::
                  (displayExpr e ++ ',' :: ' ' :: (displayClauses cs' ++ '_' :: ' ' :: '=' ::
                    '>' :: ' ' :: (displayExpr d ++ ',' :: ' ' :: '}' :: rest))))) () := rfl
            simp only [wsTagP, hsk1, h0]
            rw [skipWs_cons_ws _ (by decide), skipWs_displayExpr me hme]
          have hmc : Parser.match_clause j (displayExpr me ++ ' ' :: '=' :: '>' :: ' ' ::
              (displayExpr e ++ ',' :: ' ' :: (displayClauses cs' ++ '_' :: ' ' :: '=' :: '>' ::
                ' ' :: (displayExpr d ++ ',' :: ' ' :: '}' :: rest))))
              = .done (',' :: ' ' :: (displayClauses cs' ++ '_' :: ' ' :: '=' :: '>' :: ' ' ::
                (displayExpr d ++ ',' :: ' ' :: '}' :: rest)))
                (Parser.Clause.Matcher (Matcher.Value me), e) := by
            have := match_clause_value_display me e hme he j (by omega)
              (',' :: ' ' :: (displayClauses cs' ++ '_' :: ' ' :: '=' :: '>' :: ' ' ::
                (displayExpr d ++ ',' :: ' ' :: '}' :: rest)))
              (exprStopB_cons_stop (by decide) _)
            rwa [skipWs_cons_not_ws _ (by decide)] at this
          have hloop := clauseListLoop_display cs' d hcs' hd
            (acc ++ [(Parser.Clause.Matcher (Matcher.Value me), e)]) j (by omega) rest
          simp only [Parser.clauseListLoop, htag, hmc, hloop]
          simp [clausesOf]
termination_by sizeOf cs + sizeOf d + 1
decreasing_by
all_goals subst_vars
all_goals try simp_wf
all_goals omega

/-- A rendered matcher clause parses as that clause. -/
theorem match_clause_value_display (me e : Expression) (hme : validE me = true)
    (he : validE e = true) (fuel : Nat) (hf : 2 + fuelE me + fuelE e ≤ fuel)
    (rest : List Char) (hstop : exprStopB rest = true) :
    Parser.match_clause fuel (displayExpr me ++ ' ' :: '=' :: '>' :: ' ' ::
      (displayExpr e ++ rest))
    = .done (skipWs rest) (Parser.Clause.Matcher (Matcher.Value me), e) := by
  obtain ⟨k, rfl⟩ : ∃ k, fuel = k + 1 := ⟨fuel - 1, by omega⟩
  have hstop1 : exprStopB (' ' :: '=' :: '>' :: ' ' :: (displayExpr e ++ rest)) = true := by
    rw [exprStopB_cons_of_ws (by decide)]
    exact exprStopB_cons_stop (by decide) _
  have hex1 : Parser.expression k (displayExpr me ++ ' ' :: '=' :: '>' :: ' ' ::
      (displayExpr e ++ rest)) = .done ('=' :: '>' :: ' ' :: (displayExpr e ++ rest)) me := by
    have := expression_display me hme k (by omega) _ hstop1
    rwa [skipWs_cons_ws _ (by decide), skipWs_cons_not_ws _ (by decide)] at this
  have htag : wsTagP ['=', '>'] ('=' :: '>' :: ' ' :: (displayExpr e ++ rest))
      = .done (displayExpr e ++ rest) () := by
    have hsk1 : skipWs ('=' :: '>' :: ' ' :: (displayExpr e ++ rest))
        = '=' :: '>' :: ' ' :: (displayExpr e ++ rest) := skipWs_cons_not_ws _ (by decide)
    have h0 : tagP ['=', '>'] ('=' :: '>' :: ' ' :: (displayExpr e ++ rest))
        = .done (' ' :: (displayExpr e ++ rest)) () := rfl
    simp only [wsTagP, hsk1, h0]
    rw [skipWs_cons_ws _ (by decide), skipWs_displayExpr e he]
  have hex2 : Parser.expression k (displayExpr e ++ rest) = .done (skipWs rest) e :=
    expression_display e he k (by omega) rest hstop
  simp only [Parser.match_clause, hex1, htag, hex2]
termination_by sizeOf me + sizeOf e + 1
decreasing_by
all_goals subst_vars
all_goals try simp_wf
all_goals omega

/-- A rendered default clause parses as the default clause. -/
theorem match_clause_default_display (d : Expression) (hd : validE d = true) (fuel : Nat)
    (hf : 2 + fuelE d ≤ fuel) (rest : List Char) (hstop : exprStopB rest = true) :
    Parser.match_clause fuel ('_' :: ' ' :: '=' :: '>' :: ' ' :: (displayExpr d ++ rest))
    = .done (skipWs rest) (Parser.Clause.Default_, d) := by
  obtain ⟨k, rfl⟩ : ∃ k, fuel = k + 1 := ⟨fuel - 1, by omega⟩
  have herr : Parser.expression k ('_' :: ' ' :: '=' :: '>' :: ' ' ::
      (displayExpr d ++ rest)) = .error := expression_error_underscore k _
  have htagu : wsTagP ['_'] ('_' :: ' ' :: '=' :: '>' :: ' ' :: (displayExpr d ++ rest))
      = .done ('=' :: '>' :: ' ' :: (displayExpr d ++ rest)) () := by
    have hsk1 : skipWs ('_' :: ' ' :: '=' :: '>' :: ' ' :: (displayExpr d ++ rest))
        = '_' :: ' ' :: '=' :: '>' :: ' ' :: (displayExpr d ++ rest) :=
      skipWs_cons_not_ws _ (by decide)
    have h0 : tagP ['_'] ('_' :: ' ' :: '=' :: '>' :: ' ' :: (displayExpr d ++ rest))
        = .done (' ' :: '=' :: '>' :: ' ' :: (displayExpr d ++ rest)) () := rfl
    simp only [wsTagP, hsk1, h0]
    rw [skipWs_cons_ws _ (by decide), skipWs_cons_not_ws _ (by decide)]
  have htag : wsTagP ['=', '>'] ('=' :: '>' :: ' ' :: (displayExpr d ++ rest))
      = .done (displayExpr d ++ rest) () := by
    have hsk1 : skipWs ('=' :: '>' :: ' ' :: (displayExpr d ++ rest))
        = '=' :: '>' :: ' ' :: (displayExpr d ++ rest) := skipWs_cons_not_ws _ (by decide)
    have h0 : tagP ['=', '>'] ('=' :: '>' :: ' ' :: (displayExpr d ++ rest))
        = .done (' ' :: (displayExpr d ++ rest)) () := rfl
    simp only [wsTagP, hsk1, h0]
    rw [skipWs_cons_ws _ (by decide), skipWs_displayExpr d hd]
  have hex : Parser.expression k (displayExpr d ++ rest) = .done (skipWs rest) d :=
    expression_display d hd k (by omega) rest hstop
  simp only [Parser.match_clause, herr, htagu, htag, hex]
termination_by sizeOf d + 1
decreasing_by
all_goals subst_vars
all_goals try simp_wf
all_goals omega

end

/-! ## C2: the round trip of rendered statements and programs -/

/-- The tail rendering of a name list after its first element. -/
def catNamesTail : List Name → List Char
  | [] => []
  | n :: rest => ',' :: ' ' :: n.val.data ++ catNamesTail rest

theorem displayNames_eq_tail : (ns : List Name) → ∀ n : Name,
    displayNames (n :: ns) = n.val.data ++ catNamesTail ns
  | [], n => by simp [displayNames, catNamesTail]
  | m :: rest, n => by
      simp only [displayNames, displayNames_eq_tail rest m, catNamesTail, List.cons_append]

/-- Fuel sufficient to parse the rendering of a statement. -/
def fuelSt : Statement → Nat
  | .VarAssignment _ e => 2 + fuelE e
  | .FnDefinition _ ps e => 3 + ps.length + fuelE e

/-- Fuel sufficient to parse the rendering of a statement list. -/
def fuelSts : List Statement → Nat
  | [] => 1
  | st :: rest => 1 + fuelSt st + fuelSts rest

/-- The statement-list text as the statement loop consumes it: every
statement followed by a newline. -/
def catStmts : List Statement → List Char
  | [] => []
  | st :: rest => displayStatement st ++ '\n' :: catStmts rest

/-- Fuel sufficient to parse the rendering of a program. -/
def fuelProg (p : Program) : Nat :=
  4 + p.inputs.length + fuelSts p.statements.stmts + p.outputs.length

theorem nameListLoop_display : (ns : List Name) → validNames ns = true →
    ∀ (acc : List Name) (fuel : Nat), ns.length + 1 ≤ fuel →
    ∀ {c : Char}, isNameTailChar c = false → isWsChar c = false → ¬(',' = c) →
    ∀ (X : List Char),
    Parser.nameListLoop fuel acc (catNamesTail ns ++ c :: X) = .done (c :: X) (acc ++ ns)
  | [], _, acc, fuel, hf, c, hnt, hws, hcm, X => by
      obtain ⟨j, rfl⟩ : ∃ j, fuel = j + 1 := ⟨fuel - 1, by omega⟩
      have hsk : skipWs (c :: X) = c :: X := skipWs_cons_not_ws X hws
      simp only [catNamesTail, List.nil_append]
      simp [Parser.nameListLoop, wsTagP, hsk, tagP, hcm]
  | n :: ns, hv, acc, fuel, hf, c, hnt, hws, hcm, X => by
      obtain ⟨j, rfl⟩ : ∃ j, fuel = j + 1 := ⟨fuel - 1, by omega⟩
      simp only [validNames, Bool.and_eq_true] at hv
      obtain ⟨hn, hns⟩ := hv
      obtain ⟨c0, cs0, hdta, hlc, _, _⟩ := validNameB_parts hn
      simp only [catNamesTail, List.cons_append, List.append_assoc]
      have htag : wsTagP [','] (',' :: ' ' :: (n.val.data ++ (catNamesTail ns ++ c :: X)))
          = .done (n.val.data ++ (catNamesTail ns ++ c :: X)) () := by
        have hsk1 : skipWs (',' :: ' ' :: (n.val.data ++ (catNamesTail ns ++ c :: X)))
            = ',' :: ' ' :: (n.val.data ++ (catNamesTail ns ++ c :: X)) :=
          skipWs_cons_not_ws _ (by decide)
        have h0 : tagP [','] (',' :: ' ' :: (n.val.data ++ (catNamesTail ns ++ c :: X)))
            = .done (' ' :: (n.val.data ++ (catNamesTail ns ++ c :: X))) () := rfl
        have hsk2 : skipWs (n.val.data ++ (catNamesTail ns ++ c :: X))
            = n.val.data ++ (catNamesTail ns ++ c :: X) := by
          rw [hdta, List.cons_append]
          apply skipWs_cons_not_ws
          simp only [isLowerChar, Bool.and_eq_true, decide_eq_true_eq] at hlc
          simp [isWsChar]
          omega
        simp only [wsTagP, hsk1, h0]
        rw [skipWs_cons_ws _ (by decide), hsk2]
      have hsk2 : skipWs (n.val.data ++ (catNamesTail ns ++ c :: X))
          = n.val.data ++ (catNamesTail ns ++ c :: X) := by
        rw [hdta, List.cons_append]
        apply skipWs_cons_not_ws
        simp only [isLowerChar, Bool.and_eq_true, decide_eq_true_eq] at hlc
        simp [isWsChar]
        omega
      have hname : Parser.name (n.val.data ++ (catNamesTail ns ++ c :: X))
          = .done (catNamesTail ns ++ c :: X) n := by
        apply name_parses n _ hn
        intro b hb
        cases hns2 : ns with
        | nil =>
            rw [hns2] at hb
            simp only [catNamesTail, List.nil_append, List.head?] at hb
            injection hb with hb
            rw [← hb]
            exact hnt
        | cons m ms =>
            rw [hns2] at hb
            simp only [catNamesTail, List.cons_append, List.head?] at hb
            injection hb with hb
            rw [← hb]
            decide
      have hrec := nameListLoop_display ns hns (acc ++ [n]) j (by simp at hf ⊢; omega)
        hnt hws hcm X
      simp only [Parser.nameListLoop, htag, hsk2, hname, hrec, List.append_assoc,
        List.singleton_append]

theorem nameList_display (ns : List Name) (hv : validNames ns = true) (fuel : Nat)
    (hf : ns.length + 1 ≤ fuel) {c : Char} (hnt : isNameTailChar c = false)
    (hws : isWsChar c = false) (hcm : ¬(',' = c)) (X : List Char) :
    Parser.nameList fuel (displayNames ns ++ c :: X) = .done (c :: X) ns := by
  cases ns with
  | nil =>
      have hname : Parser.name (skipWs (c :: X)) = .error := by
        simp only [skipWs_cons_not_ws X hws]
        cases hl : isLowerChar c with
        | false => simp [Parser.name, hl]
        | true =>
            exfalso
            simp only [isLowerChar, Bool.and_eq_true, decide_eq_true_eq] at hl
            simp only [isNameTailChar, isLowerChar, Bool.or_eq_false_iff,
              Bool.and_eq_false_iff, decide_eq_false_iff_not] at hnt
            omega
      simp only [displayNames, Parser.nameList, hname, List.nil_append]
  | cons n ns' =>
      simp only [validNames, Bool.and_eq_true] at hv
      obtain ⟨hn, hns⟩ := hv
      obtain ⟨c0, cs0, hdta, hlc, _, _⟩ := validNameB_parts hn
      rw [displayNames_eq_tail ns' n, List.append_assoc]
      have hsk : skipWs (n.val.data ++ (catNamesTail ns' ++ c :: X))
          = n.val.data ++ (catNamesTail ns' ++ c :: X) := by
        rw [hdta, List.cons_append]
        apply skipWs_cons_not_ws
        simp only [isLowerChar, Bool.and_eq_true, decide_eq_true_eq] at hlc
        simp [isWsChar]
        omega
      have hname : Parser.name (n.val.data ++ (catNamesTail ns' ++ c :: X))
          = .done (catNamesTail ns' ++ c :: X) n := by
        apply name_parses n _ hn
        intro b hb
        cases hns2 : ns' with
        | nil =>
            rw [hns2] at hb
            simp only [catNamesTail, List.nil_append, List.head?] at hb
            injection hb with hb
            rw [← hb]
            exact hnt
        | cons m ms =>
            rw [hns2] at hb
            simp only [catNamesTail, List.cons_append, List.head?] at hb
            injection hb with hb
            rw [← hb]
            decide
      have hloop := nameListLoop_display ns' hns [n] fuel (by simp at hf ⊢; omega)
        hnt hws hcm X
      simp only [Parser.nameList, hsk, hname, hloop, List.singleton_append]

/-- The optional name-list segment of `program` parses back, including the
leading space and the whitespace skip that precedes it. -/
theorem namesSeg_parse (ns : List Name) (hv : validNames ns = true) (fuel : Nat)
    (hf : ns.length + 1 ≤ fuel) (X : List Char) :
    Parser.nameList fuel
      (skipWs ((if ns.isEmpty then [] else ' ' :: displayNames ns) ++ ';' :: X))
    = .done (';' :: X) ns := by
  cases ns with
  | nil =>
      have hsk0 : skipWs (';' :: X) = ';' :: X := skipWs_cons_not_ws X (by decide)
      simp only [List.isEmpty_nil, if_true, List.nil_append, hsk0]
      have h0 : Parser.nameList fuel (displayNames [] ++ ';' :: X) = .done (';' :: X) [] :=
        nameList_display [] rfl fuel hf (by decide) (by decide) (by decide) X
      simpa [displayNames] using h0
  | cons n ns' =>
      simp only [List.isEmpty_cons, Bool.false_eq_true, if_false, List.cons_append]
      rw [skipWs_cons_ws _ (by decide)]
      have hv' := hv
      simp only [validNames, Bool.and_eq_true] at hv'
      obtain ⟨c0, cs0, hdta, hlc, _, _⟩ := validNameB_parts hv'.1
      have hsk : skipWs (displayNames (n :: ns') ++ ';' :: X)
          = displayNames (n :: ns') ++ ';' :: X := by
        rw [displayNames_eq_tail ns' n, List.append_assoc, hdta, List.cons_append]
        apply skipWs_cons_not_ws
        simp only [isLowerChar, Bool.and_eq_true, decide_eq_true_eq] at hlc
        simp [isWsChar]
        omega
      rw [hsk]
      have h1 : Parser.nameList fuel (displayNames (n :: ns') ++ ';' :: X)
          = .done (';' :: X) (n :: ns') :=
        nameList_display (n :: ns') hv fuel hf (by decide) (by decide) (by decide) X
      exact h1

/-- A statement parse fails at the reserved word `outputs` (the `name`
sub-parser of both `assign` and `fndef` rejects it). -/
theorem statement_error_outputs (fuel : Nat) {c : Char} (hc : isNameTailChar c = false)
    (Y : List Char) :
    Parser.statement fuel ('o' :: 'u' :: 't' :: 'p' :: 'u' :: 't' :: 's' :: c :: Y)
    = .error := by
  cases fuel with
  | zero => rfl
  | succ f =>
      have hsk : skipWs ('o' :: 'u' :: 't' :: 'p' :: 'u' :: 't' :: 's' :: c :: Y)
          = 'o' :: 'u' :: 't' :: 'p' :: 'u' :: 't' :: 's' :: c :: Y :=
        skipWs_cons_not_ws _ (by decide)
      have hn := name_outputs_error hc Y
      simp [Parser.statement, Parser.assign, Parser.fndef, hsk, hn]

/-- The head byte of a rendered statement is the head of a valid name,
hence not whitespace. -/
theorem skipWs_displayStatement (st : Statement) (hv : validStatement st = true)
    (X : List Char) : skipWs (displayStatement st ++ X) = displayStatement st ++ X := by
  cases st with
  | VarAssignment n e =>
      simp only [validStatement, Bool.and_eq_true] at hv
      obtain ⟨c0, cs0, hdta, hlc, _, _⟩ := validNameB_parts hv.1
      simp only [displayStatement, List.append_assoc, hdta, List.cons_append]
      apply skipWs_cons_not_ws
      simp only [isLowerChar, Bool.and_eq_true, decide_eq_true_eq] at hlc
      simp [isWsChar]
      omega
  | FnDefinition n ps e =>
      simp only [validStatement, Bool.and_eq_true] at hv
      obtain ⟨c0, cs0, hdta, hlc, _, _⟩ := validNameB_parts hv.1.1
      simp only [displayStatement, List.append_assoc, hdta, List.cons_append]
      apply skipWs_cons_not_ws
      simp only [isLowerChar, Bool.and_eq_true, decide_eq_true_eq] at hlc
      simp [isWsChar]
      omega

/-- A rendered valid statement parses back to itself (`assign` first, then
`fndef`). -/
theorem statement_display (st : Statement) (hv : validStatement st = true) (fuel : Nat)
    (hf : fuelSt st ≤ fuel) (rest : List Char) :
    Parser.statement fuel (displayStatement st ++ rest) = .done (skipWs rest) st := by
  cases st with
  | VarAssignment n e =>
      simp only [validStatement, Bool.and_eq_true] at hv
      obtain ⟨hN, hE⟩ := hv
      simp only [fuelSt] at hf
      obtain ⟨f, rfl⟩ : ∃ f, fuel = f + 1 := ⟨fuel - 1, by omega⟩
      obtain ⟨c0, cs0, hdta, hlc, _, _⟩ := validNameB_parts hN
      have heq : " = ".data = [' ', '=', ' '] := rfl
      have hin : displayStatement (Statement.VarAssignment n e) ++ rest
          = n.val.data ++ (' ' :: '=' :: ' ' :: (displayExpr e ++ ';' :: rest)) := by
        simp [displayStatement, heq, List.append_assoc]
      rw [hin]
      have hsk : skipWs (n.val.data ++ (' ' :: '=' :: ' ' :: (displayExpr e ++ ';' :: rest)))
          = n.val.data ++ (' ' :: '=' :: ' ' :: (displayExpr e ++ ';' :: rest)) := by
        rw [hdta, List.cons_append]
        apply skipWs_cons_not_ws
        simp only [isLowerChar, Bool.and_eq_true, decide_eq_true_eq] at hlc
        simp [isWsChar]
        omega
      have hname : Parser.name (n.val.data ++ (' ' :: '=' :: ' ' ::
          (displayExpr e ++ ';' :: rest)))
          = .done (' ' :: '=' :: ' ' :: (displayExpr e ++ ';' :: rest)) n := by
        apply name_parses n _ hN
        intro b hb
        simp only [List.head?] at hb
        injection hb with hb
        rw [← hb]
        decide
      have htag : wsTagP ['='] (' ' :: '=' :: ' ' :: (displayExpr e ++ ';' :: rest))
          = .done (displayExpr e ++ ';' :: rest) () := by
        have h0 : tagP ['='] ('=' :: ' ' :: (displayExpr e ++ ';' :: rest))
            = .done (' ' :: (displayExpr e ++ ';' :: rest)) () := rfl
        have hs1 : skipWs (' ' :: '=' :: ' ' :: (displayExpr e ++ ';' :: rest))
            = '=' :: ' ' :: (displayExpr e ++ ';' :: rest) := by
          rw [skipWs_cons_ws _ (by decide)]
          exact skipWs_cons_not_ws _ (by decide)
        simp only [wsTagP, hs1, h0]
        rw [skipWs_cons_ws _ (by decide), skipWs_displayExpr e hE]
      have hex : Parser.expression f (displayExpr e ++ ';' :: rest)
          = .done (';' :: rest) e := by
        have := expression_display e hE f (by omega) (';' :: rest)
          (exprStopB_cons_stop (by decide) rest)
        rwa [skipWs_cons_not_ws rest (by decide)] at this
      have hsemi : wsTagP [';'] (';' :: rest) = .done (skipWs rest) () := by
        have hs1 : skipWs (';' :: rest) = ';' :: rest := skipWs_cons_not_ws _ (by decide)
        have h0 : tagP [';'] (';' :: rest) = .done rest () := rfl
        simp only [wsTagP, hs1, h0]
      have hassign : Parser.assign (f + 1) (n.val.data ++ (' ' :: '=' :: ' ' ::
          (displayExpr e ++ ';' :: rest)))
          = .done (skipWs rest) (Statement.VarAssignment n e) := by
        simp only [Parser.assign, hsk, hname, htag, hex, hsemi]
      simp only [Parser.statement, hassign]
  | FnDefinition n ps e =>
      simp only [validStatement, Bool.and_eq_true] at hv
      obtain ⟨⟨hN, hPs⟩, hE⟩ := hv
      simp only [fuelSt] at hf
      obtain ⟨f, rfl⟩ : ∃ f, fuel = f + 1 := ⟨fuel - 1, by omega⟩
      obtain ⟨c0, cs0, hdta, hlc, _, _⟩ := validNameB_parts hN
      have heq : ") = ".data = [')', ' ', '=', ' '] := rfl
      have hin : displayStatement (Statement.FnDefinition n ps e) ++ rest
          = n.val.data ++ ('(' :: (displayNames ps ++ ')' :: ' ' :: '=' :: ' ' ::
            (displayExpr e ++ ';' :: rest))) := by
        simp [displayStatement, heq, List.append_assoc]
      rw [hin]
      have hsk : skipWs (n.val.data ++ ('(' :: (displayNames ps ++ ')' :: ' ' :: '=' :: ' ' ::
          (displayExpr e ++ ';' :: rest))))
          = n.val.data ++ ('(' :: (displayNames ps ++ ')' :: ' ' :: '=' :: ' ' ::
            (displayExpr e ++ ';' :: rest))) := by
        rw [hdta, List.cons_append]
        apply skipWs_cons_not_ws
        simp only [isLowerChar, Bool.and_eq_true, decide_eq_true_eq] at hlc
        simp [isWsChar]
        omega
      have hname : Parser.name (n.val.data ++ ('(' :: (displayNames ps ++ ')' :: ' ' :: '=' ::
          ' ' :: (displayExpr e ++ ';' :: rest))))
          = .done ('(' :: (displayNames ps ++ ')' :: ' ' :: '=' :: ' ' ::
            (displayExpr e ++ ';' :: rest))) n := by
        apply name_parses n _ hN
        intro b hb
        simp only [List.head?] at hb
        injection hb with hb
        rw [← hb]
        decide
      have hassign : Parser.assign (f + 1) (n.val.data ++ ('(' :: (displayNames ps ++ ')' ::
          ' ' :: '=' :: ' ' :: (displayExpr e ++ ';' :: rest)))) = .error := by
        have htag : wsTagP ['='] ('(' :: (displayNames ps ++ ')' :: ' ' :: '=' :: ' ' ::
            (displayExpr e ++ ';' :: rest))) = .error := by
          have hs1 : skipWs ('(' :: (displayNames ps ++ ')' :: ' ' :: '=' :: ' ' ::
              (displayExpr e ++ ';' :: rest)))
              = '(' :: (displayNames ps ++ ')' :: ' ' :: '=' :: ' ' ::
                (displayExpr e ++ ';' :: rest)) := skipWs_cons_not_ws _ (by decide)
          simp [wsTagP, hs1, tagP]
        simp only [Parser.assign, hsk, hname, htag]
      have hparen : wsTagP ['('] ('(' :: (displayNames ps ++ ')' :: ' ' :: '=' :: ' ' ::
          (displayExpr e ++ ';' :: rest)))
          = .done (skipWs (displayNames ps ++ ')' :: ' ' :: '=' :: ' ' ::
            (displayExpr e ++ ';' :: rest))) () := by
        have hs1 : skipWs ('(' :: (displayNames ps ++ ')' :: ' ' :: '=' :: ' ' ::
            (displayExpr e ++ ';' :: rest)))
            = '(' :: (displayNames ps ++ ')' :: ' ' :: '=' :: ' ' ::
              (displayExpr e ++ ';' :: rest)) := skipWs_cons_not_ws _ (by decide)
        have h0 : tagP ['('] ('(' :: (displayNames ps ++ ')' :: ' ' :: '=' :: ' ' ::
            (displayExpr e ++ ';' :: rest)))
            = .done (displayNames ps ++ ')' :: ' ' :: '=' :: ' ' ::
              (displayExpr e ++ ';' :: rest)) () := rfl
        simp only [wsTagP, hs1, h0]
      have hsknames : skipWs (displayNames ps ++ ')' :: ' ' :: '=' :: ' ' ::
          (displayExpr e ++ ';' :: rest))
          = displayNames ps ++ ')' :: ' ' :: '=' :: ' ' :: (displayExpr e ++ ';' :: rest) := by
        cases ps with
        | nil =>
            simp only [displayNames, List.nil_append]
            exact skipWs_cons_not_ws _ (by decide)
        | cons m ms =>
            have hPs' := hPs
            simp only [validNames, Bool.and_eq_true] at hPs'
            obtain ⟨d0, ds0, hdta2, hlc2, _, _⟩ := validNameB_parts hPs'.1
            rw [displayNames_eq_tail ms m, List.append_assoc, hdta2, List.cons_append]
            apply skipWs_cons_not_ws
            simp only [isLowerChar, Bool.and_eq_true, decide_eq_true_eq] at hlc2
            simp [isWsChar]
            omega
      have hnl : Parser.nameList f (displayNames ps ++ ')' :: ' ' :: '=' :: ' ' ::
          (displayExpr e ++ ';' :: rest))
          = .done (')' :: ' ' :: '=' :: ' ' :: (displayExpr e ++ ';' :: rest)) ps := by
        have h1 : Parser.nameList f (displayNames ps ++ ')' :: (' ' :: '=' :: ' ' ::
            (displayExpr e ++ ';' :: rest)))
            = .done (')' :: (' ' :: '=' :: ' ' :: (displayExpr e ++ ';' :: rest))) ps :=
          nameList_display ps hPs f (by have := fuelE_facts.1 e; omega) (by decide)
            (by decide) (by decide) _
        exact h1
      have hclose : wsTagP [')'] (')' :: ' ' :: '=' :: ' ' :: (displayExpr e ++ ';' :: rest))
          = .done ('=' :: ' ' :: (displayExpr e ++ ';' :: rest)) () := by
        have hs1 : skipWs (')' :: ' ' :: '=' :: ' ' :: (displayExpr e ++ ';' :: rest))
            = ')' :: ' ' :: '=' :: ' ' :: (displayExpr e ++ ';' :: rest) :=
          skipWs_cons_not_ws _ (by decide)
        have h0 : tagP [')'] (')' :: ' ' :: '=' :: ' ' :: (displayExpr e ++ ';' :: rest))
            = .done (' ' :: '=' :: ' ' :: (displayExpr e ++ ';' :: rest)) () := rfl
        simp only [wsTagP, hs1, h0]
        rw [skipWs_cons_ws _ (by decide), skipWs_cons_not_ws _ (by decide)]
      have heqt : wsTagP ['='] ('=' :: ' ' :: (displayExpr e ++ ';' :: rest))
          = .done (displayExpr e ++ ';' :: rest) () := by
        have hs1 : skipWs ('=' :: ' ' :: (displayExpr e ++ ';' :: rest))
            = '=' :: ' ' :: (displayExpr e ++ ';' :: rest) := skipWs_cons_not_ws _ (by decide)
        have h0 : tagP ['='] ('=' :: ' ' :: (displayExpr e ++ ';' :: rest))
            = .done (' ' :: (displayExpr e ++ ';' :: rest)) () := rfl
        simp only [wsTagP, hs1, h0]
        rw [skipWs_cons_ws _ (by decide), skipWs_displayExpr e hE]
      have hex : Parser.expression f (displayExpr e ++ ';' :: rest)
          = .done (';' :: rest) e := by
        have := expression_display e hE f (by omega) (';' :: rest)
          (exprStopB_cons_stop (by decide) rest)
        rwa [skipWs_cons_not_ws rest (by decide)] at this
      have hsemi : wsTagP [';'] (';' :: rest) = .done (skipWs rest) () := by
        have hs1 : skipWs (';' :: rest) = ';' :: rest := skipWs_cons_not_ws _ (by decide)
        have h0 : tagP [';'] (';' :: rest) = .done rest () := rfl
        simp only [wsTagP, hs1, h0]
      have hfndef : Parser.fndef (f + 1) (n.val.data ++ ('(' :: (displayNames ps ++ ')' ::
          ' ' :: '=' :: ' ' :: (displayExpr e ++ ';' :: rest))))
          = .done (skipWs rest) (Statement.FnDefinition n ps e) := by
        simp only [Parser.fndef, hsk, hname, hparen, hsknames, hnl, hclose, heqt, hex, hsemi]
      simp only [Parser.statement, hassign, hfndef]

/-- The head byte after the statement block is the statement head or the
continuation head, never whitespace. -/
theorem skipWs_catStmts (sts : List Statement) (hv : validStatements sts = true)
    {c : Char} (hc : isWsChar c = false) (Y : List Char) :
    skipWs (catStmts sts ++ c :: Y) = catStmts sts ++ c :: Y := by
  cases sts with
  | nil => exact skipWs_cons_not_ws Y hc
  | cons st sts' =>
      simp only [validStatements, Bool.and_eq_true] at hv
      simp only [catStmts, List.append_assoc, List.cons_append]
      exact skipWs_displayStatement st hv.1 _

/-- The statement loop consumes exactly the rendered statement list and
stops where statements stop parsing. -/
theorem statements_display : (sts : List Statement) → validStatements sts = true →
    ∀ (acc : List Statement) (fuel : Nat), fuelSts sts ≤ fuel → ∀ (Z : List Char),
    (∀ fu, Parser.statement fu Z = .error) → skipWs Z = Z →
    Parser.statements fuel acc (catStmts sts ++ Z) = .done Z (acc ++ sts)
  | [], _, acc, fuel, hf, Z, hZ, hskZ => by
      obtain ⟨f, rfl⟩ : ∃ f, fuel = f + 1 := ⟨fuel - 1, by simp [fuelSts] at hf; omega⟩
      simp only [catStmts, List.nil_append]
      simp [Parser.statements, hZ f]
  | st :: sts', hv, acc, fuel, hf, Z, hZ, hskZ => by
      obtain ⟨f, rfl⟩ : ∃ f, fuel = f + 1 := ⟨fuel - 1, by simp [fuelSts] at hf; omega⟩
      simp only [validStatements, Bool.and_eq_true] at hv
      obtain ⟨hst, hsts'⟩ := hv
      simp only [fuelSts] at hf
      simp only [catStmts, List.append_assoc, List.cons_append]
      have hstp : Parser.statement f (displayStatement st ++ '\n' :: (catStmts sts' ++ Z))
          = .done (catStmts sts' ++ Z) st := by
        have := statement_display st hst f (by omega) ('\n' :: (catStmts sts' ++ Z))
        rw [skipWs_cons_ws _ (by decide)] at this
        rwa [show skipWs (catStmts sts' ++ Z) = catStmts sts' ++ Z from ?_] at this
        cases sts' with
        | nil => simpa [catStmts] using hskZ
        | cons st2 sts2 =>
            simp only [validStatements, Bool.and_eq_true] at hsts'
            simp only [catStmts, List.append_assoc, List.cons_append]
            exact skipWs_displayStatement st2 hsts'.1 _
      have hrec := statements_display sts' hsts' (acc ++ [st]) f (by omega) Z hZ hskZ
      simp only [Parser.statements, hstp, hrec, List.append_assoc, List.singleton_append]

/-- The optional statement segment of a displayed program equals the
statement-loop text. -/
theorem displayStatements_cat : (sts : List Statement) →
    ∀ X : List Char,
    (if sts.isEmpty then [] else displayStatements sts ++ ['\n']) ++ X = catStmts sts ++ X
  | [], X => by simp [catStmts]
  | [st], X => by simp [displayStatements, catStmts, List.append_assoc]
  | st :: st2 :: sts, X => by
      have ih := displayStatements_cat (st2 :: sts) X
      simp only [List.isEmpty_cons, Bool.false_eq_true, if_false] at ih ⊢
      simp only [displayStatements, catStmts, List.append_assoc, List.cons_append] at ih ⊢
      rw [← ih]

/-- A rendered valid program parses back to itself, consuming the whole
input. -/
theorem program_display (p : Program) (hv : validProgram p = true) (fuel : Nat)
    (hf : fuelProg p ≤ fuel) :
    Parser.program fuel (displayProgram p) = .done [] p := by
  obtain ⟨ins, stmts, outs⟩ := p
  obtain ⟨sts⟩ := stmts
  have hvv : (validNames ins && validStatements sts && validNames outs) = true := hv
  simp only [Bool.and_eq_true] at hvv
  obtain ⟨⟨hvi, hvs⟩, hvo⟩ := hvv
  have hff : 4 + ins.length + fuelSts sts + outs.length ≤ fuel := hf
  obtain ⟨f, rfl⟩ : ∃ f, fuel = f + 1 := ⟨fuel - 1, by omega⟩
  have hs1 : "inputs".data = ['i', 'n', 'p', 'u', 't', 's'] := rfl
  have hs2 : ";\n".data = [';', '\n'] := rfl
  have hs3 : "outputs".data = ['o', 'u', 't', 'p', 'u', 't', 's'] := rfl
  have hin : displayProgram ⟨ins, ⟨sts⟩, outs⟩
      = 'i' :: 'n' :: 'p' :: 'u' :: 't' :: 's' ::
        ((if ins.isEmpty then [] else ' ' :: displayNames ins) ++ ';' :: '\n' ::
          (catStmts sts ++ 'o' :: 'u' :: 't' :: 'p' :: 'u' :: 't' :: 's' ::
            ((if outs.isEmpty then [] else ' ' :: displayNames outs) ++ [';']))) := by
    rw [displayProgram]
    rw [show (Program.mk ins ⟨sts⟩ outs).statements.stmts = sts from rfl,
      show (Program.mk ins ⟨sts⟩ outs).inputs = ins from rfl,
      show (Program.mk ins ⟨sts⟩ outs).outputs = outs from rfl]
    simp only [hs1, hs2, hs3, List.cons_append, List.append_assoc, List.nil_append]
    rw [displayStatements_cat sts]
  rw [hin]
  have hkw : wsTagP "inputs".data ('i' :: 'n' :: 'p' :: 'u' :: 't' :: 's' ::
      ((if ins.isEmpty then [] else ' ' :: displayNames ins) ++ ';' :: '\n' ::
        (catStmts sts ++ 'o' :: 'u' :: 't' :: 'p' :: 'u' :: 't' :: 's' ::
          ((if outs.isEmpty then [] else ' ' :: displayNames outs) ++ [';']))))
      = .done (skipWs ((if ins.isEmpty then [] else ' ' :: displayNames ins) ++ ';' :: '\n' ::
        (catStmts sts ++ 'o' :: 'u' :: 't' :: 'p' :: 'u' :: 't' :: 's' ::
          ((if outs.isEmpty then [] else ' ' :: displayNames outs) ++ [';'])))) () := by
    have hsk1 : skipWs ('i' :: 'n' :: 'p' :: 'u' :: 't' :: 's' ::
        ((if ins.isEmpty then [] else ' ' :: displayNames ins) ++ ';' :: '\n' ::
          (catStmts sts ++ 'o' :: 'u' :: 't' :: 'p' :: 'u' :: 't' :: 's' ::
            ((if outs.isEmpty then [] else ' ' :: displayNames outs) ++ [';']))))
        = 'i' :: 'n' :: 'p' :: 'u' :: 't' :: 's' ::
          ((if ins.isEmpty then [] else ' ' :: displayNames ins) ++ ';' :: '\n' ::
            (catStmts sts ++ 'o' :: 'u' :: 't' :: 'p' :: 'u' :: 't' :: 's' ::
              ((if outs.isEmpty then [] else ' ' :: displayNames outs) ++ [';']))) :=
      skipWs_cons_not_ws _ (by decide)
    have h0 : tagP "inputs".data ('i' :: 'n' :: 'p' :: 'u' :: 't' :: 's' ::
        ((if ins.isEmpty then [] else ' ' :: displayNames ins) ++ ';' :: '\n' ::
          (catStmts sts ++ 'o' :: 'u' :: 't' :: 'p' :: 'u' :: 't' :: 's' ::
            ((if outs.isEmpty then [] else ' ' :: displayNames outs) ++ [';']))))
        = .done ((if ins.isEmpty then [] else ' ' :: displayNames ins) ++ ';' :: '\n' ::
          (catStmts sts ++ 'o' :: 'u' :: 't' :: 'p' :: 'u' :: 't' :: 's' ::
            ((if outs.isEmpty then [] else ' ' :: displayNames outs) ++ [';']))) () := rfl
    simp only [wsTagP, hsk1, h0]
  have hseg1 := namesSeg_parse ins hvi f (by omega)
    ('\n' :: (catStmts sts ++ 'o' :: 'u' :: 't' :: 'p' :: 'u' :: 't' :: 's' ::
      ((if outs.isEmpty then [] else ' ' :: displayNames outs) ++ [';'])))
  have hskW : skipWs (catStmts sts ++ 'o' :: 'u' :: 't' :: 'p' :: 'u' :: 't' :: 's' ::
      ((if outs.isEmpty then [] else ' ' :: displayNames outs) ++ [';']))
      = catStmts sts ++ 'o' :: 'u' :: 't' :: 'p' :: 'u' :: 't' :: 's' ::
        ((if outs.isEmpty then [] else ' ' :: displayNames outs) ++ [';']) :=
    skipWs_catStmts sts hvs (by decide) _
  have hsemi1 : wsTagP [';'] (';' :: '\n' ::
      (catStmts sts ++ 'o' :: 'u' :: 't' :: 'p' :: 'u' :: 't' :: 's' ::
        ((if outs.isEmpty then [] else ' ' :: displayNames outs) ++ [';'])))
      = .done (catStmts sts ++ 'o' :: 'u' :: 't' :: 'p' :: 'u' :: 't' :: 's' ::
        ((if outs.isEmpty then [] else ' ' :: displayNames outs) ++ [';'])) () := by
    have hsk1 : skipWs (';' :: '\n' ::
        (catStmts sts ++ 'o' :: 'u' :: 't' :: 'p' :: 'u' :: 't' :: 's' ::
          ((if outs.isEmpty then [] else ' ' :: displayNames outs) ++ [';'])))
        = ';' :: '\n' :: (catStmts sts ++ 'o' :: 'u' :: 't' :: 'p' :: 'u' :: 't' :: 's' ::
          ((if outs.isEmpty then [] else ' ' :: displayNames outs) ++ [';'])) :=
      skipWs_cons_not_ws _ (by decide)
    have h0 : tagP [';'] (';' :: '\n' ::
        (catStmts sts ++ 'o' :: 'u' :: 't' :: 'p' :: 'u' :: 't' :: 's' ::
          ((if outs.isEmpty then [] else ' ' :: displayNames outs) ++ [';'])))
        = .done ('\n' :: (catStmts sts ++ 'o' :: 'u' :: 't' :: 'p' :: 'u' :: 't' :: 's' ::
          ((if outs.isEmpty then [] else ' ' :: displayNames outs) ++ [';']))) () := rfl
    simp only [wsTagP, hsk1, h0]
    rw [skipWs_cons_ws _ (by decide), hskW]
  have hZerr : ∀ fu, Parser.statement fu ('o' :: 'u' :: 't' :: 'p' :: 'u' :: 't' :: 's' ::
      ((if outs.isEmpty then [] else ' ' :: displayNames outs) ++ [';'])) = .error := by
    intro fu
    cases outs with
    | nil =>
        simp only [List.isEmpty_nil, if_true, List.nil_append]
        exact statement_error_outputs fu (by decide) []
    | cons n ns =>
        simp only [List.isEmpty_cons, Bool.false_eq_true, if_false, List.cons_append]
        exact statement_error_outputs fu (by decide) _
  have hstmts : Parser.statements f []
      (catStmts sts ++ 'o' :: 'u' :: 't' :: 'p' :: 'u' :: 't' :: 's' ::
        ((if outs.isEmpty then [] else ' ' :: displayNames outs) ++ [';']))
      = .done ('o' :: 'u' :: 't' :: 'p' :: 'u' :: 't' :: 's' ::
        ((if outs.isEmpty then [] else ' ' :: displayNames outs) ++ [';'])) sts := by
    have := statements_display sts hvs [] f (by omega)
      ('o' :: 'u' :: 't' :: 'p' :: 'u' :: 't' :: 's' ::
        ((if outs.isEmpty then [] else ' ' :: displayNames outs) ++ [';']))
      hZerr (skipWs_cons_not_ws _ (by decide))
    simpa using this
  have hkw2 : wsTagP "outputs".data ('o' :: 'u' :: 't' :: 'p' :: 'u' :: 't' :: 's' ::
      ((if outs.isEmpty then [] else ' ' :: displayNames outs) ++ [';']))
      = .done (skipWs ((if outs.isEmpty then [] else ' ' :: displayNames outs) ++ [';'])) () := by
    have hsk1 : skipWs ('o' :: 'u' :: 't' :: 'p' :: 'u' :: 't' :: 's' ::
        ((if outs.isEmpty then [] else ' ' :: displayNames outs) ++ [';']))
        = 'o' :: 'u' :: 't' :: 'p' :: 'u' :: 't' :: 's' ::
          ((if outs.isEmpty then [] else ' ' :: displayNames outs) ++ [';']) :=
      skipWs_cons_not_ws _ (by decide)
    have h0 : tagP "outputs".data ('o' :: 'u' :: 't' :: 'p' :: 'u' :: 't' :: 's' ::
        ((if outs.isEmpty then [] else ' ' :: displayNames outs) ++ [';']))
        = .done ((if outs.isEmpty then [] else ' ' :: displayNames outs) ++ [';']) () := rfl
    simp only [wsTagP, hsk1, h0]
  have hseg2 : Parser.nameList f
      (skipWs ((if outs.isEmpty then [] else ' ' :: displayNames outs) ++ [';']))
      = .done [';'] outs := namesSeg_parse outs hvo f (by omega) []
  have hsemi2 : wsTagP [';'] [';'] = .done [] () := rfl
  simp only [Parser.program, hkw, hseg1, hsemi1, hstmts, hkw2, hseg2, hsemi2]

/-- A rendered valid program parses back to itself through the `parse`
entry point, with no residue. -/
theorem parse_display (p : Program) (hv : validProgram p = true) (fuel : Nat)
    (hf : fuelProg p ≤ fuel) :
    Parser.parse fuel (displayProgram p) = .done [] p := by
  simp only [Parser.parse, program_display p hv fuel hf]
  rfl

/-- C2 counterexample: the program `r = (1 - 2) + 3` built as the AST
`Operation(Add, Operation(Subtract, 1, 2), 3)` — well-formed, with valid
names and in-range literals — renders with parentheses around the
lower-precedence child, exactly as the printer prescribes, but parsing the
rendered text yields an AST with an explicit `Group` node around the
subtraction, which is not structurally equal to the original: the round
trip `parse(display(ast)) == ast` fails for this valid program. -/
theorem program_round_trip_counterexample :
    displayProgram (Program.mk []
      ⟨[Statement.VarAssignment ⟨"r"⟩
        (Expression.Operation .Add
          (.Operation .Subtract (.Operand (.I64 1)) (.Operand (.I64 2)))
          (.Operand (.I64 3)))]⟩
      [⟨"r"⟩]) = "inputs;\nr = (1 - 2) + 3;\noutputs r;".data ∧
    Parser.parse 50 (displayProgram (Program.mk []
      ⟨[Statement.VarAssignment ⟨"r"⟩
        (Expression.Operation .Add
          (.Operation .Subtract (.Operand (.I64 1)) (.Operand (.I64 2)))
          (.Operand (.I64 3)))]⟩
      [⟨"r"⟩]))
      = .done [] (Program.mk []
        ⟨[Statement.VarAssignment ⟨"r"⟩
          (Expression.Operation .Add
            (.Operand (.Group (.Operation .Subtract (.Operand (.I64 1))
              (.Operand (.I64 2)))))
            (.Operand (.I64 3)))]⟩
        [⟨"r"⟩]) ∧
    (Program.mk []
      ⟨[Statement.VarAssignment ⟨"r"⟩
        (Expression.Operation .Add
          (.Operand (.Group (.Operation .Subtract (.Operand (.I64 1)) (.Operand (.I64 2)))))
          (.Operand (.I64 3)))]⟩
      [⟨"r"⟩]) ≠
    (Program.mk []
      ⟨[Statement.VarAssignment ⟨"r"⟩
        (Expression.Operation .Add
          (.Operation .Subtract (.Operand (.I64 1)) (.Operand (.I64 2)))
          (.Operand (.I64 3)))]⟩
      [⟨"r"⟩]) := by
  refine ⟨by rfl, by rfl, ?_⟩
  intro h
  simp at h

/-- C2 amended: the round trip holds exactly on the parser's image — ASTs
in precedence-canonical shape (in every `Operation`, the left child's root
operator is of greater-or-equal precedence and the right child's root
operator of strictly greater precedence, recursively; names are valid
non-reserved identifiers and literals are in the signed 64-bit range).
For every such expression, rendering and reparsing (with the statement
terminator that follows every expression in program text) returns the
identical AST, and for every such program, `parse(display(program))`
returns the identical program, at any sufficient fuel. -/
theorem display_parse_round_trip :
    (∀ (e : Expression) (fuel : Nat), validE e = true → fuelE e ≤ fuel →
      Parser.expression fuel (displayExpr e ++ [';']) = .done [';'] e) ∧
    (∀ (p : Program) (fuel : Nat), validProgram p = true → fuelProg p ≤ fuel →
      Parser.parse fuel (displayProgram p) = .done [] p) := by
  constructor
  · intro e fuel hv hf
    have := expression_display e hv fuel hf [';'] (exprStopB_cons_stop (by decide) [])
    rwa [skipWs_cons_not_ws [] (by decide)] at this
  · intro p fuel hv hf
    exact parse_display p hv fuel hf

/-- C2 witness: the round trip at the concrete program
`inputs a; b = a + 2; outputs b;` and the concrete expression `1 + 2`. -/
theorem display_parse_round_trip_witness :
    Parser.parse 100 (displayProgram (Program.mk [⟨"a"⟩]
      ⟨[Statement.VarAssignment ⟨"b"⟩
        (Expression.Operation .Add (.Operand (.VarSubstitution ⟨"a"⟩)) (.Operand (.I64 2)))]⟩
      [⟨"b"⟩]))
      = .done [] (Program.mk [⟨"a"⟩]
        ⟨[Statement.VarAssignment ⟨"b"⟩
          (Expression.Operation .Add (.Operand (.VarSubstitution ⟨"a"⟩))
            (.Operand (.I64 2)))]⟩
        [⟨"b"⟩]) ∧
    Parser.expression 20
      (displayExpr (Expression.Operation .Add (.Operand (.I64 1)) (.Operand (.I64 2))) ++ [';'])
      = .done [';'] (Expression.Operation .Add (.Operand (.I64 1)) (.Operand (.I64 2))) :=
  ⟨display_parse_round_trip.2 (Program.mk [⟨"a"⟩]
      ⟨[Statement.VarAssignment ⟨"b"⟩
        (Expression.Operation .Add (.Operand (.VarSubstitution ⟨"a"⟩)) (.Operand (.I64 2)))]⟩
      [⟨"b"⟩]) 100 (by rfl) (by decide),
   display_parse_round_trip.1
     (Expression.Operation .Add (.Operand (.I64 1)) (.Operand (.I64 2))) 20
     (by rfl) (by decide)⟩

end Math
